import Mathlib

/-!
Xapian matcher core: double codec, positional phrase predicates, estimate stack.

A shallow embedding of `common/serialise-double.cc`, `matcher/exactphrasepostlist.cc`,
`matcher/phrasepostlist.cc`, the estimate stack of `matcher/localsubmatch.h` and
`MaxPostList::erase_sublist` of `matcher/maxpostlist.h`, with the properties the
specification states about them.

The C++ `double` is IEEE-754 binary64 (`FLT_RADIX == 2`, `DBL_MANT_DIG == 53`,
`DBL_MAX_EXP == 1024`), modelled by its three bit fields, so that equality of two
`Double`s is equality of their bit patterns.  Arithmetic is exact dyadic arithmetic
followed by round-to-nearest-even, which is what the hardware computes.
-/

namespace Xapian

/-! ## IEEE-754 binary64 -/

/-- A binary64 bit pattern: sign bit, 11-bit biased exponent field, 52-bit fraction field. -/
structure Double where
  sign : Bool
  expo : Nat
  frac : Nat
deriving DecidableEq, Repr

/-- Number of binary digits of `n` (0 for 0), by halving at most `fuel` times. -/
def bitlenAux : Nat → Nat → Nat
  | 0, _ => 0
  | fuel + 1, n => if n = 0 then 0 else bitlenAux fuel (n / 2) + 1

/-- Number of binary digits of `n`: the least `k` with `n < 2 ^ k`. -/
def bitlen (n : Nat) : Nat := bitlenAux n n

namespace Double

/-- The pattern denotes a finite number (exponent field below all-ones). -/
def Finite (x : Double) : Prop := x.expo < 2047 ∧ x.frac < 2 ^ 52

instance (x : Double) : Decidable x.Finite := by unfold Finite; infer_instance

def isNaN (x : Double) : Bool := decide (2047 ≤ x.expo) && x.frac != 0

def isInf (x : Double) : Bool := decide (2047 ≤ x.expo) && x.frac == 0

/-- Either zero, `+0.0` or `-0.0`. -/
def isZero (x : Double) : Bool := x.expo == 0 && x.frac == 0

/-- Integer significand of a finite pattern: the value is `mant * 2 ^ ex`. -/
def mant (x : Double) : Nat := if x.expo = 0 then x.frac else 2 ^ 52 + x.frac

/-- Exponent of the unit in the last place of a finite pattern. -/
def ex (x : Double) : Int := (if x.expo = 0 then 1 else (x.expo : Int)) - 1075

def zero : Double := ⟨false, 0, 0⟩

def negZero : Double := ⟨true, 0, 0⟩

/-- The value `HUGE_VAL` (positive infinity), or negative infinity when `s` is set. -/
def inf (s : Bool) : Double := ⟨s, 2047, 0⟩

def nan : Double := ⟨false, 2047, 2 ^ 51⟩

/-- Unary minus flips the sign bit. -/
def neg (x : Double) : Double := ⟨!x.sign, x.expo, x.frac⟩

/-- The quotient `m / 2 ^ k` rounded to the nearest integer, ties to even. -/
def roundShift (m k : Nat) : Nat :=
  let q := m / 2 ^ k
  let r := m % 2 ^ k
  if 2 ^ k < 2 * r ∨ (2 * r = 2 ^ k ∧ q % 2 = 1) then q + 1 else q

/-- Bit pattern with significand `m < 2 ^ 53` at ulp exponent `q`; overflow gives infinity. -/
def pack (s : Bool) (m : Nat) (q : Int) : Double :=
  if m < 2 ^ 52 then ⟨s, 0, m⟩
  else if 2047 ≤ q + 1075 then inf s
  else ⟨s, (q + 1075).toNat, m - 2 ^ 52⟩

/-- The binary64 nearest to `(-1)^s * m * 2 ^ e` (round to nearest, ties to even). -/
def ofDyadic (s : Bool) (m : Nat) (e : Int) : Double :=
  if m = 0 then ⟨s, 0, 0⟩
  else
    let q : Int := max (e + (bitlen m : Int) - 53) (-1074)
    let r : Nat := if q ≤ e then m * 2 ^ (e - q).toNat else roundShift m (q - e).toNat
    if r = 2 ^ 53 then pack s (2 ^ 52) (q + 1) else pack s r q

/-- Conversion of an integer to double, `double(i)`. -/
def ofInt (i : Int) : Double := ofDyadic (decide (i < 0)) i.natAbs 0

/-- Conversion of an unsigned char to double. -/
def ofNat (n : Nat) : Double := ofDyadic false n 0

/-- Order key of a non-NaN pattern: the sign-magnitude integer. -/
def key (x : Double) : Int :=
  if x.sign then -((x.expo * 2 ^ 52 + x.frac : Nat) : Int) else ((x.expo * 2 ^ 52 + x.frac : Nat) : Int)

/-- The comparison `a < b`; false when either is NaN, and `-0.0 < 0.0` is false. -/
def lt (a b : Double) : Bool := !a.isNaN && !b.isNaN && decide (a.key < b.key)

/-- IEEE multiplication. -/
def mul (a b : Double) : Double :=
  if a.isNaN || b.isNaN then nan
  else if a.isInf || b.isInf then
    (if a.isZero || b.isZero then nan else inf (xor a.sign b.sign))
  else ofDyadic (xor a.sign b.sign) (a.mant * b.mant) (a.ex + b.ex)

/-- IEEE addition. -/
def add (a b : Double) : Double :=
  if a.isNaN || b.isNaN then nan
  else if a.isInf then (if b.isInf && (a.sign != b.sign) then nan else a)
  else if b.isInf then b
  else
    let e : Int := min a.ex b.ex
    let x : Int := (if a.sign then -1 else 1) * ((a.mant * 2 ^ (a.ex - e).toNat : Nat) : Int)
    let y : Int := (if b.sign then -1 else 1) * ((b.mant * 2 ^ (b.ex - e).toNat : Nat) : Int)
    if x + y = 0 then ⟨a.sign && b.sign, 0, 0⟩
    else ofDyadic (decide (x + y < 0)) (x + y).natAbs e

/-- IEEE subtraction. -/
def sub (a b : Double) : Double := add a (neg b)

/-- The C library `frexp`: a fraction in `[0.5, 1)` and a binary exponent with
`v = fraction * 2 ^ exponent`; zero gives `(v, 0)`.  For infinities and NaN the stored
exponent is unspecified by C; glibc stores 0. -/
def frexp (v : Double) : Double × Int :=
  if 2047 ≤ v.expo ∨ v.isZero then (v, 0)
  else if v.expo = 0 then
    (⟨v.sign, 1022, v.frac * 2 ^ (53 - bitlen v.frac) - 2 ^ 52⟩, (bitlen v.frac : Int) - 1074)
  else (⟨v.sign, 1022, v.frac⟩, (v.expo : Int) - 1022)

/-- The C library `ldexp`: `v * 2 ^ n`, correctly rounded. -/
def ldexp (v : Double) (n : Int) : Double :=
  if 2047 ≤ v.expo ∨ v.isZero then v else ofDyadic v.sign v.mant (v.ex + n)

/-- The conversion `static_cast<unsigned char>(v)`: the integer part of `v`, reduced to
eight bits.  (C++ defines it only for `-1 < v < 256`, which is all the codec passes.) -/
def toUChar (v : Double) : Nat :=
  if 2047 ≤ v.expo then 0
  else if 0 ≤ v.ex then (v.mant * 2 ^ v.ex.toNat) % 256
  else (v.mant / 2 ^ (-v.ex).toNat) % 256

end Double

/-! ## serialise-double.cc -/

/-- The exception `Xapian::NetworkError`. -/
inductive Error
  | NetworkError
deriving DecidableEq, Repr

/-- Float.h constant. -/
def DBL_MANT_DIG : Nat := 53

/-- Float.h constant. -/
def DBL_MAX_EXP : Nat := 1024

/-- Float.h constant: the largest finite double. -/
def DBL_MAX : Double := ⟨false, 2046, 2 ^ 52 - 1⟩

def MAX_MANTISSA_BYTES : Nat := (DBL_MANT_DIG + 7 + 7) / 8

def MAX_EXP : Nat := (DBL_MAX_EXP + 1) / 8

/-- The function `base256ify_double`: returns the replaced `v` and the base-256 exponent.
`exp & 7` and `exp >>= 3` on a two's complement `int` are `exp % 8` and the floor
quotient `exp / 8`. -/
def base256ify_double (v : Double) : Double × Int :=
  let r := Double.frexp v
  let exp : Int := r.2 - 1
  (Double.ldexp r.1 ((exp % 8) + 1), exp / 8)

/-- Lines 97-113 of `serialise_double`: the first byte (mantissa length not yet patched in)
and the optional one or two exponent bytes. -/
def serialise_exponent (negative : Bool) (exp : Int) : Except Error (List Nat) :=
  if exp ≤ 6 ∧ exp ≥ -7 then
    let b : Nat := (exp + 7).toNat % 256
    .ok [if negative then b ||| 0x80 else b]
  else if exp ≥ -128 ∧ exp < 127 then
    .ok [if negative then 0x8e else 0x0e, (exp + 128).toNat % 256]
  else if exp < -32768 ∨ exp > 32767 then
    .error Error.NetworkError
  else
    .ok [if negative then 0x8f else 0x0f,
         (exp + 32768).toNat &&& 0xff,
         ((exp + 32768).toNat >>> 8) % 256]

/-- The `do ... while (v != 0.0 && --maxbytes)` loop of `serialise_double`, entered with
`maxbytes` still to be pre-decremented: the bytes appended to `result`. -/
def serialise_mantissa : Nat → Double → List Nat
  | 0, _ => []
  | maxbytes + 1, v =>
    let byte := Double.toUChar v
    let v1 := Double.mul (Double.sub v (Double.ofNat byte)) (Double.ofNat 256)
    byte :: (if !v1.isZero && maxbytes != 0 then serialise_mantissa maxbytes v1 else [])

/-- Lines 125-129: store `n - 1` in bits 4..6 of `result[0]` when `n > 1`. -/
def patch_length (result : List Nat) (n : Nat) : List Nat :=
  if n > 1 then result.set 0 ((result.headD 0 ||| ((n - 1) <<< 4)) % 256) else result

/-- The function `serialise_double`. -/
def serialise_double (v : Double) : Except Error (List Nat) :=
  let negative := Double.lt v Double.zero
  let v := if negative then Double.neg v else v
  let r := base256ify_double v
  match serialise_exponent negative r.2 with
  | .error e => .error e
  | .ok result =>
    let mantissa := serialise_mantissa (min MAX_MANTISSA_BYTES 8) r.1
    .ok (patch_length (result ++ mantissa) mantissa.length)

/-- The byte at offset `i` from the entry value of `*p`.  Inside the buffer `[*p, end)`
it is `buf[i]`; at or beyond `end` it is whatever byte the memory after the buffer
holds, `past (i - buf.length) % 256`. -/
def peek (past : Nat → Nat) (buf : List Nat) (i : Nat) : Nat :=
  if h : i < buf.length then buf[i] else past (i - buf.length) % 256

/-- The value of a plain `char` holding the byte `b`; plain `char` is signed on some
platforms and unsigned on others. -/
def charValue (char_signed : Bool) (b : Nat) : Int :=
  if char_signed && decide (128 ≤ b) then (b : Int) - 256 else (b : Int)

/-- The static `dbl_max_mantissa` of `unserialise_double`, after its initialiser ran. -/
def dbl_max_mantissa : Double := (base256ify_double DBL_MAX).1

/-- The static `dbl_max_exp` of `unserialise_double`. -/
def dbl_max_exp : Int := (base256ify_double DBL_MAX).2

/-- The literal `0.00390625`, which is `1/256`. -/
def inv256 : Double := ⟨false, 1015, 0⟩

/-- What a returning call of `unserialise_double` did: the value returned, the offset of
`*p` on return, and the offsets it dereferenced, in order. -/
structure Unserialised where
  value : Double
  pos : Nat
  reads : List Nat
deriving DecidableEq, Repr

/-- Lines 148-162 of `unserialise_double`: the decoded exponent, the offset of `*p`
after the exponent bytes, and the offsets read. -/
def unserialise_exponent (past : Nat → Nat) (buf : List Nat) (first : Nat) :
    Except Error (Int × Nat × List Nat) :=
  let exp : Nat := first &&& 0x0f
  if exp ≥ 14 then
    let bigexp : Nat := peek past buf 1
    if exp = 15 then
      if buf.length = 2 then .error Error.NetworkError
      else .ok (((bigexp ||| (peek past buf 2 <<< 8) : Nat) : Int) - 32768, 3, [1, 2])
    else .ok ((bigexp : Int) - 128, 2, [1])
  else .ok ((exp : Int) - 7, 1, [])

/-- The loop `while (mantissa_len--) { v *= 0.00390625; v += double(uchar(*--q)); }`:
the final `v` and the offsets read. -/
def unserialise_mantissa (past : Nat → Nat) (buf : List Nat) :
    Nat → Nat → Double → Double × List Nat
  | 0, _, v => (v, [])
  | mantissa_len + 1, q, v =>
    let v1 := Double.add (Double.mul v inv256) (Double.ofNat (peek past buf (q - 1)))
    let r := unserialise_mantissa past buf mantissa_len (q - 1) v1
    (r.1, (q - 1) :: r.2)

/-- The function `unserialise_double` on the buffer `buf = [*p, end)`. -/
def unserialise_double (char_signed : Bool) (past : Nat → Nat) (buf : List Nat) :
    Except Error Unserialised :=
  if buf.length < 2 then .error Error.NetworkError
  else
    let first := peek past buf 0
    if first = 0 ∧ peek past buf 1 = 0 then .ok ⟨Double.zero, 2, [0, 1]⟩
    else
      let reads0 := if first = 0 then [0, 1] else [0]
      let negative : Bool := (first &&& 0x80) != 0
      let mantissa_len : Nat := ((first >>> 4) &&& 0x07) + 1
      match unserialise_exponent past buf first with
      | .error e => .error e
      | .ok (exp, p0, reads1) =>
        if buf.length - p0 < mantissa_len then .error Error.NetworkError
        else
          let p := p0 + mantissa_len
          let cmp : Bool := decide (exp = dbl_max_exp) &&
            Double.lt dbl_max_mantissa (Double.ofInt (charValue char_signed (peek past buf p)))
          let reads2 := if exp = dbl_max_exp then [p] else []
          let r : Double × List Nat :=
            if exp > dbl_max_exp ∨ cmp = true then (Double.inf false, [])
            else
              let m := unserialise_mantissa past buf mantissa_len p Double.zero
              (if exp ≠ 0 then Double.ldexp m.1 (exp * 8) else m.1, m.2)
          .ok ⟨if negative then Double.neg r.1 else r.1, p, reads0 ++ reads1 ++ reads2 ++ r.2⟩

/-- The argument `serialise_double` passes to `base256ify_double`: `v` after
`if (negative) v = -v`. -/
def serialise_abs (v : Double) : Double := if Double.lt v Double.zero then Double.neg v else v

/-- The base-256 exponent `serialise_double` computes for its argument (`exp`). -/
def base256_exponent (v : Double) : Int := (base256ify_double (serialise_abs v)).2

/-- The normalised mantissa `serialise_double` computes for its argument (`v` after the
call of `base256ify_double`). -/
def base256_mantissa (v : Double) : Double := (base256ify_double (serialise_abs v)).1

/-- The mantissa length `unserialise_double` reads from the first byte. -/
def mantissa_len_of (first : Nat) : Nat := ((first >>> 4) &&& 0x07) + 1

/-- The number of bytes before the mantissa that the first byte announces: itself and
the exponent bytes. -/
def header_len_of (first : Nat) : Nat :=
  if first &&& 0x0f = 15 then 3 else if first &&& 0x0f = 14 then 2 else 1

/-- The magnitude of a finite pattern as a rational number. -/
def Double.mag (x : Double) : ℚ := (x.mant : ℚ) * 2 ^ x.ex

/-- The double nearest to `B / 2 ^ 56`: a mantissa in `[0, 256)` as a 64-bit fixed-point
number with 56 fraction bits. -/
def fix56 (B : Nat) : Double := Double.ofDyadic false B (-56)

/-- The number `B` has at most 53 significant bits. -/
def Rep53 (B : Nat) : Prop := ∃ m t, B = m * 2 ^ t ∧ m < 2 ^ 53

/-- One step of the decoding loop: `v *= 0.00390625; v += double(byte)`. -/
def unserialise_step (byte : Nat) (v : Double) : Double :=
  Double.add (Double.mul v inv256) (Double.ofNat byte)

/-! ## Position lists and terms -/

/-- Modelled from the spec: the type `Xapian::termpos`, an "unsigned integer position
within a document" (its typedef in xapian/types.h is not among the sources).  It is
`unsigned`, like the entries of `order` assigned to it: 32 bits, and arithmetic on it
wraps modulo this number. -/
def TERMPOS_MOD : Nat := 2 ^ 32

/-- Unsigned 32-bit addition. -/
def tp_add (a b : Nat) : Nat := (a + b) % TERMPOS_MOD

/-- Unsigned 32-bit subtraction. -/
def tp_sub (a b : Nat) : Nat := (a + (TERMPOS_MOD - b % TERMPOS_MOD)) % TERMPOS_MOD

/-- Modelled from the spec: the class `PositionList` (backends/positionlist.h is not
among the sources).  An "ordered ascending sequence of termpos; `next()` advances to the
first position; `skip_to(p)` advances to the first position ≥ p; `get_approx_size()`
returns a possibly-approximate count".  The cursor is the list of positions from the
current one on; before the first `next`/`skip_to` it is not started. -/
structure PositionList where
  started : Bool
  rest : List Nat
  approx_size : Nat
deriving DecidableEq, Repr, Inhabited

namespace PositionList

/-- The method `next()`: the first call moves onto the first position, later calls onto
the following one. -/
def next (pl : PositionList) : PositionList :=
  if pl.started then { pl with rest := pl.rest.tail } else { pl with started := true }

/-- The method `skip_to(p)`: forward to the first position `≥ p` (never backwards). -/
def skip_to (pl : PositionList) (p : Nat) : PositionList :=
  { pl with started := true, rest := pl.rest.dropWhile (fun q => decide (q < p)) }

/-- The `bool` that `next()` and `skip_to()` return: false once the list is exhausted. -/
def ok (pl : PositionList) : Bool := !pl.rest.isEmpty

/-- The method `get_position()`. -/
def get_position (pl : PositionList) : Nat := pl.rest.headD 0

/-- The method `get_approx_size()`. -/
def get_approx_size (pl : PositionList) : Nat := pl.approx_size

end PositionList

/-- Modelled from the spec: a child `PostList` of a phrase node, positioned on the
candidate document: its wdf there, its positions there (ascending) and the approximate
size its position list reports. -/
structure Term where
  wdf : Nat
  positions : List Nat
  approx_size : Nat
deriving DecidableEq, Repr, Inhabited

/-- The method `read_position_list()` of a term: a fresh cursor over its positions. -/
def Term.read_position_list (t : Term) : PositionList := ⟨false, t.positions, t.approx_size⟩

/-- Modelled from the spec: the "`accepted` and `rejected` counters" that the select node
maintains (selectpostlist.h, which declares them, is not among the sources), as natural
numbers: a match calls `test_doc` at most once per document, too few times for a
document count to wrap. -/
structure Counters where
  accepted : Nat
  rejected : Nat
deriving DecidableEq, Repr

/-- What a call of `test_doc` leaves behind: the value returned, the counters, the array
`order` (exact phrase only), and the indices of the terms whose `read_position_list` was
invoked, in order. -/
structure TestDoc where
  result : Bool
  counters : Counters
  order : List Nat
  opened : List Nat
deriving DecidableEq, Repr

/-- The exit `++accepted; RETURN(true)`. -/
def accept (c : Counters) (order opened : List Nat) : TestDoc :=
  ⟨true, ⟨c.accepted + 1, c.rejected⟩, order, opened⟩

/-- The exit `++rejected; RETURN(false)`. -/
def reject (c : Counters) (order opened : List Nat) : TestDoc :=
  ⟨false, ⟨c.accepted, c.rejected + 1⟩, order, opened⟩

/-! ## exactphrasepostlist.cc -/

/-- What the call `sort(order, order + terms.size(), TermCompare(terms))` may leave in
the array that held `order0`: a permutation of it, ascending by wdf.  `std::sort` is not
a stable sort, so terms of equal wdf may come out in either order, and which one depends
on the library; every array satisfying this is a possible outcome. -/
def sort_outcome (terms : List Term) (order0 order : List Nat) : Prop :=
  order.Perm order0 ∧
  order.Sorted (fun a b => (terms.getD a default).wdf ≤ (terms.getD b default).wdf)

/-- One outcome of the call `sort(order, order + terms.size(), TermCompare(terms))`, that
of a stable sort.  It is the outcome of `std::sort` when no two terms have the same wdf;
otherwise `std::sort` may leave another of the arrays `sort_outcome` describes.  What is
stated of `exact_phrase_test_doc` below is proved for every permutation in place of this
one, and where the content of the array matters the statement is over `sort_outcome`. -/
def sort_order (terms : List Term) (order : List Nat) : List Nat :=
  order.insertionSort (fun a b => (terms.getD a default).wdf ≤ (terms.getD b default).wdf)

/-- The method `ExactPhrasePostList::start_position_list`. -/
def exact_start_position_list (terms : List Term) (order : List Nat)
    (poslists : List PositionList) (i : Nat) : List PositionList :=
  poslists.set i (terms.getD (order.getD i 0) default).read_position_list

/-- The `while (true)` loop of `ExactPhrasePostList::test_doc` (lines 115-139), with the
locals `read_hwm`, `base` and `i`; `none` when `fuel` iterations do not reach a return. -/
def exact_phrase_loop (terms : List Term) (order : List Nat) (c : Counters) :
    Nat → List PositionList → Nat → Nat → Nat → List Nat → Option TestDoc
  | 0, _, _, _, _, _ => none
  | fuel + 1, poslists, read_hwm, base, i, opened =>
    let poslists1 := if i > read_hwm then exact_start_position_list terms order poslists i
      else poslists
    let read_hwm1 := if i > read_hwm then i else read_hwm
    let opened1 := if i > read_hwm then opened ++ [order.getD i 0] else opened
    let idx := order.getD i 0
    let required := tp_add base idx
    let pl := (poslists1.getD i default).skip_to required
    if pl.ok = false then some (reject c order opened1)
    else if pl.get_position = required then
      if i + 1 = terms.length then some (accept c order opened1)
      else exact_phrase_loop terms order c fuel (poslists1.set i pl) read_hwm1 base (i + 1)
        opened1
    else
      let p0 := ((poslists1.set i pl).getD 0 default).skip_to
        (tp_add (tp_sub pl.get_position idx) (order.getD 0 0))
      if p0.ok = false then some (reject c order opened1)
      else exact_phrase_loop terms order c fuel ((poslists1.set i pl).set 0 p0) read_hwm1
        (tp_sub p0.get_position (order.getD 0 0)) 1 opened1

/-- The method `ExactPhrasePostList::test_doc`, from the member array `order` and the
counters as the previous call left them.  The loop is given as many iterations as a
run without wraparound can take; `none` means it did not return within them. -/
def exact_phrase_test_doc (terms : List Term) (order0 : List Nat) (c : Counters) :
    Option TestDoc :=
  let order := sort_order terms order0
  let poslists0 := exact_start_position_list terms order
    (List.replicate terms.length default) 0
  let pl0 := (poslists0.getD 0 default).skip_to (order.getD 0 0)
  if pl0.ok = false then some (reject c order [order.getD 0 0])
  else
    let poslists1 := exact_start_position_list terms order (poslists0.set 0 pl0) 1
    let opened := [order.getD 0 0, order.getD 1 0]
    if (poslists1.getD 0 default).get_approx_size > (poslists1.getD 1 default).get_approx_size
    then
      let pl1 := (poslists1.getD 1 default).skip_to (order.getD 1 0)
      if pl1.ok = false then some (reject c order opened)
      else
        let poslists2 := ((poslists1.set 1 pl1).set 0 pl1).set 1 pl0
        let order1 := (order.set 0 (order.getD 1 0)).set 1 (order.getD 0 0)
        exact_phrase_loop terms order1 c (pl1.rest.length * terms.length + terms.length)
          poslists2 1 (tp_sub pl1.get_position (order1.getD 0 0)) 1 opened
    else
      exact_phrase_loop terms order c (pl0.rest.length * terms.length + terms.length)
        poslists1 1 (tp_sub pl0.get_position (order.getD 0 0)) 1 opened

/-- The phrase occurs at position `p`: term `k` of the phrase occupies position `p + k`,
for every `k`. -/
def PhraseAt (terms : List Term) (p : Nat) : Prop :=
  ∀ k, k < terms.length → p + k ∈ (terms.getD k default).positions

/-- What is known of a cursor over the ascending list `L` that has only been moved
towards targets up to `t`: it still holds every position of `L` from `t` on. -/
def CursorInv (pl : PositionList) (L : List Nat) (t : Nat) : Prop :=
  pl.rest.Sorted (· < ·) ∧ (∀ q ∈ pl.rest, q ∈ L) ∧ (∀ q ∈ L, t ≤ q → q ∈ pl.rest)

/-- The state of the loop of `ExactPhrasePostList::test_doc` at the top of an iteration:
the anchor cursor stands on `base + order[0]`, the cursors opened so far have not passed
the positions the current `base` requires, terms `order[1..i)` match at `base`, and no
phrase occurrence starts before `base`. -/
structure ExactInv (terms : List Term) (order : List Nat) (poslists : List PositionList)
    (read_hwm base i : Nat) : Prop where
  hi : 1 ≤ i ∧ i < terms.length
  hhwm : 1 ≤ read_hwm ∧ read_hwm < terms.length ∧ i ≤ read_hwm + 1
  hlen : poslists.length = terms.length
  hanchor : CursorInv (poslists.getD 0 default) (terms.getD (order.getD 0 0) default).positions
    (base + order.getD 0 0)
  hhead : (poslists.getD 0 default).rest.head? = some (base + order.getD 0 0)
  hcur : ∀ j, 1 ≤ j → j ≤ read_hwm →
    CursorInv (poslists.getD j default) (terms.getD (order.getD j 0) default).positions
      (base + order.getD j 0)
  hmatch : ∀ j, 1 ≤ j → j < i →
    base + order.getD j 0 ∈ (terms.getD (order.getD j 0) default).positions
  hnone : ∀ p, PhraseAt terms p → base ≤ p

/-! ## phrasepostlist.cc -/

/-- The method `PhrasePostList::start_position_list`. -/
def phrase_start_position_list (terms : List Term) (poslists : List PositionList) (i : Nat) :
    List PositionList :=
  poslists.set i (terms.getD i default).read_position_list

/-- The two nested `do ... while` loops of `PhrasePostList::test_doc` (lines 74-95), one
iteration of the inner loop per step, with the locals `read_hwm`, `base`, `pos` and `i`
(its value before the `++i`); `none` when `fuel` steps do not reach a return. -/
def phrase_loop (terms : List Term) (window : Nat) (c : Counters) :
    Nat → List PositionList → Nat → Nat → Nat → Nat → List Nat → Option TestDoc
  | 0, _, _, _, _, _, _ => none
  | fuel + 1, poslists, read_hwm, base, pos, i, opened =>
    if i + 1 = terms.length then some (accept c [] opened)
    else
      let poslists1 := if i + 1 > read_hwm then phrase_start_position_list terms poslists (i + 1)
        else poslists
      let read_hwm1 := if i + 1 > read_hwm then i + 1 else read_hwm
      let opened1 := if i + 1 > read_hwm then opened ++ [i + 1] else opened
      let pl := (poslists1.getD (i + 1) default).skip_to (tp_add pos 1)
      if pl.ok = false then some (reject c [] opened1)
      else
        let b := tp_add pl.get_position (terms.length - (i + 1))
        if tp_sub b base ≤ window then
          phrase_loop terms window c fuel (poslists1.set (i + 1) pl) read_hwm1 base
            pl.get_position (i + 1) opened1
        else
          let p0 := ((poslists1.set (i + 1) pl).getD 0 default).skip_to (tp_sub b window)
          if p0.ok = false then some (reject c [] opened1)
          else phrase_loop terms window c fuel ((poslists1.set (i + 1) pl).set 0 p0) read_hwm1
            p0.get_position p0.get_position 0 opened1

/-- The method `PhrasePostList::test_doc` with window `window`.  The loop is given as
many steps as a run without wraparound can take; `none` means it did not return within
them. -/
def phrase_test_doc (terms : List Term) (window : Nat) (c : Counters) : Option TestDoc :=
  let poslists0 := phrase_start_position_list terms (List.replicate terms.length default) 0
  let pl0 := (poslists0.getD 0 default).next
  if pl0.ok = false then some (reject c [] [0])
  else
    phrase_loop terms window c (pl0.rest.length * terms.length + terms.length + 1)
      (poslists0.set 0 pl0) 0 pl0.get_position pl0.get_position 0 [0]

/-- Positions `ps = [p₁, …, p_N]`, strictly increasing, with `pᵢ` a position of term `i`. -/
def PhraseChain (terms : List Term) (ps : List Nat) : Prop :=
  ps.length = terms.length ∧ ps.Sorted (· < ·) ∧
  ∀ k, k < terms.length → ps.getD k 0 ∈ (terms.getD k default).positions

/-- The terms occur in order within the window: a chain with `p_N - p₁ < window`. -/
def WindowOccurrence (terms : List Term) (window : Nat) (ps : List Nat) : Prop :=
  PhraseChain terms ps ∧ ps.getD (terms.length - 1) 0 < ps.getD 0 0 + window

/-- The state of the loops of `PhrasePostList::test_doc` at the top of an inner
iteration: cursors `0..i` stand on a strictly increasing chain from `base` to `pos` that
is the earliest one from any anchor `≥ base`, each opened cursor still holds every
position after the one its predecessor stands on, and no occurrence within the window
starts before `base`. -/
structure PhraseInv (terms : List Term) (window : Nat) (poslists : List PositionList)
    (read_hwm base pos i : Nat) : Prop where
  hi : i < terms.length
  hhwm : read_hwm < terms.length ∧ i ≤ read_hwm
  hlen : poslists.length = terms.length
  hanchor : CursorInv (poslists.getD 0 default) (terms.getD 0 default).positions base
  hhead : (poslists.getD 0 default).rest.head? = some base
  hpos : (poslists.getD i default).rest.head? = some pos
  hne : ∀ k, k ≤ read_hwm → (poslists.getD k default).ok = true
  hcur : ∀ k, 1 ≤ k → k ≤ read_hwm →
    CursorInv (poslists.getD k default) (terms.getD k default).positions
      ((poslists.getD (k - 1) default).get_position + 1)
  hinc : ∀ k, 1 ≤ k → k ≤ i →
    (poslists.getD (k - 1) default).get_position < (poslists.getD k default).get_position
  hbp : base ≤ pos
  hwin : 1 ≤ i → pos + (terms.length - i) ≤ base + window
  hmin : ∀ ps, PhraseChain terms ps → base ≤ ps.getD 0 0 → pos ≤ ps.getD i 0
  hnone : ∀ ps, WindowOccurrence terms window ps → base ≤ ps.getD 0 0

/-! ## Estimates of the phrase nodes -/

/-- Modelled from the spec: the source posting list `pl` of a `SelectPostList` (that class
and `PostList` are not among the sources), as far as a phrase node uses it: "`termfreq()`
— estimated number of matching documents", and the candidate documents it yields, each
given by the child terms positioned on it. -/
structure Source where
  termfreq : Nat
  docs : List (List Term)
deriving Repr

/-- The method `ExactPhrasePostList::get_termfreq`: `pl->get_termfreq() / 4`, a division
of unsigned integers. -/
def exact_phrase_get_termfreq (pl : Source) : Nat := pl.termfreq / 4

/-- The method `PhrasePostList::get_termfreq`: `pl->get_termfreq() / 3`. -/
def phrase_get_termfreq (pl : Source) : Nat := pl.termfreq / 3

/-- The method `ExactPhrasePostList::get_wdf`: the wdf of the first term, then `min` with
the wdf of each further term.  `none` stands for dereferencing `terms.begin()` of an empty
vector, which the constructor's `Assert(n > 1)` excludes. -/
def exact_phrase_get_wdf : List Term → Option Nat
  | [] => none
  | t :: ts => some (ts.foldl (fun wdf i => min wdf i.wdf) t.wdf)

/-- The method `PhrasePostList::get_wdf`, the same loop. -/
def phrase_get_wdf : List Term → Option Nat
  | [] => none
  | t :: ts => some (ts.foldl (fun wdf i => min wdf i.wdf) t.wdf)

/-! ## localsubmatch.h: the estimate stack -/

/-- The number of values of `unsigned`, the type of `elements_to_pop`: 32 bits. -/
def UINT_MOD : Nat := 2 ^ 32

/-- Modelled from the spec: the class `EstimateOp` (estimateop.h is not among the
sources), a "node in a singly-linked stack" carrying "an opcode" and "the subquery-count
arity consumed from the stack beneath it", which `get_subquery_count()` returns.  The link
`get_next()` is the tail of the list that holds the stack, the null pointer the empty
list. -/
structure EstimateOp where
  type : Nat
  subquery_count : Nat
deriving DecidableEq, Repr

/-- The method `LocalSubMatch::add_op`: the new op is linked in front of the stack. -/
def add_op (estimate_stack : List EstimateOp) (op : EstimateOp) : List EstimateOp :=
  op :: estimate_stack

/-- The `for` loop of `LocalSubMatch::pop_op`, entered at its test with the current value
of `elements_to_pop`: the stack when the loop ends, or `none` when
`estimate_stack->get_next()` is reached with `estimate_stack` null. -/
def pop_op_loop : List EstimateOp → Nat → Option (List EstimateOp)
  | [], elements_to_pop => if elements_to_pop = 0 then some [] else none
  | p :: next, elements_to_pop =>
    if elements_to_pop = 0 then some (p :: next)
    else pop_op_loop next
      (((elements_to_pop + p.subquery_count) % UINT_MOD + (UINT_MOD - 1)) % UINT_MOD)

/-- The method `LocalSubMatch::pop_op`. -/
def pop_op (estimate_stack : List EstimateOp) : Option (List EstimateOp) :=
  pop_op_loop estimate_stack 1

mutual
/-- A query tree as far as the estimate stack sees it: the opcode of the node and its
child subtrees, in order. -/
inductive OpTree where
  | node : Nat → OpForest → OpTree
/-- The child subtrees of a node. -/
inductive OpForest where
  | nil : OpForest
  | cons : OpTree → OpForest → OpForest
end

mutual
/-- Number of ops of a tree. -/
def OpTree.size : OpTree → Nat
  | .node _ kids => kids.size + 1
/-- Number of ops of the trees of a forest. -/
def OpForest.size : OpForest → Nat
  | .nil => 0
  | .cons t ts => t.size + ts.size
end

/-- Number of trees of a forest. -/
def OpForest.length : OpForest → Nat
  | .nil => 0
  | .cons _ ts => ts.length + 1

mutual
/-- The ops of a tree in post-order, each with the number of its child subtrees as
subquery count: the order in which building the tree calls `add_op`. -/
def OpTree.postorder : OpTree → List EstimateOp
  | .node type kids => kids.postorder ++ [⟨type, kids.length⟩]
/-- The ops of the trees of a forest, tree after tree. -/
def OpForest.postorder : OpForest → List EstimateOp
  | .nil => []
  | .cons t ts => t.postorder ++ ts.postorder
end

/-- The forest of `n` copies of a tree. -/
def OpForest.replicate : Nat → OpTree → OpForest
  | 0, _ => .nil
  | n + 1, t => .cons t (OpForest.replicate n t)

/-- A sequence of `add_op` calls, one per op of the list. -/
def add_ops (estimate_stack : List EstimateOp) (ops : List EstimateOp) : List EstimateOp :=
  ops.foldl add_op estimate_stack

/-! ## maxpostlist.h -/

/-- The number of values of `size_t`, the type of `n_kids` (64 bits). -/
def SIZE_MOD : Nat := 2 ^ 64

/-- The members of `MaxPostList` that `erase_sublist` touches, and a record of what it
did: `n_kids`; the array `plist`, one entry per allocated slot, each sub-postlist pointer
given by a number; the pointers passed to `delete`; the slots of `plist` read; the number
of calls of `matcher->force_recalc()`. -/
structure MaxPostList where
  n_kids : Nat
  plist : List Nat
  deleted : List Nat
  reads : List Nat
  force_recalc : Nat
deriving DecidableEq, Repr

/-- One iteration `plist[j] = plist[j + 1]` of the loop of `erase_sublist`; `none` when
the slot read lies outside the allocated array. -/
def erase_sublist_step (m : Option MaxPostList) (j : Nat) : Option MaxPostList :=
  match m with
  | none => none
  | some m =>
    match m.plist[j + 1]? with
    | none => none
    | some pl => some { m with plist := m.plist.set j pl, reads := m.reads ++ [j + 1] }

/-- The method `MaxPostList::erase_sublist`; `none` when a slot outside the allocated
array is read.  The loop runs `j` over `i, ..., n_kids - 1` for the decremented `n_kids`. -/
def erase_sublist (m : MaxPostList) (i : Nat) : Option MaxPostList :=
  match m.plist[i]? with
  | none => none
  | some pl =>
    let m1 : MaxPostList := { m with deleted := m.deleted ++ [pl], reads := m.reads ++ [i],
                                     n_kids := (m.n_kids + (SIZE_MOD - 1)) % SIZE_MOD }
    match (List.range' i (m1.n_kids - i)).foldl erase_sublist_step (some m1) with
    | none => none
    | some m2 => some { m2 with force_recalc := m2.force_recalc + 1 }

/-! ## Calls of test_doc -/

/-- The effect a call of `test_doc` that started with counters `c` and left `r` has on
the counters: it returned true and only `accepted` went up, by one, or it returned false
and only `rejected` went up, by one. -/
def counted_once (c : Counters) (r : TestDoc) : Prop :=
  (r.result = true ∧ r.counters.accepted = c.accepted + 1 ∧ r.counters.rejected = c.rejected) ∨
  (r.result = false ∧ r.counters.accepted = c.accepted ∧ r.counters.rejected = c.rejected + 1)

/-! ## The mantissa loop -/

/-- The state in which the `do ... while (v != 0.0 && --maxbytes)` loop of
`serialise_double` ends, entered like `serialise_mantissa`: the final `v` and the final
`maxbytes`.  The loop ended on `v != 0.0` being false when the final `v` is zero, and on
the byte budget when the final `maxbytes` is 0. -/
def serialise_mantissa_exit : Nat → Double → Double × Nat
  | 0, v => (v, 0)
  | maxbytes + 1, v =>
    let byte := Double.toUChar v
    let v1 := Double.mul (Double.sub v (Double.ofNat byte)) (Double.ofNat 256)
    if !v1.isZero then
      (if maxbytes != 0 then serialise_mantissa_exit maxbytes v1 else (v1, 0))
    else (v1, maxbytes + 1)

/-- The number `d_0 + d_1 / 256 + d_2 / 256^2 + ...` that a list of base-256 digits
denotes, most significant digit first. -/
def base256_digits_value : List Nat → ℚ
  | [] => 0
  | d :: ds => (d : ℚ) + base256_digits_value ds / 256

/-! ## The scan of the exact phrase, step by step -/

/-- What a run of the loop of `ExactPhrasePostList::test_doc` did with `base`: the
positions of `poslists[0]` from which `base` was computed, in order (the first before the
loop, then one per restart `i = 1`), the values `base` took, and whether one of the
unsigned subtractions `position - idx0` and `got - idx` had a left operand below its
right one. -/
structure ScanTrace where
  anchors : List Nat
  bases : List Nat
  underflow : Bool
deriving DecidableEq, Repr

/-- The loop of `ExactPhrasePostList::test_doc` as `exact_phrase_loop`, returning with
the result what the run did with `base`. -/
def exact_phrase_loop_trace (terms : List Term) (order : List Nat) (c : Counters) :
    Nat → List PositionList → Nat → Nat → Nat → List Nat → ScanTrace →
      Option (TestDoc × ScanTrace)
  | 0, _, _, _, _, _, _ => none
  | fuel + 1, poslists, read_hwm, base, i, opened, tr =>
    let poslists1 := if i > read_hwm then exact_start_position_list terms order poslists i
      else poslists
    let read_hwm1 := if i > read_hwm then i else read_hwm
    let opened1 := if i > read_hwm then opened ++ [order.getD i 0] else opened
    let idx := order.getD i 0
    let required := tp_add base idx
    let pl := (poslists1.getD i default).skip_to required
    if pl.ok = false then some (reject c order opened1, tr)
    else if pl.get_position = required then
      if i + 1 = terms.length then some (accept c order opened1, tr)
      else exact_phrase_loop_trace terms order c fuel (poslists1.set i pl) read_hwm1 base
        (i + 1) opened1 tr
    else
      let tr1 : ScanTrace :=
        ⟨tr.anchors, tr.bases, tr.underflow || decide (pl.get_position < idx)⟩
      let p0 := ((poslists1.set i pl).getD 0 default).skip_to
        (tp_add (tp_sub pl.get_position idx) (order.getD 0 0))
      if p0.ok = false then some (reject c order opened1, tr1)
      else exact_phrase_loop_trace terms order c fuel ((poslists1.set i pl).set 0 p0) read_hwm1
        (tp_sub p0.get_position (order.getD 0 0)) 1 opened1
        ⟨tr1.anchors ++ [p0.get_position],
         tr1.bases ++ [tp_sub p0.get_position (order.getD 0 0)],
         tr1.underflow || decide (p0.get_position < order.getD 0 0)⟩

/-- The method `ExactPhrasePostList::test_doc` from line 88 on, the call of `sort` having
left `order` in the array, with the loop allowed `fuel` iterations, whatever that
number, and returning with the result what the run did with `base`.  The call returns
`r` when this is `some (r, _)` for some `fuel`; it never returns when this is `none` for
every `fuel`. -/
def exact_phrase_test_doc_sorted (fuel : Nat) (terms : List Term) (order : List Nat)
    (c : Counters) : Option (TestDoc × ScanTrace) :=
  let poslists0 := exact_start_position_list terms order
    (List.replicate terms.length default) 0
  let pl0 := (poslists0.getD 0 default).skip_to (order.getD 0 0)
  if pl0.ok = false then some (reject c order [order.getD 0 0], ⟨[], [], false⟩)
  else
    let poslists1 := exact_start_position_list terms order (poslists0.set 0 pl0) 1
    let opened := [order.getD 0 0, order.getD 1 0]
    if (poslists1.getD 0 default).get_approx_size > (poslists1.getD 1 default).get_approx_size
    then
      let pl1 := (poslists1.getD 1 default).skip_to (order.getD 1 0)
      if pl1.ok = false then some (reject c order opened, ⟨[], [], false⟩)
      else
        let poslists2 := ((poslists1.set 1 pl1).set 0 pl1).set 1 pl0
        let order1 := (order.set 0 (order.getD 1 0)).set 1 (order.getD 0 0)
        exact_phrase_loop_trace terms order1 c fuel poslists2 1
          (tp_sub pl1.get_position (order1.getD 0 0)) 1 opened
          ⟨[pl1.get_position], [tp_sub pl1.get_position (order1.getD 0 0)],
           decide (pl1.get_position < order1.getD 0 0)⟩
    else
      exact_phrase_loop_trace terms order c fuel poslists1 1
        (tp_sub pl0.get_position (order.getD 0 0)) 1 opened
        ⟨[pl0.get_position], [tp_sub pl0.get_position (order.getD 0 0)],
         decide (pl0.get_position < order.getD 0 0)⟩

/-- The method `ExactPhrasePostList::test_doc` as `exact_phrase_test_doc`, with the loop
allowed `fuel` iterations, whatever that number, and returning with the result what the
run did with `base`: `exact_phrase_test_doc_sorted` on the outcome `sort_order` of the
sort. -/
def exact_phrase_test_doc_trace (fuel : Nat) (terms : List Term) (order0 : List Nat)
    (c : Counters) : Option (TestDoc × ScanTrace) :=
  exact_phrase_test_doc_sorted fuel terms (sort_order terms order0) c

/-- The method `PhrasePostList::test_doc` as `phrase_test_doc`, with the loops allowed
`fuel` steps, whatever that number.  The call returns `r` when this is `some r` for some
`fuel`; it never returns when this is `none` for every `fuel`. -/
def phrase_test_doc_fuel (fuel : Nat) (terms : List Term) (window : Nat) (c : Counters) :
    Option TestDoc :=
  let poslists0 := phrase_start_position_list terms (List.replicate terms.length default) 0
  let pl0 := (poslists0.getD 0 default).next
  if pl0.ok = false then some (reject c [] [0])
  else
    phrase_loop terms window c fuel (poslists0.set 0 pl0) 0 pl0.get_position pl0.get_position
      0 [0]

/-- Successive calls of `ExactPhrasePostList::test_doc`, one per candidate document: each
is given by the child terms as positioned on the document and the array `order` as the
call's `sort` left it, starts with the counters as the call before left them, and is
allowed `fuel` iterations.  The counters after the last call; `none` when a call does not
return within `fuel` iterations. -/
def exact_phrase_calls (fuel : Nat) : List (List Term × List Nat) → Counters → Option Counters
  | [], c => some c
  | run :: runs, c =>
    match exact_phrase_test_doc_sorted fuel run.1 run.2 c with
    | none => none
    | some x => exact_phrase_calls fuel runs x.1.counters

/-- Successive calls of `PhrasePostList::test_doc`, one per candidate document, each
allowed `fuel` steps. -/
def phrase_calls (fuel : Nat) (window : Nat) : List (List Term) → Counters → Option Counters
  | [], c => some c
  | doc :: docs, c =>
    match phrase_test_doc_fuel fuel doc window c with
    | none => none
    | some r => phrase_calls fuel window docs r.counters

/-! ## Evaluation of the codec at particular doubles -/

/-- The double `1.0`. -/
def Double.one : Double := ⟨false, 1023, 0⟩

/-- The double `-2.0`. -/
def Double.negTwo : Double := ⟨true, 1024, 0⟩

set_option exponentiation.threshold 2100 in
theorem eval_serialise_zero : serialise_double Double.zero = .ok [0x06, 0x00] := rfl

theorem eval_serialise_one : serialise_double Double.one = .ok [0x07, 0x01] := rfl

theorem eval_serialise_negTwo : serialise_double Double.negTwo = .ok [0x87, 0x02] := rfl

theorem dbl_max_exp_eq : dbl_max_exp = 127 := rfl

theorem dbl_max_mantissa_eq : dbl_max_mantissa = ⟨false, 1030, 2 ^ 52 - 1⟩ := rfl

/-- C4 (as stated, refuted): `serialise_double(0.0)` is not the two NUL bytes. -/
theorem serialise_double_zero_not_nul : serialise_double Double.zero ≠ .ok [0x00, 0x00] := by
  rw [eval_serialise_zero]; simp

/-- C4 (amended): `serialise_double(0.0)` is exactly the two bytes `0x06 0x00`: exponent
field 6 (`frexp` gives binary exponent 0, so the base-256 exponent is `-1`), one mantissa
byte 0. -/
theorem serialise_double_zero : serialise_double Double.zero = .ok [0x06, 0x00] :=
  eval_serialise_zero

/-- C5 (as stated, refuted): the output for `1.0` has neither three bytes nor first
byte `0x17`. -/
theorem serialise_double_one_not_three_bytes :
    ¬ ∃ out, serialise_double Double.one = .ok out ∧ (out.length = 3 ∨ out.head? = some 0x17) := by
  rw [eval_serialise_one]
  rintro ⟨out, h, h2⟩
  cases h
  simp at h2

/-- C5 (amended): `serialise_double(1.0)` is the two-byte string `0x07 0x01`: first byte
with sign 0, mantissa-length field 0 and exponent field 7, then the single mantissa
byte `0x01`. -/
theorem serialise_double_one : serialise_double Double.one = .ok [0x07, 0x01] :=
  eval_serialise_one

/-- C6 (as stated, refuted): the first byte of the output for `-2.0` is not `0x98` and
no third byte follows. -/
theorem serialise_double_negTwo_not_98 :
    ¬ ∃ out, serialise_double Double.negTwo = .ok out ∧ (out.head? = some 0x98 ∨ 2 < out.length) := by
  rw [eval_serialise_negTwo]
  rintro ⟨out, h, h2⟩
  cases h
  simp at h2

/-- C6 (amended): `serialise_double(-2.0)` is the two-byte string `0x87 0x02`: bit 7 set,
mantissa-length field 0, exponent field 7, then the single mantissa byte `0x02`. -/
theorem serialise_double_negTwo : serialise_double Double.negTwo = .ok [0x87, 0x02] :=
  eval_serialise_negTwo

/-! ## Structure of the encoding -/

theorem bitlenAux_zero (fuel : Nat) : bitlenAux fuel 0 = 0 := by
  cases fuel <;> simp [bitlenAux]

theorem bitlenAux_spec : ∀ fuel n, n ≤ fuel →
    n < 2 ^ bitlenAux fuel n ∧ (n ≠ 0 → 2 ^ (bitlenAux fuel n - 1) ≤ n) := by
  intro fuel
  induction fuel with
  | zero =>
    intro n hn
    have : n = 0 := by omega
    subst this
    simp [bitlenAux]
  | succ f ih =>
    intro n hn
    by_cases h0 : n = 0
    · subst h0; simp [bitlenAux]
    · have hle : n / 2 ≤ f := by omega
      obtain ⟨h1, h2⟩ := ih (n / 2) hle
      simp only [bitlenAux, h0, if_false]
      refine ⟨?_, fun _ => ?_⟩
      · rw [pow_succ]; omega
      · simp only [Nat.add_sub_cancel]
        by_cases h3 : n / 2 = 0
        · rw [h3, bitlenAux_zero]; simp; omega
        · have h4 := h2 h3
          have h5 : 1 ≤ bitlenAux f (n / 2) := by
            by_contra hc
            have : bitlenAux f (n / 2) = 0 := by omega
            rw [this] at h1
            simp at h1
            exact h3 h1
          obtain ⟨k, hk⟩ : ∃ k, bitlenAux f (n / 2) = k + 1 := ⟨bitlenAux f (n / 2) - 1, by omega⟩
          rw [hk] at h4 ⊢
          simp only [Nat.add_sub_cancel] at h4
          rw [pow_succ]; omega

theorem lt_two_pow_bitlen (n : Nat) : n < 2 ^ bitlen n := (bitlenAux_spec n n le_rfl).1

theorem two_pow_bitlen_le (n : Nat) (h : n ≠ 0) : 2 ^ (bitlen n - 1) ≤ n :=
  (bitlenAux_spec n n le_rfl).2 h

theorem bitlen_pos (n : Nat) (h : n ≠ 0) : 1 ≤ bitlen n := by
  by_contra hc
  have h0 : bitlen n = 0 := by omega
  have := lt_two_pow_bitlen n
  rw [h0] at this
  omega

theorem bitlen_eq (n k : Nat) (h1 : 2 ^ k ≤ n) (h2 : n < 2 ^ (k + 1)) : bitlen n = k + 1 := by
  have hn : n ≠ 0 := by
    have : 0 < 2 ^ k := Nat.two_pow_pos k
    omega
  have a := lt_two_pow_bitlen n
  have b := two_pow_bitlen_le n hn
  have c := bitlen_pos n hn
  have h3 : k < bitlen n := by
    by_contra hc
    have : 2 ^ bitlen n ≤ 2 ^ k := Nat.pow_le_pow_right (by norm_num) (by omega)
    omega
  have h4 : bitlen n - 1 < k + 1 := by
    by_contra hc
    have : 2 ^ (k + 1) ≤ 2 ^ (bitlen n - 1) := Nat.pow_le_pow_right (by norm_num) (by omega)
    omega
  omega

theorem bitlen_le (n k : Nat) (h : n < 2 ^ k) : bitlen n ≤ k := by
  by_cases hn : n = 0
  · subst hn; simp [bitlen, bitlenAux]
  · have b := two_pow_bitlen_le n hn
    by_contra hc
    have : 2 ^ k ≤ 2 ^ (bitlen n - 1) := Nat.pow_le_pow_right (by norm_num) (by omega)
    omega


theorem serialise_exponent_error_iff (negative : Bool) (exp : Int) :
    serialise_exponent negative exp = .error Error.NetworkError ↔ (exp < -32768 ∨ 32767 < exp) := by
  unfold serialise_exponent
  split_ifs <;> simp <;> omega

theorem serialise_double_unfold (v : Double) : serialise_double v =
    match serialise_exponent (Double.lt v Double.zero) (base256_exponent v) with
    | .error e => .error e
    | .ok result => .ok (patch_length (result ++ serialise_mantissa 8 (base256_mantissa v))
        (serialise_mantissa 8 (base256_mantissa v)).length) := rfl

theorem serialise_double_error_iff (v : Double) :
    serialise_double v = .error Error.NetworkError ↔
      (base256_exponent v < -32768 ∨ 32767 < base256_exponent v) := by
  rw [← serialise_exponent_error_iff (Double.lt v Double.zero), serialise_double_unfold]
  cases h : serialise_exponent (Double.lt v Double.zero) (base256_exponent v) with
  | error e => cases e; simp
  | ok r => simp

/-- C10: `serialise_double` raises NetworkError exactly when the base-256 exponent of its
argument is below -32768 or above 32767 (the test of lines 97-113, which is all that can
throw), and returns a byte string for every other argument. -/
theorem serialise_double_NetworkError_iff (v : Double) (negative : Bool) (exp : Int) :
    (serialise_exponent negative exp = .error Error.NetworkError ↔
      (exp < -32768 ∨ 32767 < exp)) ∧
    (serialise_double v = .error Error.NetworkError ↔
      (base256_exponent v < -32768 ∨ 32767 < base256_exponent v)) ∧
    (¬ (base256_exponent v < -32768 ∨ 32767 < base256_exponent v) →
      ∃ out, serialise_double v = .ok out) := by
  refine ⟨serialise_exponent_error_iff negative exp, serialise_double_error_iff v, fun h => ?_⟩
  have h2 := (serialise_double_error_iff v).not.mpr h
  cases h3 : serialise_double v with
  | error e => cases e; exact absurd h3 h2
  | ok out => exact ⟨out, rfl⟩

theorem frexp_exp_range (x : Double) (hx : x.Finite) :
    -1073 ≤ (Double.frexp x).2 ∧ (Double.frexp x).2 ≤ 1024 := by
  obtain ⟨h1, h2⟩ := hx
  unfold Double.frexp
  split_ifs with a b
  · simp
  · simp only [Double.isZero, b, beq_self_eq_true, Bool.true_and, beq_iff_eq, not_or, not_le] at a
    have := bitlen_pos x.frac a.2
    have := bitlen_le x.frac 52 h2
    simp only
    omega
  · simp only
    omega

theorem serialise_abs_finite (x : Double) (hx : x.Finite) : (serialise_abs x).Finite := by
  unfold serialise_abs
  split_ifs
  · exact hx
  · exact hx

theorem base256_exponent_range (x : Double) (hx : x.Finite) :
    -135 ≤ base256_exponent x ∧ base256_exponent x ≤ 127 := by
  have := frexp_exp_range _ (serialise_abs_finite x hx)
  simp only [base256_exponent, base256ify_double]
  omega

theorem serialise_mantissa_length (mb : Nat) (v : Double) :
    1 ≤ (serialise_mantissa (mb + 1) v).length ∧ (serialise_mantissa (mb + 1) v).length ≤ mb + 1 := by
  induction mb generalizing v with
  | zero => simp [serialise_mantissa]
  | succ k ih =>
    rw [serialise_mantissa]
    simp only [List.length_cons]
    split_ifs
    · have := ih (Double.mul (Double.sub v (Double.ofNat (Double.toUChar v))) (Double.ofNat 256))
      omega
    · simp


set_option maxRecDepth 100000 in
theorem patch_bits : ∀ b < 256, ∀ k < 8, (b / 16) % 8 = 0 →
    ((b ||| (k <<< 4)) % 256) &&& 15 = b % 16 ∧
    ((((b ||| (k <<< 4)) % 256) >>> 4) &&& 7) = k ∧
    (((b ||| (k <<< 4)) % 256) &&& 128) = (b &&& 128) ∧
    (b ||| (k <<< 4)) % 256 < 256 ∧
    (k = 0 → (b ||| (k <<< 4)) % 256 = b) := by decide

theorem small_header_bits : ∀ t < 16,
    (t ||| 128) < 256 ∧ ((t ||| 128) / 16) % 8 = 0 ∧ (t ||| 128) % 16 = t ∧
    (t ||| 128) &&& 128 = 128 ∧ t &&& 128 = 0 ∧ (t / 16) % 8 = 0 := by decide

theorem patch_length_cons (h0 : Nat) (tl : List Nat) (n : Nat) (hn : 1 ≤ n) (hh : h0 < 256)
    (hn8 : n ≤ 8) (hz : (h0 / 16) % 8 = 0) :
    patch_length (h0 :: tl) n = ((h0 ||| ((n - 1) <<< 4)) % 256) :: tl := by
  unfold patch_length
  split_ifs with h
  · simp
  · have h1 : n - 1 = 0 := by omega
    have := (patch_bits h0 hh 0 (by norm_num) hz).2.2.2.2 rfl
    rw [h1, this]

/-- The first byte `serialise_exponent` produces: below 256, bits 4..6 clear, bit 7 the
sign. -/
theorem serialise_exponent_shape (negative : Bool) (e : Int)
    (h : -32768 ≤ e ∧ e ≤ 32767) :
    ∃ h0 ebytes, serialise_exponent negative e = .ok (h0 :: ebytes) ∧
      h0 < 256 ∧ (h0 / 16) % 8 = 0 ∧ ((h0 &&& 0x80) != 0) = negative ∧
      ((-7 ≤ e ∧ e ≤ 6 ∧ ((h0 % 16 : Nat) : Int) = e + 7 ∧ ebytes = []) ∨
       (¬(-7 ≤ e ∧ e ≤ 6) ∧ -128 ≤ e ∧ e ≤ 126 ∧ h0 % 16 = 14 ∧ ebytes = [(e + 128).toNat]) ∨
       (¬(-128 ≤ e ∧ e ≤ 126) ∧ h0 % 16 = 15 ∧
          ebytes = [(e + 32768).toNat % 256, (e + 32768).toNat / 256])) := by
  unfold serialise_exponent
  by_cases h1 : e ≤ 6 ∧ e ≥ -7
  · rw [if_pos h1]
    have ht : (e + 7).toNat % 256 < 16 := by omega
    have hb := small_header_bits _ ht
    refine ⟨_, _, rfl, ?_⟩
    cases negative
    · simp only [Bool.false_eq_true, if_false]
      refine ⟨by omega, hb.2.2.2.2.2, by simp [hb.2.2.2.2.1], Or.inl ⟨h1.2, h1.1, ?_, trivial⟩⟩
      omega
    · simp only [if_true]
      refine ⟨hb.1, hb.2.1, by simp [hb.2.2.2.1], Or.inl ⟨h1.2, h1.1, ?_, trivial⟩⟩
      rw [hb.2.2.1]
      omega
  · rw [if_neg h1]
    by_cases h2 : e ≥ -128 ∧ e < 127
    · rw [if_pos h2]
      refine ⟨_, _, rfl, ?_⟩
      have hm : (e + 128).toNat % 256 = (e + 128).toNat := by omega
      rw [hm]
      cases negative
      · exact ⟨by decide, by decide, by decide,
          Or.inr (Or.inl ⟨by omega, h2.1, by omega, by decide, rfl⟩)⟩
      · exact ⟨by decide, by decide, by decide,
          Or.inr (Or.inl ⟨by omega, h2.1, by omega, by decide, rfl⟩)⟩
    · rw [if_neg h2]
      have h3 : ¬ (e < -32768 ∨ e > 32767) := by omega
      rw [if_neg h3]
      refine ⟨_, _, rfl, ?_⟩
      have hm : (e + 32768).toNat &&& 0xff = (e + 32768).toNat % 256 :=
        Nat.and_pow_two_sub_one_eq_mod _ 8
      have hs : ((e + 32768).toNat >>> 8) % 256 = (e + 32768).toNat / 256 := by
        rw [Nat.shiftRight_eq_div_pow]
        omega
      rw [hm, hs]
      cases negative
      · exact ⟨by decide, by decide, by decide, Or.inr (Or.inr ⟨by omega, by decide, rfl⟩)⟩
      · exact ⟨by decide, by decide, by decide, Or.inr (Or.inr ⟨by omega, by decide, rfl⟩)⟩

/-- The shape of every output of `serialise_double`: a first byte carrying sign, mantissa
length and exponent selector, the exponent bytes, then the mantissa bytes. -/
theorem serialise_double_shape (v : Double)
    (h : -32768 ≤ base256_exponent v ∧ base256_exponent v ≤ 32767) :
    ∃ b0 ebytes, serialise_double v
        = .ok (b0 :: (ebytes ++ serialise_mantissa 8 (base256_mantissa v))) ∧
      b0 < 256 ∧
      mantissa_len_of b0 = (serialise_mantissa 8 (base256_mantissa v)).length ∧
      ((b0 &&& 0x80) != 0) = Double.lt v Double.zero ∧
      ((-7 ≤ base256_exponent v ∧ base256_exponent v ≤ 6 ∧
          ((b0 &&& 0x0f : Nat) : Int) = base256_exponent v + 7 ∧ ebytes = []) ∨
       (¬(-7 ≤ base256_exponent v ∧ base256_exponent v ≤ 6) ∧
          -128 ≤ base256_exponent v ∧ base256_exponent v ≤ 126 ∧ b0 &&& 0x0f = 14 ∧
          ebytes = [(base256_exponent v + 128).toNat]) ∨
       (¬(-128 ≤ base256_exponent v ∧ base256_exponent v ≤ 126) ∧ b0 &&& 0x0f = 15 ∧
          ebytes = [(base256_exponent v + 32768).toNat % 256,
                    (base256_exponent v + 32768).toNat / 256])) := by
  obtain ⟨h0, ebytes, he, hlt, hz, hs, hc⟩ :=
    serialise_exponent_shape (Double.lt v Double.zero) (base256_exponent v) h
  have hlen : 1 ≤ (serialise_mantissa 8 (base256_mantissa v)).length ∧
      (serialise_mantissa 8 (base256_mantissa v)).length ≤ 8 :=
    serialise_mantissa_length 7 (base256_mantissa v)
  have hk : (serialise_mantissa 8 (base256_mantissa v)).length - 1 < 8 := by omega
  obtain ⟨p1, p2, p3, p4, -⟩ := patch_bits h0 hlt _ hk hz
  refine ⟨(h0 ||| (((serialise_mantissa 8 (base256_mantissa v)).length - 1) <<< 4)) % 256,
    ebytes, ?_, p4, ?_, ?_, ?_⟩
  · rw [serialise_double_unfold, he]
    simp only [List.cons_append]
    rw [patch_length_cons h0 _ _ hlen.1 hlt hlen.2 hz]
  · unfold mantissa_len_of
    rw [p2]; omega
  · rw [← hs, p3]
  · rw [p1]
    exact hc


theorem lor_shiftLeft_eight (lo hi : Nat) (h : lo < 256) : lo ||| (hi <<< 8) = lo + 256 * hi := by
  rw [Nat.shiftLeft_eq, Nat.lor_comm, Nat.mul_comm, ← Nat.mul_add_lt_is_or (by simpa using h)]
  omega

theorem peek_zero (past : Nat → Nat) (b : Nat) (l : List Nat) : peek past (b :: l) 0 = b := by
  simp [peek]

theorem peek_succ (past : Nat → Nat) (b : Nat) (l : List Nat) (i : Nat) :
    peek past (b :: l) (i + 1) = peek past l i := by
  unfold peek
  by_cases h : i < l.length
  · have h2 : i + 1 < (b :: l).length := by simp; omega
    simp [h, h2]
  · have h2 : ¬ i + 1 < (b :: l).length := by simp; omega
    simp [h, h2]

theorem peek_append_right (past : Nat → Nat) (l r : List Nat) (i : Nat) :
    peek past (l ++ r) (l.length + i) = peek past r i := by
  induction l with
  | nil => simp
  | cons a t ih =>
    have : (a :: t).length + i = (t.length + i) + 1 := by simp; omega
    rw [this, List.cons_append, peek_succ, ih]

/-- Decoding the exponent from an encoding of the three shapes gives back the exponent
and points just past the exponent bytes. -/
theorem unserialise_exponent_of_shape (past : Nat → Nat) (b0 : Nat) (ebytes rest : List Nat)
    (e : Int)
    (hc : (-7 ≤ e ∧ e ≤ 6 ∧ ((b0 &&& 0x0f : Nat) : Int) = e + 7 ∧ ebytes = []) ∨
       (¬(-7 ≤ e ∧ e ≤ 6) ∧ -128 ≤ e ∧ e ≤ 126 ∧ b0 &&& 0x0f = 14 ∧
          ebytes = [(e + 128).toNat]) ∨
       (¬(-128 ≤ e ∧ e ≤ 126) ∧ -32768 ≤ e ∧ b0 &&& 0x0f = 15 ∧
          ebytes = [(e + 32768).toNat % 256, (e + 32768).toNat / 256])) :
    ∃ reads, unserialise_exponent past (b0 :: (ebytes ++ rest)) b0
        = .ok (e, 1 + ebytes.length, reads) ∧ ∀ i ∈ reads, i < 1 + ebytes.length := by
  unfold unserialise_exponent
  rcases hc with ⟨h1, h2, h3, h4⟩ | ⟨h1, h2, h3, h4, h5⟩ | ⟨h1, h2, h5, h6⟩
  · have : ¬ (b0 &&& 0x0f ≥ 14) := by omega
    simp only [this, if_false, h4]
    refine ⟨[], ?_, by simp⟩
    simp only [List.length_nil, Except.ok.injEq, Prod.mk.injEq, and_true]
    omega
  · simp only [h4, h5]
    refine ⟨[1], ?_, by simp⟩
    simp only [ge_iff_le, le_refl, if_true, peek_succ, peek_zero, List.cons_append,
      List.nil_append, List.length_cons, List.length_nil]
    rw [if_neg (by decide)]
    have : (((e + 128).toNat : Nat) : Int) - 128 = e := by omega
    rw [this]
  · simp only [h5, h6]
    refine ⟨[1, 2], ?_, by simp⟩
    simp only [ge_iff_le, show (14 : Nat) ≤ 15 by decide, if_true, peek_succ,
      peek_zero, List.cons_append, List.nil_append, List.length_cons, List.length_nil]
    rw [if_neg (by omega), lor_shiftLeft_eight _ _ (Nat.mod_lt _ (by norm_num))]
    have : (((e + 32768).toNat % 256 + 256 * ((e + 32768).toNat / 256) : Nat) : Int) - 32768
        = e := by omega
    rw [this]


/-- C9: for a finite double with base-256 exponent `e`, the low nibble of the first byte
and the bytes after it are: `e + 7` and no exponent byte iff `-7 ≤ e ≤ 6`; otherwise 14
and the byte `e + 128` iff `-128 ≤ e ≤ 126`; otherwise 15 and the two bytes of
`e + 32768`, least significant first; the mantissa follows, and the exponent decoding of
`unserialise_double` returns exactly `e` and points at the mantissa. -/
theorem serialise_double_exponent_forms (x : Double) (hx : x.Finite) (past : Nat → Nat) :
    ∃ b0 ebytes reads,
      serialise_double x = .ok (b0 :: (ebytes ++ serialise_mantissa 8 (base256_mantissa x))) ∧
      ((-7 ≤ base256_exponent x ∧ base256_exponent x ≤ 6) →
        ((b0 &&& 0x0f : Nat) : Int) = base256_exponent x + 7 ∧ ebytes = []) ∧
      (¬(-7 ≤ base256_exponent x ∧ base256_exponent x ≤ 6) ∧
          (-128 ≤ base256_exponent x ∧ base256_exponent x ≤ 126) →
        b0 &&& 0x0f = 14 ∧ ebytes = [(base256_exponent x + 128).toNat]) ∧
      (¬(-128 ≤ base256_exponent x ∧ base256_exponent x ≤ 126) →
        b0 &&& 0x0f = 15 ∧
        ebytes = [(base256_exponent x + 32768).toNat % 256,
                  (base256_exponent x + 32768).toNat / 256]) ∧
      (b0 &&& 0x0f < 14 ↔ (-7 ≤ base256_exponent x ∧ base256_exponent x ≤ 6)) ∧
      (b0 &&& 0x0f = 14 ↔ (¬(-7 ≤ base256_exponent x ∧ base256_exponent x ≤ 6) ∧
          -128 ≤ base256_exponent x ∧ base256_exponent x ≤ 126)) ∧
      unserialise_exponent past
          (b0 :: (ebytes ++ serialise_mantissa 8 (base256_mantissa x))) b0
        = .ok (base256_exponent x, 1 + ebytes.length, reads) := by
  have hr := base256_exponent_range x hx
  obtain ⟨b0, ebytes, hs, -, -, -, hc⟩ := serialise_double_shape x (by omega)
  have hc2 : (-7 ≤ base256_exponent x ∧ base256_exponent x ≤ 6 ∧
          ((b0 &&& 0x0f : Nat) : Int) = base256_exponent x + 7 ∧ ebytes = []) ∨
       (¬(-7 ≤ base256_exponent x ∧ base256_exponent x ≤ 6) ∧
          -128 ≤ base256_exponent x ∧ base256_exponent x ≤ 126 ∧ b0 &&& 0x0f = 14 ∧
          ebytes = [(base256_exponent x + 128).toNat]) ∨
       (¬(-128 ≤ base256_exponent x ∧ base256_exponent x ≤ 126) ∧
          -32768 ≤ base256_exponent x ∧ b0 &&& 0x0f = 15 ∧
          ebytes = [(base256_exponent x + 32768).toNat % 256,
                    (base256_exponent x + 32768).toNat / 256]) := by
    rcases hc with h | h | h
    · exact Or.inl h
    · exact Or.inr (Or.inl h)
    · exact Or.inr (Or.inr ⟨h.1, by omega, h.2⟩)
  obtain ⟨reads, hd, -⟩ := unserialise_exponent_of_shape past b0 ebytes
    (serialise_mantissa 8 (base256_mantissa x)) (base256_exponent x) hc2
  refine ⟨b0, ebytes, reads, hs, ?_, ?_, ?_, ?_, ?_, hd⟩
  · intro h
    rcases hc with h1 | h1 | h1
    · exact ⟨h1.2.2.1, h1.2.2.2⟩
    · exact absurd h h1.1
    · omega
  · intro h
    rcases hc with h1 | h1 | h1
    · exact absurd ⟨h1.1, h1.2.1⟩ h.1
    · exact ⟨h1.2.2.2.1, h1.2.2.2.2⟩
    · exact absurd h.2 h1.1
  · intro h
    rcases hc with h1 | h1 | h1
    · omega
    · omega
    · exact h1.2
  · rcases hc with h1 | h1 | h1
    · constructor
      · intro _; exact ⟨h1.1, h1.2.1⟩
      · intro _; omega
    · constructor
      · intro h; omega
      · intro h; exact absurd h h1.1
    · constructor
      · intro h; omega
      · intro h; omega
  · rcases hc with h1 | h1 | h1
    · constructor
      · intro h; omega
      · intro h; exact absurd ⟨h1.1, h1.2.1⟩ h.1
    · constructor
      · intro _; exact ⟨h1.1, h1.2.1, h1.2.2.1⟩
      · intro _; exact h1.2.2.2.1
    · constructor
      · intro h; omega
      · intro h; omega

/-- C9 at the largest finite double, whose exponent 127 needs the two-byte form. -/
theorem serialise_double_exponent_forms_witness :
    ∃ b0 ebytes reads,
      serialise_double DBL_MAX
        = .ok (b0 :: (ebytes ++ serialise_mantissa 8 (base256_mantissa DBL_MAX))) ∧
      ((-7 ≤ base256_exponent DBL_MAX ∧ base256_exponent DBL_MAX ≤ 6) →
        ((b0 &&& 0x0f : Nat) : Int) = base256_exponent DBL_MAX + 7 ∧ ebytes = []) ∧
      (¬(-7 ≤ base256_exponent DBL_MAX ∧ base256_exponent DBL_MAX ≤ 6) ∧
          (-128 ≤ base256_exponent DBL_MAX ∧ base256_exponent DBL_MAX ≤ 126) →
        b0 &&& 0x0f = 14 ∧ ebytes = [(base256_exponent DBL_MAX + 128).toNat]) ∧
      (¬(-128 ≤ base256_exponent DBL_MAX ∧ base256_exponent DBL_MAX ≤ 126) →
        b0 &&& 0x0f = 15 ∧
        ebytes = [(base256_exponent DBL_MAX + 32768).toNat % 256,
                  (base256_exponent DBL_MAX + 32768).toNat / 256]) ∧
      (b0 &&& 0x0f < 14 ↔ (-7 ≤ base256_exponent DBL_MAX ∧ base256_exponent DBL_MAX ≤ 6)) ∧
      (b0 &&& 0x0f = 14 ↔ (¬(-7 ≤ base256_exponent DBL_MAX ∧ base256_exponent DBL_MAX ≤ 6) ∧
          -128 ≤ base256_exponent DBL_MAX ∧ base256_exponent DBL_MAX ≤ 126)) ∧
      unserialise_exponent (fun _ => 0)
          (b0 :: (ebytes ++ serialise_mantissa 8 (base256_mantissa DBL_MAX))) b0
        = .ok (base256_exponent DBL_MAX, 1 + ebytes.length, reads) :=
  serialise_double_exponent_forms DBL_MAX (by decide) (fun _ => 0)


theorem unserialise_double_short (cs : Bool) (past : Nat → Nat) (buf : List Nat)
    (h : buf.length < 2) : unserialise_double cs past buf = .error Error.NetworkError := by
  unfold unserialise_double
  rw [if_pos h]

theorem unserialise_double_short_mantissa (cs : Bool) (past : Nat → Nat) (first : Nat)
    (rest : List Nat) (h : rest.length + 1 < header_len_of first + mantissa_len_of first) :
    unserialise_double cs past (first :: rest) = .error Error.NetworkError := by
  by_cases h2 : (first :: rest).length < 2
  · exact unserialise_double_short cs past _ h2
  · unfold unserialise_double
    rw [if_neg h2]
    simp only [peek_zero]
    by_cases hz : first = 0 ∧ peek past (first :: rest) 1 = 0
    · exfalso
      rw [hz.1] at h
      simp only [List.length_cons] at h2
      have e1 : header_len_of 0 = 1 := by decide
      have e2 : mantissa_len_of 0 = 1 := by decide
      omega
    · rw [if_neg hz]
      simp only [List.length_cons] at h2 ⊢
      unfold unserialise_exponent
      unfold header_len_of at h
      by_cases n15 : first &&& 0x0f = 15
      · rw [if_pos n15] at h
        simp only [n15, ge_iff_le, show (14 : Nat) ≤ 15 by decide, if_true, List.length_cons]
        by_cases h3 : rest.length + 1 = 2
        · rw [if_pos h3]
        · rw [if_neg h3]
          simp only
          rw [if_pos]
          unfold mantissa_len_of at h
          omega
      · rw [if_neg n15] at h
        by_cases n14 : first &&& 0x0f = 14
        · rw [if_pos n14] at h
          simp only [n14, ge_iff_le, le_refl, if_true, show ¬ ((14 : Nat) = 15) by decide,
            if_false]
          rw [if_pos]
          unfold mantissa_len_of at h
          omega
        · rw [if_neg n14] at h
          have hn : first &&& 0x0f < 16 := by
            have := Nat.and_pow_two_sub_one_eq_mod first 4
            have h16 : first &&& 0x0f = first % 16 := this
            omega
          have : ¬ (first &&& 0x0f ≥ 14) := by omega
          simp only [this, if_false]
          rw [if_pos]
          unfold mantissa_len_of at h
          omega


theorem serialise_double_ok_range (x : Double) (out : List Nat)
    (hs : serialise_double x = .ok out) :
    -32768 ≤ base256_exponent x ∧ base256_exponent x ≤ 32767 := by
  by_contra hc
  have : serialise_double x = .error Error.NetworkError :=
    (serialise_double_error_iff x).mpr (by omega)
  rw [this] at hs
  cases hs

theorem unserialise_double_strict_prefix (cs : Bool) (past : Nat → Nat) (x : Double)
    (out pre : List Nat) (hs : serialise_double x = .ok out) (hp : pre <+: out)
    (hne : pre ≠ out) : unserialise_double cs past pre = .error Error.NetworkError := by
  obtain ⟨b0, ebytes, hs2, -, hm, -, hc⟩ :=
    serialise_double_shape x (serialise_double_ok_range x out hs)
  rw [hs] at hs2
  cases hs2
  have hlen : pre.length < (b0 :: (ebytes ++ serialise_mantissa 8 (base256_mantissa x))).length := by
    rcases Nat.lt_or_ge pre.length
      (b0 :: (ebytes ++ serialise_mantissa 8 (base256_mantissa x))).length with h | h
    · exact h
    · exact absurd (hp.eq_of_length (le_antisymm hp.length_le h)) hne
  cases pre with
  | nil => exact unserialise_double_short cs past _ (by simp)
  | cons a t =>
    have ha : a = b0 := (List.cons_prefix_cons.mp hp).1
    subst ha
    apply unserialise_double_short_mantissa
    rw [hm]
    simp only [List.length_cons, List.length_append] at hlen
    have hh : header_len_of a = 1 + ebytes.length := by
      unfold header_len_of
      rcases hc with h | h | h
      · have h1 : ¬ (a &&& 0x0f = 15) := by omega
        have h2 : ¬ (a &&& 0x0f = 14) := by omega
        rw [if_neg h1, if_neg h2, h.2.2.2]; rfl
      · have h1 : ¬ (a &&& 0x0f = 15) := by omega
        rw [if_neg h1, if_pos h.2.2.2.1, h.2.2.2.2]; rfl
      · rw [if_pos h.2.1, h.2.2]; rfl
    omega

/-- C7: `unserialise_double` raises NetworkError on every truncated input: fewer than two
bytes; exponent selector 15 with the second exponent byte missing; fewer bytes than the
header and the advertised mantissa length need.  In particular it rejects every strict
prefix of an output of `serialise_double`. -/
theorem unserialise_double_truncated (cs : Bool) (past : Nat → Nat) :
    (∀ buf : List Nat, buf.length < 2 →
      unserialise_double cs past buf = .error Error.NetworkError) ∧
    (∀ first second : Nat, first &&& 0x0f = 15 →
      unserialise_double cs past [first, second] = .error Error.NetworkError) ∧
    (∀ (first : Nat) (rest : List Nat),
      (first :: rest).length < header_len_of first + mantissa_len_of first →
      unserialise_double cs past (first :: rest) = .error Error.NetworkError) ∧
    (∀ (x : Double) (out pre : List Nat), serialise_double x = .ok out →
      pre <+: out → pre ≠ out →
      unserialise_double cs past pre = .error Error.NetworkError) := by
  refine ⟨fun buf h => unserialise_double_short cs past buf h, ?_, ?_, ?_⟩
  · intro first second h
    apply unserialise_double_short_mantissa
    unfold header_len_of mantissa_len_of
    rw [if_pos h]
    simp only [List.length_cons, List.length_nil]
    omega
  · intro first rest h
    exact unserialise_double_short_mantissa cs past first rest (by simpa using h)
  · intro x out pre hs hp hne
    exact unserialise_double_strict_prefix cs past x out pre hs hp hne

/-- C8: an untruncated input whose decoded exponent exceeds `dbl_max_exp`, the base-256
exponent of the largest finite double (127), decodes to `+infinity` when bit 7 of the
first byte is clear and to `-infinity` when it is set. -/
theorem unserialise_double_overflow (cs : Bool) (past : Nat → Nat) (first : Nat)
    (rest : List Nat) (e : Int) (p0 : Nat) (reads : List Nat)
    (hlen : 2 ≤ (first :: rest).length)
    (hexp : unserialise_exponent past (first :: rest) first = .ok (e, p0, reads))
    (hm : mantissa_len_of first ≤ (first :: rest).length - p0)
    (he : dbl_max_exp < e) :
    ∃ r, unserialise_double cs past (first :: rest) = .ok r ∧
      r.value = Double.inf ((first &&& 0x80) != 0) ∧ r.pos = p0 + mantissa_len_of first ∧
      dbl_max_exp = 127 := by
  have hz : ¬ (first = 0 ∧ peek past (first :: rest) 1 = 0) := by
    rintro ⟨h0, -⟩
    subst h0
    have : unserialise_exponent past (0 :: rest) 0 = .ok (-7, 1, []) := rfl
    rw [this] at hexp
    cases hexp
    rw [dbl_max_exp_eq] at he
    omega
  unfold unserialise_double
  rw [if_neg (by omega)]
  simp only [peek_zero]
  rw [if_neg hz, hexp]
  simp only
  rw [if_neg (by unfold mantissa_len_of at hm; omega)]
  refine ⟨_, rfl, ?_, rfl, dbl_max_exp_eq⟩
  simp only
  rw [if_pos (Or.inl he)]
  cases hb : (first &&& 0x80) != 0 <;> simp [Double.neg, Double.inf]


/-! ## Exactness of the floating-point operations the codec performs -/

theorem bitlen_mul_pow (m k : Nat) (hm : m ≠ 0) : bitlen (m * 2 ^ k) = bitlen m + k := by
  have a := lt_two_pow_bitlen m
  have b := two_pow_bitlen_le m hm
  have c := bitlen_pos m hm
  obtain ⟨l, hl⟩ : ∃ l, bitlen m = l + 1 := ⟨bitlen m - 1, by omega⟩
  rw [hl] at a b ⊢
  simp only [Nat.add_sub_cancel] at b
  have : l + 1 + k = (l + k) + 1 := by omega
  rw [this]
  apply bitlen_eq
  · rw [pow_add]; exact Nat.mul_le_mul_right _ b
  · have : 2 ^ (l + k + 1) = 2 ^ (l + 1) * 2 ^ k := by rw [← pow_add]; congr 1; omega
    rw [this]
    exact Nat.mul_lt_mul_of_pos_right a (Nat.two_pow_pos k)

theorem roundShift_zero (m : Nat) : Double.roundShift m 0 = m := by
  simp [Double.roundShift, Nat.mod_one]

theorem roundShift_mul_pow (m k j : Nat) :
    Double.roundShift (m * 2 ^ k) (j + k) = Double.roundShift m j := by
  unfold Double.roundShift
  have hq : m * 2 ^ k / 2 ^ (j + k) = m / 2 ^ j := by
    rw [pow_add]; exact Nat.mul_div_mul_right _ _ (Nat.two_pow_pos k)
  have hr : m * 2 ^ k % 2 ^ (j + k) = (m % 2 ^ j) * 2 ^ k := by
    rw [pow_add]; exact Nat.mul_mod_mul_right _ _ _
  simp only [hq, hr]
  have hk := Nat.two_pow_pos k
  have e1 : (2 ^ (j + k) < 2 * (m % 2 ^ j * 2 ^ k)) ↔ (2 ^ j < 2 * (m % 2 ^ j)) := by
    rw [pow_add, ← Nat.mul_assoc]
    exact Nat.mul_lt_mul_right hk
  have e2 : (2 * (m % 2 ^ j * 2 ^ k) = 2 ^ (j + k)) ↔ (2 * (m % 2 ^ j) = 2 ^ j) := by
    rw [pow_add, ← Nat.mul_assoc]
    exact Nat.mul_left_inj (by omega)
  simp only [e1, e2]

/-- Rounding depends only on the value `m * 2 ^ e`, not on how it is split. -/
theorem ofDyadic_scale (s : Bool) (m k : Nat) (e : Int) :
    Double.ofDyadic s (m * 2 ^ k) e = Double.ofDyadic s m (e + k) := by
  by_cases hm : m = 0
  · subst hm; simp [Double.ofDyadic]
  · have hmk : m * 2 ^ k ≠ 0 := Nat.mul_ne_zero hm (by positivity)
    unfold Double.ofDyadic
    rw [if_neg hm, if_neg hmk, bitlen_mul_pow m k hm]
    have hq : max (e + ((bitlen m + k : Nat) : Int) - 53) (-1074)
        = max (e + (k : Int) + (bitlen m : Int) - 53) (-1074) := by
      congr 1; push_cast; ring
    simp only [hq]
    generalize max (e + (k : Int) + (bitlen m : Int) - 53) (-1074) = q
    have hr : (if q ≤ e then m * 2 ^ k * 2 ^ (e - q).toNat
          else Double.roundShift (m * 2 ^ k) (q - e).toNat)
        = (if q ≤ e + k then m * 2 ^ (e + k - q).toNat
          else Double.roundShift m (q - (e + k)).toNat) := by
      by_cases h1 : q ≤ e
      · rw [if_pos h1, if_pos (by omega), Nat.mul_assoc, ← pow_add]
        congr 2; omega
      · rw [if_neg h1]
        by_cases h2 : q ≤ e + k
        · rw [if_pos h2]
          have hk : k = (e + k - q).toNat + (q - e).toNat := by omega
          have : m * 2 ^ k = (m * 2 ^ (e + k - q).toNat) * 2 ^ (q - e).toNat := by
            rw [Nat.mul_assoc, ← pow_add, ← hk]
          rw [this]
          have h0 := roundShift_mul_pow (m * 2 ^ (e + k - q).toNat) (q - e).toNat 0
          rw [Nat.zero_add] at h0
          rw [h0, roundShift_zero]
        · rw [if_neg h2]
          have hj : (q - e).toNat = (q - (e + k)).toNat + k := by omega
          rw [hj, roundShift_mul_pow]
    rw [hr]


/-- A short significand at an exponent in range is stored without rounding. -/
theorem ofDyadic_small_fields (s : Bool) (m : Nat) (e : Int) (hm : m < 2 ^ 53)
    (he1 : -1074 ≤ e) (he2 : e ≤ 971) :
    ∃ q : Int, q ≤ e ∧ -1074 ≤ q ∧ (Double.ofDyadic s m e).Finite ∧
      (Double.ofDyadic s m e).sign = s ∧
      (Double.ofDyadic s m e).ex = q ∧
      (Double.ofDyadic s m e).mant = m * 2 ^ (e - q).toNat := by
  by_cases h0 : m = 0
  · subst h0
    refine ⟨-1074, he1, le_refl _, ?_⟩
    simp [Double.ofDyadic, Double.Finite, Double.ex, Double.mant]
  · have hL1 := bitlen_pos m h0
    have hL2 := bitlen_le m 53 hm
    have hlo := two_pow_bitlen_le m h0
    have hhi := lt_two_pow_bitlen m
    unfold Double.ofDyadic
    rw [if_neg h0]
    simp only
    generalize hq : max (e + (bitlen m : Int) - 53) (-1074) = q
    have hqe : q ≤ e := by omega
    have hq1 : -1074 ≤ q := by omega
    rw [if_pos hqe]
    have hr53 : m * 2 ^ (e - q).toNat < 2 ^ 53 := by
      have h1 : m * 2 ^ (e - q).toNat < 2 ^ bitlen m * 2 ^ (e - q).toNat :=
        Nat.mul_lt_mul_of_pos_right hhi (Nat.two_pow_pos _)
      have h2 : 2 ^ bitlen m * 2 ^ (e - q).toNat ≤ 2 ^ 53 := by
        rw [← pow_add]
        exact Nat.pow_le_pow_right (by norm_num) (by omega)
      omega
    rw [if_neg (by omega)]
    refine ⟨q, hqe, hq1, ?_⟩
    unfold Double.pack
    by_cases hr : m * 2 ^ (e - q).toNat < 2 ^ 52
    · rw [if_pos hr]
      have hq2 : q = -1074 := by
        by_contra hne
        have hq3 : q = e + (bitlen m : Int) - 53 := by omega
        have h4 : (e - q).toNat = 53 - bitlen m := by omega
        rw [h4] at hr
        have h5 : 2 ^ (bitlen m - 1) * 2 ^ (53 - bitlen m) ≤ m * 2 ^ (53 - bitlen m) :=
          Nat.mul_le_mul_right _ hlo
        rw [← pow_add] at h5
        have h6 : bitlen m - 1 + (53 - bitlen m) = 52 := by omega
        rw [h6] at h5
        omega
      refine ⟨⟨by norm_num, hr⟩, rfl, ?_, ?_⟩
      · simp [Double.ex, hq2]
      · simp [Double.mant]
    · rw [if_neg hr, if_neg (by omega)]
      have hexpo : (q + 1075).toNat ≠ 0 := by omega
      refine ⟨⟨by simp only; omega, by simp only; omega⟩, rfl, ?_, ?_⟩
      · simp only [Double.ex, hexpo, if_false]
        omega
      · simp only [Double.mant, hexpo, if_false]
        omega

theorem two_zpow_natCast_mul (n : Nat) (q e : Int) (h : (n : Int) = e - q) :
    ((2 : ℚ) ^ n) * 2 ^ q = 2 ^ e := by
  rw [← zpow_natCast, ← zpow_add₀ (by norm_num : (2 : ℚ) ≠ 0), h]
  congr 1; ring

theorem ofDyadic_small (s : Bool) (m : Nat) (e : Int) (hm : m < 2 ^ 53)
    (he1 : -1074 ≤ e) (he2 : e ≤ 971) :
    (Double.ofDyadic s m e).Finite ∧ (Double.ofDyadic s m e).sign = s ∧
      (Double.ofDyadic s m e).mag = (m : ℚ) * 2 ^ e := by
  obtain ⟨q, hq, -, hf, hs, hex, hmant⟩ := ofDyadic_small_fields s m e hm he1 he2
  refine ⟨hf, hs, ?_⟩
  unfold Double.mag
  rw [hex, hmant]
  push_cast
  rw [mul_assoc, two_zpow_natCast_mul _ q e (by omega)]


/-- Rounding the value of a finite pattern gives the pattern back. -/
theorem ofDyadic_mant_ex (x : Double) (hx : x.Finite) :
    Double.ofDyadic x.sign x.mant x.ex = x := by
  obtain ⟨h1, h2⟩ := hx
  obtain ⟨s, E, f⟩ := x
  simp only at h1 h2
  by_cases hE : E = 0
  · subst hE
    simp only [Double.mant, Double.ex, if_true]
    by_cases hf : f = 0
    · subst hf; simp [Double.ofDyadic]
    · have hL := bitlen_le f 52 h2
      unfold Double.ofDyadic
      rw [if_neg hf]
      simp only
      have hq : max ((1 : Int) - 1075 + (bitlen f : Int) - 53) (-1074) = -1074 := by omega
      rw [hq]
      simp only [show ((-1074 : Int) ≤ 1 - 1075) by norm_num, if_true,
        show ((1 : Int) - 1075 - -1074).toNat = 0 by norm_num, pow_zero, Nat.mul_one]
      rw [if_neg (by omega)]
      unfold Double.pack
      rw [if_pos h2]
  · simp only [Double.mant, Double.ex, hE, if_false]
    have hb : bitlen (2 ^ 52 + f) = 53 := bitlen_eq _ 52 (by omega) (by omega)
    unfold Double.ofDyadic
    rw [if_neg (by omega)]
    simp only [hb]
    have hq : max ((E : Int) - 1075 + ((53 : Nat) : Int) - 53) (-1074) = (E : Int) - 1075 := by
      omega
    rw [hq]
    simp only [le_refl, if_true, sub_self, Int.toNat_zero, pow_zero, Nat.mul_one]
    rw [if_neg (by omega)]
    unfold Double.pack
    rw [if_neg (by omega), if_neg (by omega)]
    have e1 : ((E : Int) - 1075 + 1075).toNat = E := by omega
    have e2 : 2 ^ 52 + f - 2 ^ 52 = f := by omega
    rw [e1, e2]

/-- Two dyadic representations of one rational value round to the same pattern. -/
theorem ofDyadic_congr (s : Bool) (m m' : Nat) (e e' : Int)
    (h : (m : ℚ) * 2 ^ e = (m' : ℚ) * 2 ^ e') :
    Double.ofDyadic s m e = Double.ofDyadic s m' e' := by
  have key : ∀ (a b : Nat) (i j : Int), i ≤ j → (a : ℚ) * 2 ^ i = (b : ℚ) * 2 ^ j →
      Double.ofDyadic s a i = Double.ofDyadic s b j := by
    intro a b i j hij hab
    have h2 : (a : ℚ) = ((b * 2 ^ (j - i).toNat : Nat) : ℚ) := by
      have hpos : (2 : ℚ) ^ i ≠ 0 := zpow_ne_zero _ (by norm_num)
      have : (2 : ℚ) ^ j = 2 ^ (j - i).toNat * 2 ^ i :=
        (two_zpow_natCast_mul _ i j (by omega)).symm
      rw [this, ← mul_assoc] at hab
      have := mul_right_cancel₀ hpos hab
      rw [this]; push_cast; ring
    have h3 : a = b * 2 ^ (j - i).toNat := by exact_mod_cast h2
    rw [h3, ofDyadic_scale]
    congr 1; omega
  rcases le_total e e' with h1 | h1
  · exact key m m' e e' h1 h
  · exact (key m' m e' e h1 h.symm).symm

/-- A value that has some representation with a 53-bit significand and an exponent in
range is stored exactly, whichever representation is rounded. -/
theorem ofDyadic_exact (s : Bool) (n : Nat) (e : Int) (m' : Nat) (e' : Int)
    (h : (n : ℚ) * 2 ^ e = (m' : ℚ) * 2 ^ e') (hm : m' < 2 ^ 53)
    (he1 : -1074 ≤ e') (he2 : e' ≤ 971) :
    (Double.ofDyadic s n e).Finite ∧ (Double.ofDyadic s n e).sign = s ∧
      (Double.ofDyadic s n e).mag = (n : ℚ) * 2 ^ e := by
  rw [ofDyadic_congr s n m' e e' h, h]
  exact ofDyadic_small s m' e' hm he1 he2

theorem finite_not_nan (x : Double) (hx : x.Finite) : x.isNaN = false ∧ x.isInf = false := by
  obtain ⟨h1, -⟩ := hx
  simp [Double.isNaN, Double.isInf]
  omega

theorem mul_finite (a b : Double) (ha : a.Finite) (hb : b.Finite) :
    Double.mul a b = Double.ofDyadic (xor a.sign b.sign) (a.mant * b.mant) (a.ex + b.ex) := by
  unfold Double.mul
  simp [finite_not_nan a ha, finite_not_nan b hb]

/-- The magnitude at a common smaller exponent. -/
theorem mag_align (a : Double) (e : Int) (he : e ≤ a.ex) :
    ((a.mant * 2 ^ (a.ex - e).toNat : Nat) : ℚ) * 2 ^ e = a.mag := by
  unfold Double.mag
  push_cast
  rw [mul_assoc, two_zpow_natCast_mul _ e a.ex (by omega)]

theorem add_finite_nonneg (a b : Double) (ha : a.Finite) (hb : b.Finite)
    (hsa : a.sign = false) (hsb : b.sign = false) :
    ∃ n e, Double.add a b = Double.ofDyadic false n e ∧ (n : ℚ) * 2 ^ e = a.mag + b.mag := by
  unfold Double.add
  simp only [finite_not_nan a ha, finite_not_nan b hb, Bool.or_self, Bool.false_eq_true,
    if_false, hsa, hsb, one_mul, Bool.and_self]
  have h1 := mag_align a (min a.ex b.ex) (min_le_left _ _)
  have h2 := mag_align b (min a.ex b.ex) (min_le_right _ _)
  generalize a.mant * 2 ^ (a.ex - min a.ex b.ex).toNat = A at h1 ⊢
  generalize b.mant * 2 ^ (b.ex - min a.ex b.ex).toNat = B at h1 h2 ⊢
  by_cases h0 : (A : Int) + (B : Int) = 0
  · rw [if_pos h0]
    have hA : A = 0 := by omega
    have hB : B = 0 := by omega
    refine ⟨0, 0, by simp [Double.ofDyadic], ?_⟩
    rw [← h1, ← h2, hA, hB]; simp
  · rw [if_neg h0]
    refine ⟨A + B, min a.ex b.ex, ?_, ?_⟩
    · have e1 : decide ((A : Int) + (B : Int) < 0) = false := by
        simp only [decide_eq_false_iff_not]; omega
      have e2 : ((A : Int) + (B : Int)).natAbs = A + B := by omega
      rw [e1, e2]
    · rw [← h1, ← h2]; push_cast; ring

theorem sub_finite_nonneg (a b : Double) (ha : a.Finite) (hb : b.Finite)
    (hsa : a.sign = false) (hsb : b.sign = false) (hle : b.mag ≤ a.mag) :
    ∃ n e, Double.sub a b = Double.ofDyadic false n e ∧ (n : ℚ) * 2 ^ e = a.mag - b.mag := by
  unfold Double.sub Double.add
  have hnb : (Double.neg b).Finite := hb
  simp only [finite_not_nan a ha, finite_not_nan _ hnb, Bool.or_self, Bool.false_eq_true,
    if_false, hsa, one_mul]
  have hs : (Double.neg b).sign = true := by simp [Double.neg, hsb]
  have hm : (Double.neg b).mant = b.mant := rfl
  have hx : (Double.neg b).ex = b.ex := rfl
  simp only [hs, hm, hx, if_true, Bool.false_and]
  have h1 := mag_align a (min a.ex b.ex) (min_le_left _ _)
  have h2 := mag_align b (min a.ex b.ex) (min_le_right _ _)
  generalize a.mant * 2 ^ (a.ex - min a.ex b.ex).toNat = A at h1 ⊢
  generalize b.mant * 2 ^ (b.ex - min a.ex b.ex).toNat = B at h1 h2 ⊢
  have hBA : B ≤ A := by
    rw [← h1, ← h2] at hle
    have hpos : (0 : ℚ) < 2 ^ (min a.ex b.ex) := zpow_pos (by norm_num) _
    have := le_of_mul_le_mul_right hle hpos
    exact_mod_cast this
  by_cases h0 : (A : Int) + -1 * (B : Int) = 0
  · rw [if_pos h0]
    refine ⟨0, 0, by simp [Double.ofDyadic], ?_⟩
    have : A = B := by omega
    rw [← h1, ← h2, this]; simp
  · rw [if_neg h0]
    refine ⟨A - B, min a.ex b.ex, ?_, ?_⟩
    · have e1 : decide ((A : Int) + -1 * (B : Int) < 0) = false := by
        simp only [decide_eq_false_iff_not]; omega
      have e2 : ((A : Int) + -1 * (B : Int)).natAbs = A - B := by omega
      rw [e1, e2]
    · rw [← h1, ← h2, Nat.cast_sub hBA]; ring


theorem Rep53_zero : Rep53 0 := ⟨0, 0, by simp, by norm_num⟩

theorem Rep53_exponent (B : Nat) (h : Rep53 B) (hB : B < 2 ^ 64) :
    ∃ m t, B = m * 2 ^ t ∧ m < 2 ^ 53 ∧ t ≤ 64 := by
  obtain ⟨m, t, h1, h2⟩ := h
  by_cases hm : m = 0
  · exact ⟨0, 0, by simp [h1, hm], by norm_num, by norm_num⟩
  · refine ⟨m, t, h1, h2, ?_⟩
    by_contra hc
    have h3 : 2 ^ 64 ≤ 2 ^ t := Nat.pow_le_pow_right (by norm_num) (by omega)
    have h4 : 2 ^ t ≤ m * 2 ^ t := Nat.le_mul_of_pos_left _ (by omega)
    omega

theorem Rep53_mod (B k : Nat) (h : Rep53 B) : Rep53 (B % 2 ^ k) := by
  obtain ⟨m, t, h1, h2⟩ := h
  by_cases ht : k ≤ t
  · have : B % 2 ^ k = 0 := by
      rw [h1]
      have : 2 ^ t = 2 ^ (t - k) * 2 ^ k := by rw [← pow_add]; congr 1; omega
      rw [this, ← Nat.mul_assoc]
      exact Nat.mul_mod_left _ _
    rw [this]; exact Rep53_zero
  · refine ⟨m % 2 ^ (k - t), t, ?_, ?_⟩
    · rw [h1]
      have : 2 ^ k = 2 ^ (k - t) * 2 ^ t := by rw [← pow_add]; congr 1; omega
      rw [this, Nat.mul_mod_mul_right]
    · exact lt_of_le_of_lt (Nat.mod_le _ _) h2

theorem Rep53_mul_pow (B k : Nat) (h : Rep53 B) : Rep53 (B * 2 ^ k) := by
  obtain ⟨m, t, h1, h2⟩ := h
  exact ⟨m, t + k, by rw [h1, pow_add, Nat.mul_assoc], h2⟩

theorem fix56_props (B : Nat) (h : Rep53 B) (hB : B < 2 ^ 64) :
    (fix56 B).Finite ∧ (fix56 B).sign = false ∧ (fix56 B).mag = (B : ℚ) * 2 ^ (-56 : Int) := by
  obtain ⟨m, t, h1, h2, h3⟩ := Rep53_exponent B h hB
  apply ofDyadic_exact false B (-56) m ((t : Int) - 56) _ h2 (by omega) (by omega)
  rw [h1]
  push_cast
  rw [mul_assoc, two_zpow_natCast_mul t (-56) ((t : Int) - 56) (by omega)]

theorem ofNat_props (d : Nat) (hd : d < 2 ^ 53) :
    (Double.ofNat d).Finite ∧ (Double.ofNat d).sign = false ∧ (Double.ofNat d).mag = (d : ℚ) := by
  have := ofDyadic_small false d 0 hd (by norm_num) (by norm_num)
  simpa [Double.ofNat] using this

theorem inv256_props : inv256.Finite ∧ inv256.sign = false ∧
    inv256.mag = (2 : ℚ) ^ (-8 : Int) := by
  refine ⟨by decide, rfl, ?_⟩
  have h1 : inv256.mant = 2 ^ 52 := by decide
  have h2 : inv256.ex = -60 := by decide
  unfold Double.mag
  rw [h1, h2]
  push_cast
  exact two_zpow_natCast_mul 52 (-60) (-8) (by norm_num)

theorem mant_eq_zero_iff (x : Double) : x.mant = 0 ↔ x.isZero = true := by
  unfold Double.mant Double.isZero
  by_cases h : x.expo = 0
  · simp [h]
  · simp [h]

theorem mag_eq_zero_iff (x : Double) : x.mag = 0 ↔ x.isZero = true := by
  rw [← mant_eq_zero_iff]
  unfold Double.mag
  have : (2 : ℚ) ^ x.ex ≠ 0 := zpow_ne_zero _ (by norm_num)
  simp [this]

theorem isZero_fix56 (B : Nat) (h : Rep53 B) (hB : B < 2 ^ 64) :
    (fix56 B).isZero = true ↔ B = 0 := by
  rw [← mag_eq_zero_iff, (fix56_props B h hB).2.2]
  have : (2 : ℚ) ^ (-56 : Int) ≠ 0 := zpow_ne_zero _ (by norm_num)
  constructor
  · intro h0
    rcases mul_eq_zero.mp h0 with h1 | h1
    · exact_mod_cast h1
    · exact absurd h1 this
  · intro h0
    rw [h0]; simp

theorem two_zpow_neg (n : Nat) : (2 : ℚ) ^ (-(n : Int)) = 1 / ((2 ^ n : Nat) : ℚ) := by
  rw [zpow_neg, zpow_natCast]; push_cast; ring

theorem toUChar_floor (x : Double) (hx : x.Finite) : Double.toUChar x = ⌊x.mag⌋₊ % 256 := by
  unfold Double.toUChar Double.mag
  rw [if_neg (by have := hx.1; omega)]
  by_cases h : 0 ≤ x.ex
  · rw [if_pos h]
    have : (x.mant : ℚ) * 2 ^ x.ex = ((x.mant * 2 ^ x.ex.toNat : Nat) : ℚ) := by
      push_cast
      congr 1
      rw [← zpow_natCast]; congr 1; omega
    rw [this, Nat.floor_natCast]
  · rw [if_neg h]
    have : (x.mant : ℚ) * 2 ^ x.ex = (x.mant : ℚ) / ((2 ^ (-x.ex).toNat : Nat) : ℚ) := by
      have e : x.ex = -(((-x.ex).toNat : Nat) : Int) := by omega
      rw [e, two_zpow_neg]
      simp only [neg_neg, Int.toNat_ofNat]
      ring
    rw [this, Nat.floor_div_eq_div]

theorem fix56_mag_div (B : Nat) :
    (B : ℚ) * 2 ^ (-56 : Int) = (B : ℚ) / ((2 ^ 56 : Nat) : ℚ) := by
  have := two_zpow_neg 56
  simp only [Nat.cast_ofNat] at this
  rw [this]; ring

theorem toUChar_fix56 (B : Nat) (h : Rep53 B) (hB : B < 2 ^ 64) :
    Double.toUChar (fix56 B) = B / 2 ^ 56 := by
  obtain ⟨hf, -, hm⟩ := fix56_props B h hB
  rw [toUChar_floor _ hf, hm, fix56_mag_div, Nat.floor_div_eq_div]
  omega


/-- One iteration of the mantissa loop of `serialise_double` is exact: it removes the
integer part and shifts the fraction up by one byte. -/
theorem serialise_step_fix56 (B : Nat) (h : Rep53 B) (hB : B < 2 ^ 64) :
    Double.mul (Double.sub (fix56 B) (Double.ofNat (B / 2 ^ 56))) (Double.ofNat 256)
      = fix56 (B % 2 ^ 56 * 256) := by
  obtain ⟨af, as, am⟩ := fix56_props B h hB
  have hd : B / 2 ^ 56 < 2 ^ 53 := by omega
  obtain ⟨bf, bs, bm⟩ := ofNat_props (B / 2 ^ 56) hd
  have hle : (Double.ofNat (B / 2 ^ 56)).mag ≤ (fix56 B).mag := by
    rw [am, bm, fix56_mag_div]
    exact Nat.cast_div_le
  obtain ⟨n, e, hsub, hval⟩ := sub_finite_nonneg _ _ af bf as bs hle
  have hR : Rep53 (B % 2 ^ 56) := Rep53_mod B 56 h
  have hRlt : B % 2 ^ 56 < 2 ^ 64 := by omega
  have hval2 : (n : ℚ) * 2 ^ e = ((B % 2 ^ 56 : Nat) : ℚ) * 2 ^ (-56 : Int) := by
    rw [hval, am, bm]
    have hB2 : (B : ℚ) = ((2 ^ 56 * (B / 2 ^ 56) + B % 2 ^ 56 : Nat) : ℚ) := by
      rw [Nat.div_add_mod]
    rw [hB2]
    push_cast
    have : (2 : ℚ) ^ (56 : Nat) * 2 ^ (-56 : Int) = 1 := by
      rw [two_zpow_natCast_mul 56 (-56) 0 (by norm_num)]; simp
    linear_combination ((B / 2 ^ 56 : Nat) : ℚ) * this
  have hsub2 : Double.sub (fix56 B) (Double.ofNat (B / 2 ^ 56)) = fix56 (B % 2 ^ 56) := by
    rw [hsub]
    exact ofDyadic_congr false n _ e _ hval2
  rw [hsub2]
  obtain ⟨rf, rs, rm⟩ := fix56_props _ hR hRlt
  obtain ⟨cf, cs, cm⟩ := ofNat_props 256 (by norm_num)
  rw [mul_finite _ _ rf cf, rs, cs]
  apply ofDyadic_congr
  have h1 : (((fix56 (B % 2 ^ 56)).mant * (Double.ofNat 256).mant : Nat) : ℚ)
      * 2 ^ ((fix56 (B % 2 ^ 56)).ex + (Double.ofNat 256).ex)
      = (fix56 (B % 2 ^ 56)).mag * (Double.ofNat 256).mag := by
    unfold Double.mag
    rw [zpow_add₀ (by norm_num : (2 : ℚ) ≠ 0)]
    push_cast; ring
  rw [h1, rm, cm]
  push_cast; ring

/-- One iteration of the mantissa loop of `unserialise_double` is exact when the exact
result has at most 53 significant bits. -/
theorem unserialise_step_fix56 (C d : Nat) (hC : Rep53 C) (hClt : C < 2 ^ 64)
    (hdiv : 256 ∣ C) (hd : d < 256) :
    unserialise_step d (fix56 C) = fix56 (d * 2 ^ 56 + C / 256) := by
  unfold unserialise_step
  obtain ⟨cf, cs, cm⟩ := fix56_props C hC hClt
  obtain ⟨vf, vs, vm⟩ := inv256_props
  obtain ⟨m, t, h1, h2, h3⟩ := Rep53_exponent C hC hClt
  have hmulval : ((((fix56 C).mant * inv256.mant : Nat) : ℚ)
      * 2 ^ ((fix56 C).ex + inv256.ex)) = (C : ℚ) * 2 ^ (-64 : Int) := by
    have : ((((fix56 C).mant * inv256.mant : Nat) : ℚ)
        * 2 ^ ((fix56 C).ex + inv256.ex)) = (fix56 C).mag * inv256.mag := by
      unfold Double.mag
      rw [zpow_add₀ (by norm_num : (2 : ℚ) ≠ 0)]
      push_cast; ring
    rw [this, cm, vm, mul_assoc, ← zpow_add₀ (by norm_num : (2 : ℚ) ≠ 0)]
    norm_num
  have hrep : (C : ℚ) * 2 ^ (-64 : Int) = (m : ℚ) * 2 ^ ((t : Int) - 64) := by
    rw [h1]
    push_cast
    rw [mul_assoc, two_zpow_natCast_mul t (-64) ((t : Int) - 64) (by omega)]
  obtain ⟨pf, ps, pm⟩ := ofDyadic_exact false ((fix56 C).mant * inv256.mant)
    ((fix56 C).ex + inv256.ex) m ((t : Int) - 64) (hmulval.trans hrep) h2 (by omega) (by omega)
  have hmul : Double.mul (fix56 C) inv256
      = Double.ofDyadic false ((fix56 C).mant * inv256.mant) ((fix56 C).ex + inv256.ex) := by
    rw [mul_finite _ _ cf vf, cs, vs]; rfl
  rw [← hmul] at pf ps pm
  obtain ⟨df, ds, dm⟩ := ofNat_props d (by omega)
  obtain ⟨n, e, hadd, hval⟩ := add_finite_nonneg _ _ pf df ps ds
  rw [hadd]
  apply ofDyadic_congr
  rw [hval, pm, dm, hmulval]
  obtain ⟨c, hc⟩ := hdiv
  have hc2 : C / 256 = c := by omega
  rw [hc2, hc]
  push_cast
  have e1 : (2 : ℚ) ^ (56 : Nat) * 2 ^ (-56 : Int) = 1 := by
    rw [two_zpow_natCast_mul 56 (-56) 0 (by norm_num)]; simp
  have e2 : (256 : ℚ) * 2 ^ (-64 : Int) = 2 ^ (-56 : Int) := by
    have : (256 : ℚ) = 2 ^ (8 : Nat) := by norm_num
    rw [this, two_zpow_natCast_mul 8 (-64) (-56) (by norm_num)]
  linear_combination (c : ℚ) * e2 - (d : ℚ) * e1


theorem fix56_zero : fix56 0 = Double.zero := rfl

/-- The mantissa bytes of a 53-bit value decode to the value they were produced from:
the encoding loop always ends with a zero remainder within its byte budget. -/
theorem mantissa_roundtrip (mb : Nat) : ∀ B : Nat, Rep53 B → B < 2 ^ 64 →
    2 ^ (64 - 8 * (mb + 1)) ∣ B → mb + 1 ≤ 8 →
    (serialise_mantissa (mb + 1) (fix56 B)).foldr unserialise_step Double.zero = fix56 B ∧
    (serialise_mantissa (mb + 1) (fix56 B)).head? = some (B / 2 ^ 56) := by
  induction mb with
  | zero =>
    intro B hR hB hdiv _
    have hmod : B % 2 ^ 56 = 0 := Nat.mod_eq_zero_of_dvd (by simpa using hdiv)
    rw [serialise_mantissa]
    simp only [toUChar_fix56 B hR hB, bne_self_eq_false, Bool.and_false, Bool.false_eq_true,
      if_false, List.foldr_cons, List.foldr_nil, List.head?_cons, and_true]
    rw [← fix56_zero, unserialise_step_fix56 0 _ Rep53_zero (by norm_num) (by simp) (by omega)]
    have hdm := Nat.div_add_mod B (2 ^ 56)
    have : B / 2 ^ 56 * 2 ^ 56 + 0 / 256 = B := by omega
    rw [this]
  | succ k ih =>
    intro B hR hB hdiv hk
    rw [serialise_mantissa]
    simp only [toUChar_fix56 B hR hB, serialise_step_fix56 B hR hB, List.head?_cons, and_true]
    have hR' : Rep53 (B % 2 ^ 56 * 256) := by
      have := Rep53_mul_pow _ 8 (Rep53_mod B 56 hR)
      simpa using this
    have hB' : B % 2 ^ 56 * 256 < 2 ^ 64 := by
      have := Nat.mod_lt B (Nat.two_pow_pos 56)
      omega
    have hdm := Nat.div_add_mod B (2 ^ 56)
    by_cases hz : B % 2 ^ 56 * 256 = 0
    · have hiz : (fix56 (B % 2 ^ 56 * 256)).isZero = true := (isZero_fix56 _ hR' hB').mpr hz
      simp only [hiz, Bool.not_true, Bool.false_and, Bool.false_eq_true, if_false,
        List.foldr_cons, List.foldr_nil]
      rw [← fix56_zero, unserialise_step_fix56 0 _ Rep53_zero (by norm_num) (by simp) (by omega)]
      have : B / 2 ^ 56 * 2 ^ 56 + 0 / 256 = B := by omega
      rw [this]
    · have hiz : (fix56 (B % 2 ^ 56 * 256)).isZero = false := by
        cases h : (fix56 (B % 2 ^ 56 * 256)).isZero
        · rfl
        · exact absurd ((isZero_fix56 _ hR' hB').mp h) hz
      simp only [hiz, Bool.not_false, Bool.true_and, bne_iff_ne, ne_eq, Nat.add_one_ne_zero,
        not_false_eq_true, if_true, List.foldr_cons]
      have hdiv' : 2 ^ (64 - 8 * (k + 1)) ∣ B % 2 ^ 56 * 256 := by
        obtain ⟨c, hc⟩ := hdiv
        have e1 : 64 - 8 * (k + 1) = (64 - 8 * (k + 1 + 1)) + 8 := by omega
        have e2 : 2 ^ 56 = 2 ^ (56 - (64 - 8 * (k + 1 + 1))) * 2 ^ (64 - 8 * (k + 1 + 1)) := by
          rw [← pow_add]; congr 1; omega
        rw [e1, pow_add, hc, Nat.mul_comm (2 ^ (64 - 8 * (k + 1 + 1))) c, e2,
          Nat.mul_mod_mul_right]
        exact ⟨c % 2 ^ (56 - (64 - 8 * (k + 1 + 1))), by ring⟩
      rw [(ih _ hR' hB' hdiv' (by omega)).1,
        unserialise_step_fix56 _ _ hR' hB' (Dvd.intro_left _ rfl) (by omega)]
      have : B / 2 ^ 56 * 2 ^ 56 + B % 2 ^ 56 * 256 / 256 = B := by omega
      rw [this]

theorem peek_append_cons (past : Nat → Nat) (l r : List Nat) (d : Nat) :
    peek past (l ++ d :: r) l.length = d := by
  have := peek_append_right past l (d :: r) 0
  simpa [peek_zero] using this

/-- The decoding loop is a right fold of `unserialise_step` over the mantissa bytes. -/
theorem unserialise_mantissa_foldr (past : Nat → Nat) (pre : List Nat) (M : List Nat) :
    ∀ (post : List Nat) (v : Double),
    (unserialise_mantissa past (pre ++ M ++ post) M.length (pre.length + M.length) v).1
      = M.foldr unserialise_step v := by
  induction M using List.reverseRecOn with
  | nil => intro post v; simp [unserialise_mantissa]
  | append_singleton M' d ih =>
    intro post v
    have hlen : (M' ++ [d]).length = M'.length + 1 := by simp
    rw [hlen, unserialise_mantissa]
    simp only [List.foldr_append, List.foldr_cons, List.foldr_nil]
    have hq : pre.length + (M'.length + 1) - 1 = pre.length + M'.length := by omega
    rw [hq]
    have hbuf : pre ++ (M' ++ [d]) ++ post = pre ++ M' ++ ([d] ++ post) := by simp
    have hpk : peek past (pre ++ (M' ++ [d]) ++ post) (pre.length + M'.length) = d := by
      have := peek_append_cons past (pre ++ M') post d
      simpa using this
    rw [hpk, hbuf]
    exact ih ([d] ++ post) _


set_option maxRecDepth 100000 in
theorem char_not_above_dbl_max_mantissa : ∀ b < 256, ∀ cs : Bool,
    Double.lt dbl_max_mantissa (Double.ofInt (charValue cs b)) = false := by decide


theorem peek_lt_256_of_ge (past : Nat → Nat) (buf : List Nat) (i : Nat)
    (h : buf.length ≤ i) : peek past buf i < 256 := by
  unfold peek
  rw [dif_neg (by omega)]
  exact Nat.mod_lt _ (by norm_num)

/-- Decoding a well-shaped encoding whose exponent does not overflow: the value is the
fold of the mantissa bytes, scaled by `256 ^ e` and given the sign of bit 7, and the read
pointer ends just past the mantissa. -/
theorem unserialise_double_of_shape (cs : Bool) (past : Nat → Nat) (b0 : Nat)
    (ebytes M : List Nat) (e : Int)
    (hc : (-7 ≤ e ∧ e ≤ 6 ∧ ((b0 &&& 0x0f : Nat) : Int) = e + 7 ∧ ebytes = []) ∨
       (¬(-7 ≤ e ∧ e ≤ 6) ∧ -128 ≤ e ∧ e ≤ 126 ∧ b0 &&& 0x0f = 14 ∧
          ebytes = [(e + 128).toNat]) ∨
       (¬(-128 ≤ e ∧ e ≤ 126) ∧ -32768 ≤ e ∧ b0 &&& 0x0f = 15 ∧
          ebytes = [(e + 32768).toNat % 256, (e + 32768).toNat / 256]))
    (hM : mantissa_len_of b0 = M.length)
    (hnz : ¬ (b0 = 0 ∧ peek past (b0 :: (ebytes ++ M)) 1 = 0))
    (he : e ≤ 127) :
    ∃ r, unserialise_double cs past (b0 :: (ebytes ++ M)) = .ok r ∧
      r.pos = (b0 :: (ebytes ++ M)).length ∧
      r.value =
        (if (b0 &&& 0x80) != 0 then
          Double.neg (if e ≠ 0 then Double.ldexp (M.foldr unserialise_step Double.zero) (e * 8)
            else M.foldr unserialise_step Double.zero)
        else (if e ≠ 0 then Double.ldexp (M.foldr unserialise_step Double.zero) (e * 8)
            else M.foldr unserialise_step Double.zero)) := by
  obtain ⟨reads, hexp, -⟩ := unserialise_exponent_of_shape past b0 ebytes M e hc
  have hM1 : 1 ≤ M.length := by rw [← hM]; unfold mantissa_len_of; omega
  have hlen : (b0 :: (ebytes ++ M)).length = 1 + ebytes.length + M.length := by
    simp only [List.length_cons, List.length_append]; omega
  unfold unserialise_double
  rw [if_neg (by omega)]
  simp only [peek_zero]
  rw [if_neg hnz, hexp]
  simp only
  have hml : (b0 >>> 4 &&& 7) + 1 = M.length := hM
  rw [hml, if_neg (by omega)]
  refine ⟨_, rfl, by simp only; omega, ?_⟩
  simp only
  have hcmp : (decide (e = dbl_max_exp) && Double.lt dbl_max_mantissa
      (Double.ofInt (charValue cs (peek past (b0 :: (ebytes ++ M))
        (1 + ebytes.length + M.length))))) = false := by
    rw [char_not_above_dbl_max_mantissa _ (peek_lt_256_of_ge past _ _ (by omega)) cs]
    simp
  rw [hcmp]
  have hgt : ¬ (e > dbl_max_exp ∨ false = true) := by
    rw [dbl_max_exp_eq]; simp; omega
  rw [if_neg hgt]
  have hbuf : b0 :: (ebytes ++ M) = (b0 :: ebytes) ++ M ++ [] := by simp
  have hq : 1 + ebytes.length + M.length = (b0 :: ebytes).length + M.length := by
    simp only [List.length_cons]; omega
  have hfold := unserialise_mantissa_foldr past (b0 :: ebytes) M [] Double.zero
  rw [← hbuf, ← hq] at hfold
  simp only [hfold]


theorem ofDyadic_normal (s : Bool) (N E : Nat) (hN1 : 2 ^ 52 ≤ N) (hN2 : N < 2 ^ 53)
    (hE1 : 1 ≤ E) (hE2 : E ≤ 2046) (e : Int) (he : e = (E : Int) - 1075) :
    Double.ofDyadic s N e = ⟨s, E, N - 2 ^ 52⟩ := by
  have hy : (⟨s, E, N - 2 ^ 52⟩ : Double).Finite := ⟨by simp only; omega, by simp only; omega⟩
  have := ofDyadic_mant_ex ⟨s, E, N - 2 ^ 52⟩ hy
  have hm : (⟨s, E, N - 2 ^ 52⟩ : Double).mant = N := by
    simp only [Double.mant, show E ≠ 0 by omega, if_false]; omega
  have hx : (⟨s, E, N - 2 ^ 52⟩ : Double).ex = e := by
    simp only [Double.ex, show E ≠ 0 by omega, if_false]; omega
  rw [hm, hx] at this
  exact this

theorem lt_zero_of_finite (x : Double) (hx : x.Finite) :
    Double.lt x Double.zero = (x.sign && !x.isZero) := by
  unfold Double.lt Double.key
  have hz : Double.zero.isNaN = false := by decide
  simp only [(finite_not_nan x hx).1, hz, Bool.not_false, Bool.and_self, Bool.true_and]
  have hk0 : Double.zero.sign = false ∧ Double.zero.expo = 0 ∧ Double.zero.frac = 0 :=
    ⟨rfl, rfl, rfl⟩
  simp only [hk0.1, hk0.2.1, hk0.2.2, Bool.false_eq_true, if_false]
  have hiff : x.isZero = true ↔ x.expo * 2 ^ 52 + x.frac = 0 := by
    unfold Double.isZero
    simp only [Bool.and_eq_true, beq_iff_eq]
    constructor
    · rintro ⟨h1, h2⟩; rw [h1, h2]; norm_num
    · intro h; omega
  cases hs : x.sign
  · simp only [Bool.false_eq_true, if_false, Bool.false_and, decide_eq_false_iff_not]
    omega
  · simp only [if_true, Bool.true_and]
    cases hz : x.isZero
    · have : ¬ (x.expo * 2 ^ 52 + x.frac = 0) := fun h => by
        rw [hiff.mpr h] at hz; cases hz
      simp only [Bool.not_false, decide_eq_true_eq]
      omega
    · have := hiff.mp hz
      simp only [Bool.not_true, decide_eq_false_iff_not]
      omega

theorem serialise_abs_nonzero (x : Double) (hx : x.Finite) (hnz : x.isZero = false) :
    serialise_abs x = ⟨false, x.expo, x.frac⟩ ∧ Double.lt x Double.zero = x.sign := by
  unfold serialise_abs
  rw [lt_zero_of_finite x hx, hnz]
  obtain ⟨s, E, f⟩ := x
  cases s <;> simp [Double.neg]

/-- What `base256ify_double` returns for a positive finite double: a normal double with
a 53-bit significand `N` and binary exponent `k - 1` for some `1 ≤ k ≤ 8`, such that
`N * 2 ^ (k - 53) * 256 ^ exp` is the argument. -/
theorem base256ify_finite (a : Double) (ha : a.Finite) (hs : a.sign = false)
    (hnz : a.isZero = false) :
    ∃ N k : Nat, 2 ^ 52 ≤ N ∧ N < 2 ^ 53 ∧ 1 ≤ k ∧ k ≤ 8 ∧
      (base256ify_double a).1 = ⟨false, 1022 + k, N - 2 ^ 52⟩ ∧
      Double.ofDyadic false N ((k : Int) - 53 + (base256ify_double a).2 * 8) = a := by
  obtain ⟨h1, h2⟩ := ha
  obtain ⟨s, E, f⟩ := a
  simp only at h1 h2 hs
  subst hs
  have hfr : ¬ (2047 ≤ E ∨ (⟨false, E, f⟩ : Double).isZero = true) := by
    rw [hnz]; simp; omega
  unfold base256ify_double Double.frexp
  simp only [if_neg hfr]
  by_cases hE : E = 0
  · subst hE
    simp only [if_true]
    have hf0 : f ≠ 0 := by
      intro h; subst h; simp [Double.isZero] at hnz
    have hL1 := bitlen_pos f hf0
    have hL2 := bitlen_le f 52 h2
    have hlo := two_pow_bitlen_le f hf0
    have hhi := lt_two_pow_bitlen f
    have hN1 : 2 ^ 52 ≤ f * 2 ^ (53 - bitlen f) := by
      have h5 : 2 ^ (bitlen f - 1) * 2 ^ (53 - bitlen f) ≤ f * 2 ^ (53 - bitlen f) :=
        Nat.mul_le_mul_right _ hlo
      rw [← pow_add] at h5
      have h6 : bitlen f - 1 + (53 - bitlen f) = 52 := by omega
      rw [h6] at h5
      exact h5
    have hN2 : f * 2 ^ (53 - bitlen f) < 2 ^ 53 := by
      have h5 : f * 2 ^ (53 - bitlen f) < 2 ^ bitlen f * 2 ^ (53 - bitlen f) :=
        Nat.mul_lt_mul_of_pos_right hhi (Nat.two_pow_pos _)
      rw [← pow_add] at h5
      have h6 : bitlen f + (53 - bitlen f) = 53 := by omega
      rw [h6] at h5
      exact h5
    generalize hk : (((bitlen f : Int) - 1074 - 1) % 8 + 1) = k'
    refine ⟨f * 2 ^ (53 - bitlen f), k'.toNat, hN1, hN2, by omega, by omega, ?_, ?_⟩
    · unfold Double.ldexp
      rw [if_neg (by simp [Double.isZero])]
      have hm : (⟨false, 1022, f * 2 ^ (53 - bitlen f) - 2 ^ 52⟩ : Double).mant
          = f * 2 ^ (53 - bitlen f) := by
        simp only [Double.mant, show (1022 : Nat) ≠ 0 by norm_num, if_false]; omega
      rw [hm]
      exact ofDyadic_normal false _ (1022 + k'.toNat) hN1 hN2 (by omega) (by omega) _
        (by simp only [Double.ex, show (1022 : Nat) ≠ 0 by norm_num, if_false]; push_cast; omega)
    · rw [ofDyadic_scale]
      have := ofDyadic_mant_ex ⟨false, 0, f⟩ ⟨by norm_num, h2⟩
      simp only [Double.mant, Double.ex, if_true] at this
      rw [← this]
      congr 1
      omega
  · simp only [if_neg hE]
    generalize hk : (((E : Int) - 1022 - 1) % 8 + 1) = k'
    refine ⟨2 ^ 52 + f, k'.toNat, by omega, by omega, by omega, by omega, ?_, ?_⟩
    · unfold Double.ldexp
      rw [if_neg (by simp [Double.isZero])]
      have hm : (⟨false, 1022, f⟩ : Double).mant = 2 ^ 52 + f := by
        simp only [Double.mant, show (1022 : Nat) ≠ 0 by norm_num, if_false]
      rw [hm]
      have := ofDyadic_normal false (2 ^ 52 + f) (1022 + k'.toNat) (by omega) (by omega)
        (by omega) (by omega)
        ((⟨false, 1022, f⟩ : Double).ex + k')
        (by simp only [Double.ex, show (1022 : Nat) ≠ 0 by norm_num, if_false]; push_cast; omega)
      rw [this]
    · have := ofDyadic_normal false (2 ^ 52 + f) E (by omega) (by omega) (by omega) (by omega)
        ((k'.toNat : Int) - 53 + ((E : Int) - 1022 - 1) / 8 * 8) (by omega)
      rw [this]
      have e2 : 2 ^ 52 + f - 2 ^ 52 = f := by omega
      rw [e2]


set_option exponentiation.threshold 2100 in
theorem eval_serialise_negZero : serialise_double Double.negZero = .ok [0x06, 0x00] := by
  rfl

theorem unserialise_double_six_zero (cs : Bool) (past : Nat → Nat) :
    ∃ r, unserialise_double cs past [0x06, 0x00] = .ok r ∧ r.pos = 2 ∧
      r.value = Double.zero := by
  have hc : (-7 ≤ (-1 : Int) ∧ (-1 : Int) ≤ 6 ∧ ((6 &&& 0x0f : Nat) : Int) = -1 + 7 ∧
        ([] : List Nat) = []) ∨
       (¬(-7 ≤ (-1 : Int) ∧ (-1 : Int) ≤ 6) ∧ -128 ≤ (-1 : Int) ∧ (-1 : Int) ≤ 126 ∧
          6 &&& 0x0f = 14 ∧ ([] : List Nat) = [((-1 : Int) + 128).toNat]) ∨
       (¬(-128 ≤ (-1 : Int) ∧ (-1 : Int) ≤ 126) ∧ -32768 ≤ (-1 : Int) ∧ 6 &&& 0x0f = 15 ∧
          ([] : List Nat) = [((-1 : Int) + 32768).toNat % 256,
            ((-1 : Int) + 32768).toNat / 256]) :=
    Or.inl ⟨by norm_num, by norm_num, by decide, rfl⟩
  obtain ⟨r, h1, h2, h3⟩ := unserialise_double_of_shape cs past 6 [] [0] (-1) hc (by decide)
    (by simp) (by norm_num)
  refine ⟨r, h1, h2, ?_⟩
  rw [h3]
  rfl

/-- Round trip of a finite non-zero double. -/
theorem roundtrip_nonzero (cs : Bool) (past : Nat → Nat) (x : Double) (hx : x.Finite)
    (hnz : x.isZero = false) :
    ∃ out r, serialise_double x = .ok out ∧ unserialise_double cs past out = .ok r ∧
      r.pos = out.length ∧ r.value = x := by
  obtain ⟨habs, hlt⟩ := serialise_abs_nonzero x hx hnz
  have ha : (⟨false, x.expo, x.frac⟩ : Double).Finite := hx
  have hanz : (⟨false, x.expo, x.frac⟩ : Double).isZero = false := hnz
  obtain ⟨N, k, hN1, hN2, hk1, hk2, hv1, hback⟩ :=
    base256ify_finite ⟨false, x.expo, x.frac⟩ ha rfl hanz
  have hexp : (base256ify_double ⟨false, x.expo, x.frac⟩).2 = base256_exponent x := by
    unfold base256_exponent; rw [habs]
  rw [hexp] at hback
  have hpow : 2 ^ (k + 3) ≤ 2 ^ 11 := Nat.pow_le_pow_right (by norm_num) (by omega)
  have hpow2 : 2 ^ 4 ≤ 2 ^ (k + 3) := Nat.pow_le_pow_right (by norm_num) (by omega)
  have hA : N * 2 ^ (k + 3) < 2 ^ 64 := by
    calc N * 2 ^ (k + 3) ≤ N * 2 ^ 11 := Nat.mul_le_mul_left _ hpow
      _ < 2 ^ 53 * 2 ^ 11 := Nat.mul_lt_mul_of_pos_right hN2 (by norm_num)
      _ = 2 ^ 64 := by norm_num
  have hA2 : 2 ^ 56 ≤ N * 2 ^ (k + 3) := by
    calc 2 ^ 56 = 2 ^ 52 * 2 ^ 4 := by norm_num
      _ ≤ N * 2 ^ 4 := Nat.mul_le_mul_right _ hN1
      _ ≤ N * 2 ^ (k + 3) := Nat.mul_le_mul_left _ hpow2
  have hRep : Rep53 (N * 2 ^ (k + 3)) := ⟨N, k + 3, rfl, hN2⟩
  have hy : fix56 (N * 2 ^ (k + 3)) = ⟨false, 1022 + k, N - 2 ^ 52⟩ := by
    unfold fix56
    rw [ofDyadic_scale]
    exact ofDyadic_normal false N (1022 + k) hN1 hN2 (by omega) (by omega) _
      (by push_cast; omega)
  have hmant : base256_mantissa x = fix56 (N * 2 ^ (k + 3)) := by
    unfold base256_mantissa; rw [habs, hv1, hy]
  obtain ⟨hfold, hhead⟩ := mantissa_roundtrip 7 (N * 2 ^ (k + 3)) hRep hA (by simp)
    (by norm_num)
  have hr := base256_exponent_range x hx
  obtain ⟨b0, ebytes, hs, -, hM, hsign, hc⟩ := serialise_double_shape x (by omega)
  rw [hmant] at hs hM
  have hc2 : (-7 ≤ base256_exponent x ∧ base256_exponent x ≤ 6 ∧
          ((b0 &&& 0x0f : Nat) : Int) = base256_exponent x + 7 ∧ ebytes = []) ∨
       (¬(-7 ≤ base256_exponent x ∧ base256_exponent x ≤ 6) ∧
          -128 ≤ base256_exponent x ∧ base256_exponent x ≤ 126 ∧ b0 &&& 0x0f = 14 ∧
          ebytes = [(base256_exponent x + 128).toNat]) ∨
       (¬(-128 ≤ base256_exponent x ∧ base256_exponent x ≤ 126) ∧
          -32768 ≤ base256_exponent x ∧ b0 &&& 0x0f = 15 ∧
          ebytes = [(base256_exponent x + 32768).toNat % 256,
                    (base256_exponent x + 32768).toNat / 256]) := by
    rcases hc with h | h | h
    · exact Or.inl h
    · exact Or.inr (Or.inl h)
    · exact Or.inr (Or.inr ⟨h.1, by omega, h.2⟩)
  have hnz' : ¬ (b0 = 0 ∧ peek past
      (b0 :: (ebytes ++ serialise_mantissa 8 (fix56 (N * 2 ^ (k + 3))))) 1 = 0) := by
    rintro ⟨h0, hp⟩
    subst h0
    rcases hc with h | h | h
    · rw [h.2.2.2] at hp
      obtain ⟨tl, htl⟩ : ∃ tl, serialise_mantissa 8 (fix56 (N * 2 ^ (k + 3)))
          = (N * 2 ^ (k + 3) / 2 ^ 56) :: tl := by
        cases hl : serialise_mantissa 8 (fix56 (N * 2 ^ (k + 3))) with
        | nil => rw [hl] at hhead; cases hhead
        | cons d tl =>
          rw [hl] at hhead
          simp only [List.head?_cons, Option.some.injEq] at hhead
          exact ⟨tl, by rw [hhead]⟩
      rw [htl] at hp
      simp only [List.nil_append, peek_succ, peek_zero] at hp
      have : 1 ≤ N * 2 ^ (k + 3) / 2 ^ 56 := (Nat.one_le_div_iff (by norm_num)).mpr hA2
      omega
    · have := h.2.2.2.1
      simp at this
    · have := h.2.1
      simp at this
  obtain ⟨r, hr1, hr2, hr3⟩ := unserialise_double_of_shape cs past b0 ebytes
    (serialise_mantissa 8 (fix56 (N * 2 ^ (k + 3)))) (base256_exponent x) hc2 hM hnz'
    (by omega)
  refine ⟨_, r, hs, hr1, hr2, ?_⟩
  rw [hr3, hfold, hsign, hlt]
  have hw : (if base256_exponent x ≠ 0 then
        Double.ldexp (fix56 (N * 2 ^ (k + 3))) (base256_exponent x * 8)
      else fix56 (N * 2 ^ (k + 3))) = ⟨false, x.expo, x.frac⟩ := by
    by_cases he0 : base256_exponent x = 0
    · rw [if_neg (by simpa using he0), hy]
      rw [he0] at hback
      rw [← hback]
      exact (ofDyadic_normal false N (1022 + k) hN1 hN2 (by omega) (by omega) _
        (by push_cast; omega)).symm
    · rw [if_pos he0, hy]
      unfold Double.ldexp
      rw [if_neg (by simp [Double.isZero]; omega)]
      have hm : (⟨false, 1022 + k, N - 2 ^ 52⟩ : Double).mant = N := by
        simp only [Double.mant, show 1022 + k ≠ 0 by omega, if_false]; omega
      have hx2 : (⟨false, 1022 + k, N - 2 ^ 52⟩ : Double).ex = (k : Int) - 53 := by
        simp only [Double.ex, show 1022 + k ≠ 0 by omega, if_false]; push_cast; omega
      rw [hm, hx2]
      exact hback
  rw [hw]
  obtain ⟨s, E, f⟩ := x
  cases s <;> simp [Double.neg]


/-! ## Round trip (C1) -/

/-- C1 (as stated, refuted): negative zero is finite, but the decoded value of its
encoding is `+0.0`, whose bit pattern differs in the sign bit. -/
theorem roundtrip_negZero_not_bitwise :
    Double.negZero.Finite ∧
    ∃ out r, serialise_double Double.negZero = .ok out ∧
      unserialise_double false (fun _ => 0) out = .ok r ∧ r.value ≠ Double.negZero := by
  obtain ⟨r, h1, -, h3⟩ := unserialise_double_six_zero false (fun _ => 0)
  refine ⟨by decide, [0x06, 0x00], r, eval_serialise_negZero, h1, ?_⟩
  rw [h3]
  decide

/-- C1 (amended): for every finite double `x`, `serialise_double` returns a byte string
and `unserialise_double` applied to it consumes exactly that string and returns a value
bitwise identical to `x` (denormals included), except that for negative zero it
returns `+0.0`. -/
theorem serialise_unserialise_roundtrip (cs : Bool) (past : Nat → Nat) (x : Double)
    (hx : x.Finite) :
    ∃ out r, serialise_double x = .ok out ∧ unserialise_double cs past out = .ok r ∧
      r.pos = out.length ∧ (x ≠ Double.negZero → r.value = x) ∧
      (x = Double.negZero → r.value = Double.zero) := by
  cases hz : x.isZero
  · obtain ⟨out, r, h1, h2, h3, h4⟩ := roundtrip_nonzero cs past x hx hz
    refine ⟨out, r, h1, h2, h3, fun _ => h4, fun h => ?_⟩
    rw [h] at hz
    exact absurd hz (by decide)
  · obtain ⟨s, E, f⟩ := x
    simp only [Double.isZero, Bool.and_eq_true, beq_iff_eq] at hz
    obtain ⟨hE, hf⟩ := hz
    subst hE hf
    obtain ⟨r, h1, h2, h3⟩ := unserialise_double_six_zero cs past
    cases s
    · exact ⟨_, r, eval_serialise_zero, h1, h2, fun _ => h3, fun _ => h3⟩
    · exact ⟨_, r, eval_serialise_negZero, h1, h2, fun h => absurd rfl h, fun _ => h3⟩

/-- C1 at a negative double with a long mantissa. -/
theorem serialise_unserialise_roundtrip_witness :
    (⟨true, 1000, 12345678901⟩ : Double).Finite ∧
    ∃ out r, serialise_double ⟨true, 1000, 12345678901⟩ = .ok out ∧
      unserialise_double true (fun _ => 255) out = .ok r ∧
      r.pos = out.length ∧
      ((⟨true, 1000, 12345678901⟩ : Double) ≠ Double.negZero →
        r.value = ⟨true, 1000, 12345678901⟩) ∧
      ((⟨true, 1000, 12345678901⟩ : Double) = Double.negZero → r.value = Double.zero) :=
  ⟨by decide, serialise_unserialise_roundtrip true (fun _ => 255) _ (by decide)⟩

/-- C8 at the input `0f ff ff 01`: exponent selector 15, decoded exponent 32767. -/
theorem unserialise_double_overflow_witness :
    (2 ≤ ([0x0f, 0xff, 0xff, 0x01] : List Nat).length ∧
     unserialise_exponent (fun _ => 0) [0x0f, 0xff, 0xff, 0x01] 0x0f = .ok (32767, 3, [1, 2]) ∧
     mantissa_len_of 0x0f ≤ ([0x0f, 0xff, 0xff, 0x01] : List Nat).length - 3 ∧
     dbl_max_exp < 32767) ∧
    ∃ r, unserialise_double false (fun _ => 0) [0x0f, 0xff, 0xff, 0x01] = .ok r ∧
      r.value = Double.inf ((0x0f &&& 0x80) != 0) ∧ r.pos = 3 + mantissa_len_of 0x0f ∧
      dbl_max_exp = 127 :=
  ⟨⟨by decide, rfl, by decide, by decide⟩,
   unserialise_double_overflow false (fun _ => 0) 0x0f [0xff, 0xff, 0x01] 32767 3 [1, 2]
     (by decide) rfl (by decide) (by decide)⟩


/-! ## Position cursors -/

theorem tp_add_eq (a b : Nat) (h : a + b < 2 ^ 32) : tp_add a b = a + b := by
  unfold tp_add TERMPOS_MOD
  exact Nat.mod_eq_of_lt h

theorem tp_sub_eq (a b : Nat) (h1 : b ≤ a) (h2 : a < 2 ^ 32) : tp_sub a b = a - b := by
  unfold tp_sub TERMPOS_MOD
  have hb : b % 2 ^ 32 = b := Nat.mod_eq_of_lt (by omega)
  rw [hb]
  omega

theorem mem_dropWhile_sorted (L : List Nat) (p q : Nat) (hs : L.Sorted (· < ·)) :
    q ∈ L.dropWhile (fun x => decide (x < p)) ↔ q ∈ L ∧ p ≤ q := by
  induction L with
  | nil => simp
  | cons a t ih =>
    have hat : ∀ b ∈ t, a < b := List.rel_of_sorted_cons hs
    have ht : t.Sorted (· < ·) := List.Sorted.of_cons hs
    by_cases hap : a < p
    · rw [List.dropWhile_cons_of_pos (by simpa using hap), ih ht]
      constructor
      · rintro ⟨h1, h2⟩; exact ⟨List.mem_cons_of_mem _ h1, h2⟩
      · rintro ⟨h1, h2⟩
        rcases List.mem_cons.mp h1 with h | h
        · omega
        · exact ⟨h, h2⟩
    · rw [List.dropWhile_cons_of_neg (by simpa using hap)]
      constructor
      · intro h1
        refine ⟨h1, ?_⟩
        rcases List.mem_cons.mp h1 with h | h
        · omega
        · have := hat q h; omega
      · rintro ⟨h1, -⟩; exact h1

theorem sorted_dropWhile (L : List Nat) (p : Nat) (hs : L.Sorted (· < ·)) :
    (L.dropWhile (fun x => decide (x < p))).Sorted (· < ·) :=
  hs.sublist (List.dropWhile_sublist _)

theorem cursorInv_fresh (t : Term) (hs : t.positions.Sorted (· < ·)) (b : Nat) :
    CursorInv t.read_position_list t.positions b :=
  ⟨hs, fun _ h => h, fun _ h _ => h⟩

theorem cursorInv_mono (pl : PositionList) (L : List Nat) (t t' : Nat) (h : CursorInv pl L t)
    (htt : t ≤ t') : CursorInv pl L t' :=
  ⟨h.1, h.2.1, fun q hq hle => h.2.2 q hq (by omega)⟩

/-- The effect of `skip_to(p)` on a cursor that has not been moved beyond `p`. -/
theorem skip_to_spec (pl : PositionList) (L : List Nat) (t p : Nat) (h : CursorInv pl L t)
    (htp : t ≤ p) :
    CursorInv (pl.skip_to p) L p ∧
    ((pl.skip_to p).ok = false → ∀ q ∈ L, q < p) ∧
    ((pl.skip_to p).ok = true →
      (pl.skip_to p).rest.head? = some (pl.skip_to p).get_position ∧
      (pl.skip_to p).get_position ∈ L ∧ p ≤ (pl.skip_to p).get_position ∧
      (∀ q ∈ L, p ≤ q → (pl.skip_to p).get_position ≤ q) ∧
      CursorInv (pl.skip_to p) L (pl.skip_to p).get_position) := by
  obtain ⟨h1, h2, h3⟩ := h
  have hmem := fun q => mem_dropWhile_sorted pl.rest p q h1
  have hsorted := sorted_dropWhile pl.rest p h1
  have hinv : CursorInv (pl.skip_to p) L p :=
    ⟨hsorted, fun q hq => h2 q ((hmem q).mp hq).1,
      fun q hq hle => (hmem q).mpr ⟨h3 q hq (by omega), hle⟩⟩
  refine ⟨hinv, ?_, ?_⟩
  · intro hok q hq
    by_contra hc
    have : q ∈ (pl.skip_to p).rest := hinv.2.2 q hq (by omega)
    unfold PositionList.ok at hok
    cases hr : (pl.skip_to p).rest with
    | nil => rw [hr] at this; cases this
    | cons a tl => rw [hr] at hok; simp at hok
  · intro hok
    unfold PositionList.ok at hok
    cases hr : (pl.skip_to p).rest with
    | nil => rw [hr] at hok; simp at hok
    | cons a tl =>
      have hg : (pl.skip_to p).get_position = a := by
        unfold PositionList.get_position; rw [hr]; rfl
      rw [hg]
      have ha : a ∈ (pl.skip_to p).rest := by rw [hr]; exact List.mem_cons_self _ _
      have hmin : ∀ q ∈ (pl.skip_to p).rest, a ≤ q := by
        intro q hq
        have hsorted' : (pl.skip_to p).rest.Sorted (· < ·) := hsorted
        rw [hr] at hq hsorted'
        rcases List.mem_cons.mp hq with h | h
        · omega
        · exact le_of_lt (List.rel_of_sorted_cons hsorted' q h)
      refine ⟨rfl, hinv.2.1 a ha, ((hmem a).mp ha).2, fun q hq hle => hmin q (hinv.2.2 q hq hle),
        cursorInv_mono _ _ _ _ hinv ((hmem a).mp ha).2⟩

theorem skip_to_length_lt (pl : PositionList) (a p : Nat) (h : pl.rest.head? = some a)
    (hap : a < p) : (pl.skip_to p).rest.length < pl.rest.length := by
  unfold PositionList.skip_to
  cases hr : pl.rest with
  | nil => rw [hr] at h; cases h
  | cons b tl =>
    rw [hr] at h
    simp only [List.head?_cons, Option.some.injEq] at h
    subst h
    simp only
    rw [List.dropWhile_cons_of_pos (by simpa using hap)]
    have := (List.dropWhile_sublist (fun x => decide (x < p)) (l := tl)).length_le
    simp only [List.length_cons]
    omega

theorem getD_set_self {α : Type} (l : List α) (i : Nat) (a d : α)
    (h : i < l.length) : (l.set i a).getD i d = a := by
  simp [List.getD_eq_getElem?_getD, List.getElem?_set, h]

theorem getD_set_other {α : Type} (l : List α) (i j : Nat) (a d : α)
    (h : i ≠ j) : (l.set i a).getD j d = l.getD j d := by
  simp [List.getD_eq_getElem?_getD, List.getElem?_set, h]



/-! ## Exact phrase (C2) -/

/-- Opening the position list of term `order[i]` when the scan first reaches `i`. -/
theorem exact_open_step (terms : List Term) (order : List Nat)
    (hsorted : ∀ k, k < terms.length → (terms.getD k default).positions.Sorted (· < ·))
    (hord1 : ∀ j, j < terms.length → order.getD j 0 < terms.length)
    (poslists : List PositionList) (read_hwm base i : Nat)
    (inv : ExactInv terms order poslists read_hwm base i) :
    ExactInv terms order
      (if i > read_hwm then exact_start_position_list terms order poslists i else poslists)
      (if i > read_hwm then i else read_hwm) base i ∧
    i ≤ (if i > read_hwm then i else read_hwm) := by
  by_cases h : i > read_hwm
  · simp only [h, if_true, le_refl, and_true]
    have hi0 : i ≠ 0 := by have := inv.hi.1; omega
    unfold exact_start_position_list
    refine ⟨inv.hi, ⟨inv.hi.1, inv.hi.2, by omega⟩, by simp [inv.hlen], ?_, ?_, ?_, inv.hmatch,
      inv.hnone⟩
    · rw [getD_set_other _ _ _ _ _ hi0]; exact inv.hanchor
    · rw [getD_set_other _ _ _ _ _ hi0]; exact inv.hhead
    · intro j hj1 hj2
      by_cases hji : i = j
      · subst hji
        rw [getD_set_self _ _ _ _ (by rw [inv.hlen]; exact inv.hi.2)]
        exact cursorInv_fresh _ (hsorted _ (hord1 i inv.hi.2)) _
      · rw [getD_set_other _ _ _ _ _ hji]
        exact inv.hcur j hj1 (by have := inv.hhwm.2.2; omega)
  · simp only [h, if_false]
    exact ⟨inv, by omega⟩

theorem reject_result (c : Counters) (o l : List Nat) : (reject c o l).result = false := rfl

theorem accept_result (c : Counters) (o l : List Nat) : (accept c o l).result = true := rfl

/-- The loop of `ExactPhrasePostList::test_doc` returns, and returns true exactly when
the phrase occurs, provided no position is so large that `base + idx` could wrap. -/
theorem exact_phrase_loop_correct (terms : List Term) (order : List Nat) (c : Counters)
    (hsorted : ∀ k, k < terms.length → (terms.getD k default).positions.Sorted (· < ·))
    (hbound : ∀ k, k < terms.length → ∀ q ∈ (terms.getD k default).positions,
      q + terms.length ≤ 2 ^ 32)
    (hord1 : ∀ j, j < terms.length → order.getD j 0 < terms.length)
    (hord2 : ∀ k, k < terms.length → ∃ j, j < terms.length ∧ order.getD j 0 = k) :
    ∀ (fuel : Nat) (poslists : List PositionList) (read_hwm base i : Nat) (opened : List Nat),
      ExactInv terms order poslists read_hwm base i →
      (poslists.getD 0 default).rest.length * terms.length + (terms.length - i) < fuel →
      ∃ r, exact_phrase_loop terms order c fuel poslists read_hwm base i opened = some r ∧
        (r.result = true ↔ ∃ p, PhraseAt terms p) := by
  intro fuel
  induction fuel with
  | zero => intro _ _ _ _ _ _ h; omega
  | succ f ih =>
    intro poslists read_hwm base i opened inv0 hfuel
    obtain ⟨inv, hle⟩ := exact_open_step terms order hsorted hord1 poslists read_hwm base i inv0
    have h0 : (if i > read_hwm then exact_start_position_list terms order poslists i
        else poslists).getD 0 default = poslists.getD 0 default := by
      by_cases h : i > read_hwm
      · simp only [h, if_true]
        unfold exact_start_position_list
        exact getD_set_other _ _ _ _ _ (by have := inv0.hi.1; omega)
      · simp only [h, if_false]
    rw [exact_phrase_loop]
    simp only []
    rw [← h0] at hfuel
    generalize (if i > read_hwm then exact_start_position_list terms order poslists i
        else poslists) = poslists1 at inv hfuel ⊢
    generalize (if i > read_hwm then i else read_hwm) = read_hwm1 at inv hle ⊢
    generalize (if i > read_hwm then opened ++ [order.getD i 0] else opened) = opened1
    have hi1 := inv.hi.1
    have hin := inv.hi.2
    have hidx := hord1 i hin
    have hidx0 := hord1 0 (by omega)
    have ha0mem : base + order.getD 0 0 ∈ (terms.getD (order.getD 0 0) default).positions := by
      apply inv.hanchor.2.1
      exact List.mem_of_mem_head? inv.hhead
    have hb := hbound _ hidx0 _ ha0mem
    rw [tp_add_eq base (order.getD i 0) (by omega)]
    obtain ⟨hinvpl, hnot, hok⟩ := skip_to_spec (poslists1.getD i default) _ _
      (base + order.getD i 0) (inv.hcur i hi1 hle) le_rfl
    generalize (poslists1.getD i default).skip_to (base + order.getD i 0) = pl
      at hinvpl hnot hok ⊢
    have hi0 : i ≠ 0 := by omega
    cases hokv : pl.ok
    · rw [if_pos rfl]
      refine ⟨_, rfl, ?_⟩
      rw [reject_result]
      constructor
      · intro h; cases h
      · rintro ⟨p, hp⟩
        exfalso
        have h1 := inv.hnone p hp
        have h2 := hp _ hidx
        have h3 := hnot hokv _ h2
        omega
    · obtain ⟨hhd, hgm, hge, hmin, hinvg⟩ := hok hokv
      rw [if_neg (by simp)]
      have hgb := hbound _ hidx _ hgm
      by_cases hgot : pl.get_position = base + order.getD i 0
      · rw [if_pos hgot]
        by_cases hlast : i + 1 = terms.length
        · rw [if_pos hlast]
          refine ⟨_, rfl, ?_⟩
          rw [accept_result]
          refine ⟨fun _ => ⟨base, ?_⟩, fun _ => rfl⟩
          intro k hk
          obtain ⟨j, hj, hjk⟩ := hord2 k hk
          rw [← hjk]
          by_cases hj0 : j = 0
          · subst hj0; exact ha0mem
          · by_cases hji : j = i
            · subst hji; rw [← hgot]; exact hgm
            · exact inv.hmatch j (by omega) (by omega)
        · rw [if_neg hlast]
          apply ih
          · refine ⟨⟨by omega, by omega⟩, ⟨inv.hhwm.1, inv.hhwm.2.1, by omega⟩,
              by simp [inv.hlen], ?_, ?_, ?_, ?_, inv.hnone⟩
            · rw [getD_set_other _ _ _ _ _ hi0]; exact inv.hanchor
            · rw [getD_set_other _ _ _ _ _ hi0]; exact inv.hhead
            · intro j hj1 hj2
              by_cases hji : i = j
              · subst hji
                rw [getD_set_self _ _ _ _ (by rw [inv.hlen]; exact hin)]
                exact hinvpl
              · rw [getD_set_other _ _ _ _ _ hji]
                exact inv.hcur j hj1 hj2
            · intro j hj1 hj2
              by_cases hji : j = i
              · subst hji; rw [← hgot]; exact hgm
              · exact inv.hmatch j hj1 (by omega)
          · rw [getD_set_other _ _ _ _ _ hi0]
            omega
      · rw [if_neg hgot]
        rw [getD_set_other _ _ _ _ _ hi0,
          tp_sub_eq pl.get_position (order.getD i 0) (by omega) (by omega),
          tp_add_eq _ _ (by omega)]
        obtain ⟨hinvp0, hnot0, hok0⟩ := skip_to_spec (poslists1.getD 0 default) _ _
          (pl.get_position - order.getD i 0 + order.getD 0 0) inv.hanchor (by omega)
        have hlt := skip_to_length_lt (poslists1.getD 0 default) _
          (pl.get_position - order.getD i 0 + order.getD 0 0) inv.hhead (by omega)
        generalize (poslists1.getD 0 default).skip_to
          (pl.get_position - order.getD i 0 + order.getD 0 0) = p0 at hinvp0 hnot0 hok0 hlt ⊢
        have hphrase : ∀ p, PhraseAt terms p →
            pl.get_position - order.getD i 0 + order.getD 0 0 ≤ p + order.getD 0 0 := by
          intro p hp
          have h1 := inv.hnone p hp
          have h2 := hp _ hidx
          have h3 := hmin _ h2 (by omega)
          omega
        cases hokv0 : p0.ok
        · rw [if_pos rfl]
          refine ⟨_, rfl, ?_⟩
          rw [reject_result]
          constructor
          · intro h; cases h
          · rintro ⟨p, hp⟩
            exfalso
            have h1 := hphrase p hp
            have h2 := hnot0 hokv0 _ (hp _ hidx0)
            omega
        · obtain ⟨hhd0, hgm0, hge0, hmin0, hinvg0⟩ := hok0 hokv0
          rw [if_neg (by simp)]
          have hgb0 := hbound _ hidx0 _ hgm0
          rw [tp_sub_eq p0.get_position (order.getD 0 0) (by omega) (by omega)]
          have hbase : base ≤ p0.get_position - order.getD 0 0 := by omega
          have hadd : p0.get_position - order.getD 0 0 + order.getD 0 0 = p0.get_position := by
            omega
          apply ih
          · refine ⟨⟨le_refl _, by omega⟩, ⟨inv.hhwm.1, inv.hhwm.2.1, by omega⟩,
              by simp [inv.hlen], ?_, ?_, ?_, ?_, ?_⟩
            · rw [getD_set_self _ _ _ _ (by simp [inv.hlen]; omega), hadd]
              exact hinvg0
            · rw [getD_set_self _ _ _ _ (by simp [inv.hlen]; omega), hadd]
              exact hhd0
            · intro j hj1 hj2
              rw [getD_set_other _ _ _ _ _ (by omega : 0 ≠ j)]
              by_cases hji : i = j
              · subst hji
                rw [getD_set_self _ _ _ _ (by rw [inv.hlen]; exact hin)]
                exact cursorInv_mono _ _ _ _ hinvpl (by omega)
              · rw [getD_set_other _ _ _ _ _ hji]
                exact cursorInv_mono _ _ _ _ (inv.hcur j hj1 hj2) (by omega)
            · intro j hj1 hj2; omega
            · intro p hp
              have h1 := hphrase p hp
              have h2 := hmin0 _ (hp _ hidx0) h1
              omega
          · rw [getD_set_self _ _ _ _ (by simp [inv.hlen]; omega)]
            have hmul : p0.rest.length * terms.length + terms.length
                ≤ (poslists1.getD 0 default).rest.length * terms.length := by
              have : p0.rest.length + 1 ≤ (poslists1.getD 0 default).rest.length := hlt
              calc p0.rest.length * terms.length + terms.length
                  = (p0.rest.length + 1) * terms.length := by ring
                _ ≤ (poslists1.getD 0 default).rest.length * terms.length :=
                  Nat.mul_le_mul_right _ this
            omega

theorem perm_range_getD_lt (order : List Nat) (n : Nat) (h : order.Perm (List.range n))
    (j : Nat) (hj : j < n) : order.getD j 0 < n := by
  have hlen : order.length = n := by rw [h.length_eq, List.length_range]
  have hjl : j < order.length := by omega
  rw [List.getD_eq_getElem _ _ hjl]
  have : order[j] ∈ List.range n := h.subset (List.getElem_mem hjl)
  exact List.mem_range.mp this

theorem perm_range_surj (order : List Nat) (n : Nat) (h : order.Perm (List.range n))
    (k : Nat) (hk : k < n) : ∃ j, j < n ∧ order.getD j 0 = k := by
  have hlen : order.length = n := by rw [h.length_eq, List.length_range]
  have : k ∈ order := h.symm.subset (List.mem_range.mpr hk)
  obtain ⟨j, hj, hjk⟩ := List.getElem_of_mem this
  exact ⟨j, by omega, by rw [List.getD_eq_getElem _ _ hj]; exact hjk⟩

theorem sort_order_perm (terms : List Term) (order : List Nat) :
    (sort_order terms order).Perm order :=
  List.perm_insertionSort _ _

/-- Exchanging `order[0]` and `order[1]` keeps `order` a permutation of the indices. -/
theorem swap_order_props (order : List Nat) (n : Nat) (hn : 2 ≤ n) (hlen : order.length = n)
    (hord1 : ∀ j, j < n → order.getD j 0 < n)
    (hord2 : ∀ k, k < n → ∃ j, j < n ∧ order.getD j 0 = k) :
    ((order.set 0 (order.getD 1 0)).set 1 (order.getD 0 0)).getD 0 0 = order.getD 1 0 ∧
    ((order.set 0 (order.getD 1 0)).set 1 (order.getD 0 0)).getD 1 0 = order.getD 0 0 ∧
    (∀ j, j < n → ((order.set 0 (order.getD 1 0)).set 1 (order.getD 0 0)).getD j 0 < n) ∧
    (∀ k, k < n → ∃ j, j < n ∧
      ((order.set 0 (order.getD 1 0)).set 1 (order.getD 0 0)).getD j 0 = k) := by
  have e0 : ((order.set 0 (order.getD 1 0)).set 1 (order.getD 0 0)).getD 0 0
      = order.getD 1 0 := by
    rw [getD_set_other _ _ _ _ _ (by norm_num), getD_set_self _ _ _ _ (by omega)]
  have e1 : ((order.set 0 (order.getD 1 0)).set 1 (order.getD 0 0)).getD 1 0
      = order.getD 0 0 := by
    rw [getD_set_self _ _ _ _ (by simp; omega)]
  have e2 : ∀ j, 2 ≤ j → ((order.set 0 (order.getD 1 0)).set 1 (order.getD 0 0)).getD j 0
      = order.getD j 0 := by
    intro j hj
    rw [getD_set_other _ _ _ _ _ (by omega), getD_set_other _ _ _ _ _ (by omega)]
  refine ⟨e0, e1, ?_, ?_⟩
  · intro j hj
    rcases Nat.lt_or_ge j 2 with h | h
    · rcases Nat.lt_or_ge j 1 with h' | h'
      · have : j = 0 := by omega
        subst this; rw [e0]; exact hord1 1 (by omega)
      · have : j = 1 := by omega
        subst this; rw [e1]; exact hord1 0 (by omega)
    · rw [e2 j h]; exact hord1 j hj
  · intro k hk
    obtain ⟨j, hj, hjk⟩ := hord2 k hk
    rcases Nat.lt_or_ge j 2 with h | h
    · rcases Nat.lt_or_ge j 1 with h' | h'
      · have : j = 0 := by omega
        subst this; exact ⟨1, by omega, by rw [e1]; exact hjk⟩
      · have : j = 1 := by omega
        subst this; exact ⟨0, by omega, by rw [e0]; exact hjk⟩
    · exact ⟨j, hj, by rw [e2 j h]; exact hjk⟩


/-- What follows the sort in `ExactPhrasePostList::test_doc` is correct for every
permutation `order` of the term indices (so for every way `std::sort` may order equal
wdfs). -/
theorem exact_phrase_after_sort (terms : List Term) (order : List Nat) (c : Counters)
    (hn : 2 ≤ terms.length)
    (hsorted : ∀ k, k < terms.length → (terms.getD k default).positions.Sorted (· < ·))
    (hbound : ∀ k, k < terms.length → ∀ q ∈ (terms.getD k default).positions,
      q + terms.length ≤ 2 ^ 32)
    (hlen : order.length = terms.length)
    (hord1 : ∀ j, j < terms.length → order.getD j 0 < terms.length)
    (hord2 : ∀ k, k < terms.length → ∃ j, j < terms.length ∧ order.getD j 0 = k)
    (body : Option TestDoc)
    (hbody : body =
      (let poslists0 := exact_start_position_list terms order
          (List.replicate terms.length default) 0
       let pl0 := (poslists0.getD 0 default).skip_to (order.getD 0 0)
       if pl0.ok = false then some (reject c order [order.getD 0 0])
       else
         let poslists1 := exact_start_position_list terms order (poslists0.set 0 pl0) 1
         let opened := [order.getD 0 0, order.getD 1 0]
         if (poslists1.getD 0 default).get_approx_size
            > (poslists1.getD 1 default).get_approx_size
         then
           let pl1 := (poslists1.getD 1 default).skip_to (order.getD 1 0)
           if pl1.ok = false then some (reject c order opened)
           else
             let poslists2 := ((poslists1.set 1 pl1).set 0 pl1).set 1 pl0
             let order1 := (order.set 0 (order.getD 1 0)).set 1 (order.getD 0 0)
             exact_phrase_loop terms order1 c
               (pl1.rest.length * terms.length + terms.length)
               poslists2 1 (tp_sub pl1.get_position (order1.getD 0 0)) 1 opened
         else
           exact_phrase_loop terms order c (pl0.rest.length * terms.length + terms.length)
             poslists1 1 (tp_sub pl0.get_position (order.getD 0 0)) 1 opened)) :
    ∃ r, body = some r ∧ (r.result = true ↔ ∃ p, PhraseAt terms p) := by
  subst hbody
  simp only []
  have hrl : (List.replicate terms.length (default : PositionList)).length = terms.length :=
    List.length_replicate _ _
  have hidx0 := hord1 0 (by omega)
  have hidx1 := hord1 1 (by omega)
  have e0 : (exact_start_position_list terms order
      (List.replicate terms.length default) 0).getD 0 default
      = (terms.getD (order.getD 0 0) default).read_position_list := by
    unfold exact_start_position_list
    exact getD_set_self _ _ _ _ (by rw [hrl]; omega)
  rw [e0]
  obtain ⟨hinv0, hnot0, hok0⟩ := skip_to_spec _ _ (order.getD 0 0) (order.getD 0 0)
    (cursorInv_fresh (terms.getD (order.getD 0 0) default) (hsorted _ hidx0) _) le_rfl
  generalize hpl0 : (terms.getD (order.getD 0 0) default).read_position_list.skip_to
    (order.getD 0 0) = pl0 at hinv0 hnot0 hok0 ⊢
  cases hokv0 : pl0.ok
  · rw [if_pos rfl]
    refine ⟨_, rfl, ?_⟩
    rw [reject_result]
    constructor
    · intro h; cases h
    · rintro ⟨p, hp⟩
      exfalso
      have := hnot0 hokv0 _ (hp _ hidx0)
      omega
  · obtain ⟨hhd0, hgm0, hge0, hmin0, hinvg0⟩ := hok0 hokv0
    rw [if_neg (by simp)]
    have hset0len : ((exact_start_position_list terms order
        (List.replicate terms.length default) 0).set 0 pl0).length = terms.length := by
      unfold exact_start_position_list; simp
    have e10 : (exact_start_position_list terms order
        ((exact_start_position_list terms order
          (List.replicate terms.length default) 0).set 0 pl0) 1).getD 0 default = pl0 := by
      unfold exact_start_position_list
      rw [getD_set_other _ _ _ _ _ (by norm_num), getD_set_self _ _ _ _ (by simp; omega)]
    have e11 : (exact_start_position_list terms order
        ((exact_start_position_list terms order
          (List.replicate terms.length default) 0).set 0 pl0) 1).getD 1 default
        = (terms.getD (order.getD 1 0) default).read_position_list := by
      unfold exact_start_position_list
      rw [getD_set_self _ _ _ _ (by simp; omega)]
    have hp1len : (exact_start_position_list terms order
        ((exact_start_position_list terms order
          (List.replicate terms.length default) 0).set 0 pl0) 1).length = terms.length := by
      unfold exact_start_position_list; simp
    rw [e10, e11]
    generalize exact_start_position_list terms order
        ((exact_start_position_list terms order
          (List.replicate terms.length default) 0).set 0 pl0) 1 = poslists1
      at e10 e11 hp1len ⊢
    have hgb0 := hbound _ hidx0 _ hgm0
    by_cases hsz : pl0.get_approx_size
        > (terms.getD (order.getD 1 0) default).read_position_list.get_approx_size
    · rw [if_pos hsz]
      obtain ⟨hinv1, hnot1, hok1⟩ := skip_to_spec _ _ (order.getD 1 0) (order.getD 1 0)
        (cursorInv_fresh (terms.getD (order.getD 1 0) default) (hsorted _ hidx1) _) le_rfl
      generalize (terms.getD (order.getD 1 0) default).read_position_list.skip_to
        (order.getD 1 0) = pl1 at hinv1 hnot1 hok1 ⊢
      cases hokv1 : pl1.ok
      · rw [if_pos rfl]
        refine ⟨_, rfl, ?_⟩
        rw [reject_result]
        constructor
        · intro h; cases h
        · rintro ⟨p, hp⟩
          exfalso
          have := hnot1 hokv1 _ (hp _ hidx1)
          omega
      · obtain ⟨hhd1, hgm1, hge1, hmin1, hinvg1⟩ := hok1 hokv1
        rw [if_neg (by simp)]
        obtain ⟨s0, s1, so1, so2⟩ := swap_order_props order terms.length hn hlen hord1 hord2
        have hgb1 := hbound _ hidx1 _ hgm1
        rw [s0, tp_sub_eq pl1.get_position (order.getD 1 0) hge1 (by omega)]
        have hadd : pl1.get_position - order.getD 1 0 + order.getD 1 0 = pl1.get_position := by
          omega
        apply exact_phrase_loop_correct terms _ c hsorted hbound so1 so2
        · refine ⟨⟨le_refl _, by omega⟩, ⟨le_refl _, by omega, by omega⟩,
            by simp [hp1len], ?_, ?_, ?_, ?_, ?_⟩
          · rw [s0, getD_set_other _ _ _ _ _ (by norm_num),
              getD_set_self _ _ _ _ (by simp [hp1len]; omega), hadd]
            exact hinvg1
          · rw [s0, getD_set_other _ _ _ _ _ (by norm_num),
              getD_set_self _ _ _ _ (by simp [hp1len]; omega), hadd]
            exact hhd1
          · intro j hj1 hj2
            have hj : j = 1 := by omega
            subst hj
            rw [s1, getD_set_self _ _ _ _ (by simp [hp1len]; omega)]
            exact cursorInv_mono _ _ _ _ hinv0 (by omega)
          · intro j hj1 hj2; omega
          · intro p hp
            have := hmin1 _ (hp _ hidx1) (by omega)
            omega
        · rw [getD_set_other _ _ _ _ _ (by norm_num),
            getD_set_self _ _ _ _ (by simp [hp1len]; omega)]
          omega
    · rw [if_neg hsz]
      rw [tp_sub_eq pl0.get_position (order.getD 0 0) hge0 (by omega)]
      have hadd : pl0.get_position - order.getD 0 0 + order.getD 0 0 = pl0.get_position := by
        omega
      apply exact_phrase_loop_correct terms _ c hsorted hbound hord1 hord2
      · refine ⟨⟨le_refl _, by omega⟩, ⟨le_refl _, by omega, by omega⟩, hp1len,
          ?_, ?_, ?_, ?_, ?_⟩
        · rw [e10, hadd]; exact hinvg0
        · rw [e10, hadd]; exact hhd0
        · intro j hj1 hj2
          have hj : j = 1 := by omega
          subst hj
          rw [e11]
          exact cursorInv_fresh _ (hsorted _ hidx1) _
        · intro j hj1 hj2; omega
        · intro p hp
          have := hmin0 _ (hp _ hidx0) (by omega)
          omega
      · rw [e10]
        omega


theorem getD_mem_of_lt (terms : List Term) (k : Nat) (hk : k < terms.length) :
    terms.getD k default ∈ terms := by
  rw [List.getD_eq_getElem _ _ hk]
  exact List.getElem_mem hk

/-- C2 (as stated, refuted): with term a at position 4294967295 only and term b at
position 0 only, `base + idx` wraps to 0 and `test_doc` accepts, although no position
`p` has a at `p` and b at `p + 1`. -/
theorem exact_phrase_wraparound_accepts :
    (∀ t ∈ [(⟨1, [4294967295], 1⟩ : Term), ⟨1, [0], 1⟩], t.positions.Sorted (· < ·)) ∧
    ∃ r, exact_phrase_test_doc [⟨1, [4294967295], 1⟩, ⟨1, [0], 1⟩] [0, 1] ⟨0, 0⟩ = some r ∧
      r.result = true ∧
      ¬ ∃ p, PhraseAt [⟨1, [4294967295], 1⟩, ⟨1, [0], 1⟩] p := by
  refine ⟨by decide, ⟨true, ⟨1, 0⟩, [0, 1], [0, 1]⟩, by decide, rfl, ?_⟩
  rintro ⟨p, hp⟩
  have h0 := hp 0 (by decide)
  have h1 := hp 1 (by decide)
  simp [List.getD] at h0 h1

/-- C2 (amended): for `N ≥ 2` terms with strictly ascending position lists in which every
position `q` satisfies `q + N ≤ 2^32` (so that no termpos addition wraps), with arbitrary
wdf values and approximate sizes and whatever permutation the array `order` holds on
entry, `ExactPhrasePostList::test_doc` returns, and returns true if and only if there is
a position `p` with `p + k` in the position list of term `k` for every `k < N`. -/
theorem exact_phrase_test_doc_iff (terms : List Term) (order0 : List Nat) (c : Counters)
    (hn : 2 ≤ terms.length)
    (hsorted : ∀ t ∈ terms, t.positions.Sorted (· < ·))
    (hbound : ∀ t ∈ terms, ∀ q ∈ t.positions, q + terms.length ≤ 2 ^ 32)
    (hperm : order0.Perm (List.range terms.length)) :
    ∃ r, exact_phrase_test_doc terms order0 c = some r ∧
      (r.result = true ↔ ∃ p, PhraseAt terms p) := by
  have hp : (sort_order terms order0).Perm (List.range terms.length) :=
    (sort_order_perm terms order0).trans hperm
  have hlen : (sort_order terms order0).length = terms.length := by
    rw [hp.length_eq, List.length_range]
  exact exact_phrase_after_sort terms (sort_order terms order0) c hn
    (fun k hk => hsorted _ (getD_mem_of_lt terms k hk))
    (fun k hk => hbound _ (getD_mem_of_lt terms k hk))
    hlen (perm_range_getD_lt _ _ hp) (perm_range_surj _ _ hp) _ rfl

/-- C2 at the documents of the specification: a:{0,5}, b:{1,6} is accepted and
a:{0}, b:{2} is rejected. -/
theorem exact_phrase_test_doc_iff_witness :
    (∃ r, exact_phrase_test_doc [⟨2, [0, 5], 2⟩, ⟨2, [1, 6], 2⟩] [0, 1] ⟨0, 0⟩ = some r ∧
      (r.result = true ↔ ∃ p, PhraseAt [⟨2, [0, 5], 2⟩, ⟨2, [1, 6], 2⟩] p)) ∧
    (exact_phrase_test_doc [⟨2, [0, 5], 2⟩, ⟨2, [1, 6], 2⟩] [0, 1] ⟨0, 0⟩).map
      (fun r => r.result) = some true ∧
    (∃ r, exact_phrase_test_doc [⟨1, [0], 1⟩, ⟨1, [2], 1⟩] [0, 1] ⟨0, 0⟩ = some r ∧
      (r.result = true ↔ ∃ p, PhraseAt [⟨1, [0], 1⟩, ⟨1, [2], 1⟩] p)) ∧
    (exact_phrase_test_doc [⟨1, [0], 1⟩, ⟨1, [2], 1⟩] [0, 1] ⟨0, 0⟩).map
      (fun r => r.result) = some false :=
  ⟨exact_phrase_test_doc_iff [⟨2, [0, 5], 2⟩, ⟨2, [1, 6], 2⟩] [0, 1] ⟨0, 0⟩ (by decide)
      (by decide) (by decide) (List.Perm.refl _),
    by decide,
    exact_phrase_test_doc_iff [⟨1, [0], 1⟩, ⟨1, [2], 1⟩] [0, 1] ⟨0, 0⟩ (by decide)
      (by decide) (by decide) (List.Perm.refl _),
    by decide⟩



/-! ## Phrase within a window (C3) -/

theorem ok_head (pl : PositionList) (h : pl.ok = true) :
    pl.rest.head? = some pl.get_position := by
  unfold PositionList.ok at h
  unfold PositionList.get_position
  cases hr : pl.rest with
  | nil => rw [hr] at h; simp at h
  | cons a tl => rfl

theorem get_position_of_head (pl : PositionList) (a : Nat) (h : pl.rest.head? = some a) :
    pl.get_position = a := by
  unfold PositionList.get_position
  cases hr : pl.rest with
  | nil => rw [hr] at h; cases h
  | cons b tl => rw [hr] at h; simpa using h

theorem ok_of_head (pl : PositionList) (a : Nat) (h : pl.rest.head? = some a) :
    pl.ok = true := by
  unfold PositionList.ok
  cases hr : pl.rest with
  | nil => rw [hr] at h; cases h
  | cons b tl => rfl

/-- A cursor never moves backwards. -/
theorem skip_to_position_ge (pl : PositionList) (p a : Nat) (hs : pl.rest.Sorted (· < ·))
    (ha : pl.rest.head? = some a) (hok : (pl.skip_to p).ok = true) :
    a ≤ (pl.skip_to p).get_position := by
  have h1 := ok_head _ hok
  have h2 : (pl.skip_to p).get_position ∈ (pl.skip_to p).rest := List.mem_of_mem_head? h1
  have h3 : (pl.skip_to p).get_position ∈ pl.rest :=
    ((mem_dropWhile_sorted pl.rest p _ hs).mp h2).1
  cases hr : pl.rest with
  | nil => rw [hr] at ha; cases ha
  | cons b tl =>
    rw [hr] at ha h3 hs
    simp only [List.head?_cons, Option.some.injEq] at ha
    subst ha
    rcases List.mem_cons.mp h3 with h | h
    · omega
    · exact le_of_lt (List.rel_of_sorted_cons hs _ h)

/-- In a strictly increasing list the entries grow by at least one per index. -/
theorem sorted_gap (ps : List Nat) (hs : ps.Sorted (· < ·)) :
    ∀ d k, k + d < ps.length → ps.getD k 0 + d ≤ ps.getD (k + d) 0 := by
  intro d
  induction d with
  | zero => intro k _; simp
  | succ d ih =>
    intro k hk
    have h1 := ih k (by omega)
    have hlt : ps.getD (k + d) 0 < ps.getD (k + d + 1) 0 := by
      rw [List.getD_eq_getElem _ _ (by omega : k + d < ps.length),
        List.getD_eq_getElem _ _ (by omega : k + d + 1 < ps.length)]
      exact List.pairwise_iff_getElem.mp hs _ _ _ _ (by omega)
    have : k + (d + 1) = k + d + 1 := by omega
    rw [this]
    omega


/-- The cursors of a state in which every term has been reached form an occurrence. -/
theorem phrase_accept_occurrence (terms : List Term) (window : Nat)
    (poslists : List PositionList) (read_hwm base pos i : Nat) (hn : 2 ≤ terms.length)
    (inv : PhraseInv terms window poslists read_hwm base pos i)
    (hlast : i + 1 = terms.length) :
    WindowOccurrence terms window
      ((List.range terms.length).map (fun k => (poslists.getD k default).get_position)) := by
  have hget : ∀ k, k < terms.length →
      ((List.range terms.length).map (fun k => (poslists.getD k default).get_position)).getD k 0
        = (poslists.getD k default).get_position := by
    intro k hk
    rw [List.getD_eq_getElem _ _ (by simp; exact hk)]
    simp
  have hrh : read_hwm = i := by have := inv.hhwm; omega
  have hmono : ∀ d a, a + d < terms.length → d ≠ 0 →
      (poslists.getD a default).get_position < (poslists.getD (a + d) default).get_position := by
    intro d
    induction d with
    | zero => intro a _ h; exact absurd rfl h
    | succ d ih =>
      intro a ha _
      have h1 := inv.hinc (a + d + 1) (by omega) (by omega)
      simp only [Nat.add_sub_cancel] at h1
      by_cases hd : d = 0
      · subst hd; simpa using h1
      · have h2 := ih a (by omega) hd
        have : a + (d + 1) = a + d + 1 := by omega
        rw [this]
        omega
  refine ⟨⟨by simp, ?_, ?_⟩, ?_⟩
  · rw [List.Sorted, List.pairwise_map]
    apply (List.pairwise_lt_range terms.length).imp_of_mem
    intro a b ha hb hab
    have hb' := List.mem_range.mp hb
    have := hmono (b - a) a (by omega) (by omega)
    have e : a + (b - a) = b := by omega
    rw [e] at this
    exact this
  · intro k hk
    rw [hget k hk]
    have hok := inv.hne k (by omega)
    have hm : (poslists.getD k default).get_position ∈ (poslists.getD k default).rest :=
      List.mem_of_mem_head? (ok_head _ hok)
    by_cases hk0 : k = 0
    · subst hk0; exact inv.hanchor.2.1 _ hm
    · exact (inv.hcur k (by omega) (by omega)).2.1 _ hm
  · rw [hget _ (by omega), hget _ (by omega)]
    have e1 : terms.length - 1 = i := by omega
    rw [e1, get_position_of_head _ _ inv.hpos, get_position_of_head _ _ inv.hhead]
    have := inv.hwin (by omega)
    omega


/-- The loops of `PhrasePostList::test_doc` return, and return true exactly when the
terms occur in order within the window, provided no position is so large that a termpos
addition could wrap. -/
theorem phrase_loop_correct (terms : List Term) (window : Nat) (c : Counters)
    (hn : 2 ≤ terms.length)
    (hsorted : ∀ k, k < terms.length → (terms.getD k default).positions.Sorted (· < ·))
    (hbound : ∀ k, k < terms.length → ∀ q ∈ (terms.getD k default).positions,
      q + terms.length ≤ 2 ^ 32) :
    ∀ (fuel : Nat) (poslists : List PositionList) (read_hwm base pos i : Nat)
      (opened : List Nat),
      PhraseInv terms window poslists read_hwm base pos i →
      (poslists.getD 0 default).rest.length * terms.length + (terms.length - i) < fuel →
      ∃ r, phrase_loop terms window c fuel poslists read_hwm base pos i opened = some r ∧
        (r.result = true ↔ ∃ ps, WindowOccurrence terms window ps) := by
  intro fuel
  induction fuel with
  | zero => intro _ _ _ _ _ _ _ h; omega
  | succ f ih =>
    intro poslists read_hwm base pos i opened inv hfuel
    rw [phrase_loop]
    by_cases hlast : i + 1 = terms.length
    · rw [if_pos hlast]
      refine ⟨_, rfl, ?_⟩
      rw [accept_result]
      exact ⟨fun _ => ⟨_, phrase_accept_occurrence terms window poslists read_hwm base pos i
        hn inv hlast⟩, fun _ => rfl⟩
    · rw [if_neg hlast]
      simp only []
      have hin := inv.hi
      have hhwm := inv.hhwm
      have hi1 : i + 1 < terms.length := by omega
      have hposi : (poslists.getD i default).get_position = pos :=
        get_position_of_head _ _ inv.hpos
      have hposmem : pos ∈ (terms.getD i default).positions := by
        have hm : pos ∈ (poslists.getD i default).rest := List.mem_of_mem_head? inv.hpos
        by_cases hi0 : i = 0
        · subst hi0; exact inv.hanchor.2.1 _ hm
        · exact (inv.hcur i (by omega) inv.hhwm.2).2.1 _ hm
      have hpb := hbound i hin pos hposmem
      -- opening the position list of term `i + 1` if it is reached for the first time
      have hopen : (if i + 1 > read_hwm then phrase_start_position_list terms poslists (i + 1)
            else poslists).length = terms.length ∧
          (∀ k, k ≠ i + 1 →
            (if i + 1 > read_hwm then phrase_start_position_list terms poslists (i + 1)
              else poslists).getD k default = poslists.getD k default) ∧
          CursorInv ((if i + 1 > read_hwm then phrase_start_position_list terms poslists (i + 1)
              else poslists).getD (i + 1) default) (terms.getD (i + 1) default).positions
            (pos + 1) ∧
          (i + 1 ≤ read_hwm →
            (if i + 1 > read_hwm then phrase_start_position_list terms poslists (i + 1)
              else poslists).getD (i + 1) default = poslists.getD (i + 1) default) ∧
          (i + 1 ≤ (if i + 1 > read_hwm then i + 1 else read_hwm) ∧
           read_hwm ≤ (if i + 1 > read_hwm then i + 1 else read_hwm) ∧
           ((if i + 1 > read_hwm then i + 1 else read_hwm) = read_hwm ∨
            (if i + 1 > read_hwm then i + 1 else read_hwm) = i + 1)) := by
        by_cases h : i + 1 > read_hwm
        · rw [if_pos h, if_pos h]
          unfold phrase_start_position_list
          refine ⟨by simp [inv.hlen], fun k hk => getD_set_other _ _ _ _ _ (Ne.symm hk), ?_,
            fun h' => by omega, by omega, by omega, Or.inr rfl⟩
          rw [getD_set_self _ _ _ _ (by rw [inv.hlen]; exact hi1)]
          exact cursorInv_fresh _ (hsorted _ hi1) _
        · rw [if_neg h, if_neg h]
          refine ⟨inv.hlen, fun _ _ => rfl, ?_, fun _ => rfl, by omega, le_refl _, Or.inl rfl⟩
          have := inv.hcur (i + 1) (by omega) (by omega)
          simp only [Nat.add_sub_cancel] at this
          rw [hposi] at this
          exact this
      generalize (if i + 1 > read_hwm then phrase_start_position_list terms poslists (i + 1)
            else poslists) = poslists1 at hopen ⊢
      generalize (if i + 1 > read_hwm then i + 1 else read_hwm) = read_hwm1 at hopen ⊢
      generalize (if i + 1 > read_hwm then opened ++ [i + 1] else opened) = opened1
      obtain ⟨hlen1, hsame, hcinv, hold, hrh1, hrh2, hrh3⟩ := hopen
      rw [tp_add_eq pos 1 (by omega)]
      obtain ⟨hinvpl, hnot, hok⟩ := skip_to_spec (poslists1.getD (i + 1) default) _ _
        (pos + 1) hcinv le_rfl
      have hge_old : i + 1 ≤ read_hwm →
          ((poslists1.getD (i + 1) default).skip_to (pos + 1)).ok = true →
          (poslists.getD (i + 1) default).get_position
            ≤ ((poslists1.getD (i + 1) default).skip_to (pos + 1)).get_position := by
        intro h1 h2
        rw [hold h1] at h2 ⊢
        exact skip_to_position_ge _ _ _ (inv.hcur (i + 1) (by omega) h1).1
          (ok_head _ (inv.hne (i + 1) h1)) h2
      generalize (poslists1.getD (i + 1) default).skip_to (pos + 1) = pl
        at hinvpl hnot hok hge_old ⊢
      -- every chain from an anchor `≥ base` passes term `i + 1` after `pos`
      have hchain : ∀ ps, PhraseChain terms ps → base ≤ ps.getD 0 0 →
          pos + 1 ≤ ps.getD (i + 1) 0 ∧
          ps.getD (i + 1) 0 ∈ (terms.getD (i + 1) default).positions := by
        intro ps hps hb
        have h1 := inv.hmin ps hps hb
        have h2 := sorted_gap ps hps.2.1 1 i (by rw [hps.1]; omega)
        exact ⟨by omega, hps.2.2 (i + 1) hi1⟩
      cases hokv : pl.ok
      · rw [if_pos rfl]
        refine ⟨_, rfl, ?_⟩
        rw [reject_result]
        constructor
        · intro h; cases h
        · rintro ⟨ps, hps⟩
          exfalso
          obtain ⟨h1, h2⟩ := hchain ps hps.1 (inv.hnone ps hps)
          have := hnot hokv _ h2
          omega
      · obtain ⟨hhd, hgm, hge, hmin, hinvg⟩ := hok hokv
        rw [if_neg (by simp)]
        have hgb := hbound _ hi1 _ hgm
        rw [tp_add_eq pl.get_position (terms.length - (i + 1)) (by omega)]
        have hbp := inv.hbp
        rw [tp_sub_eq _ base (by omega) (by omega)]
        have hi10 : i + 1 ≠ 0 := by omega
        have hA0 : (poslists1.set (i + 1) pl).getD 0 default = poslists.getD 0 default := by
          rw [getD_set_other _ _ _ _ _ hi10]; exact hsame 0 (by omega)
        have hAself : (poslists1.set (i + 1) pl).getD (i + 1) default = pl :=
          getD_set_self _ _ _ _ (by rw [hlen1]; exact hi1)
        have hAother : ∀ k, k ≠ i + 1 →
            (poslists1.set (i + 1) pl).getD k default = poslists.getD k default := by
          intro k hk
          rw [getD_set_other _ _ _ _ _ (Ne.symm hk)]; exact hsame k hk
        have hneA : ∀ k, k ≤ read_hwm1 → ((poslists1.set (i + 1) pl).getD k default).ok = true := by
          intro k hk
          by_cases hki : k = i + 1
          · subst hki; rw [hAself]; exact hokv
          · rw [hAother k hki]; exact inv.hne k (by omega)
        have hcurA : ∀ k, 1 ≤ k → k ≤ read_hwm1 →
            CursorInv ((poslists1.set (i + 1) pl).getD k default)
              (terms.getD k default).positions
              (((poslists1.set (i + 1) pl).getD (k - 1) default).get_position + 1) := by
          intro k hk1 hk2
          by_cases hki : k = i + 1
          · subst hki
            rw [hAself, Nat.add_sub_cancel, hAother i (by omega), hposi]
            exact hinvpl
          · rw [hAother k hki]
            have hkr : k ≤ read_hwm := by omega
            by_cases hki2 : k - 1 = i + 1
            · rw [hki2, hAself]
              have h1 := inv.hcur k hk1 hkr
              rw [hki2] at h1
              exact cursorInv_mono _ _ _ _ h1 (by have := hge_old (by omega) hokv; omega)
            · rw [hAother (k - 1) hki2]
              exact inv.hcur k hk1 hkr
        by_cases hw : pl.get_position + (terms.length - (i + 1)) - base ≤ window
        · rw [if_pos hw]
          apply ih
          · refine ⟨hi1, ⟨by omega, by omega⟩, by simp [hlen1], ?_, ?_, ?_, hneA, hcurA, ?_,
              by omega, fun _ => by omega, ?_, inv.hnone⟩
            · rw [hA0]; exact inv.hanchor
            · rw [hA0]; exact inv.hhead
            · rw [hAself]; exact hhd
            · intro k hk1 hk2
              by_cases hki : k = i + 1
              · subst hki
                rw [hAself, Nat.add_sub_cancel, hAother i (by omega), hposi]
                omega
              · rw [hAother k hki, hAother (k - 1) (by omega)]
                exact inv.hinc k hk1 (by omega)
            · intro ps hps hb
              obtain ⟨h1, h2⟩ := hchain ps hps hb
              exact hmin _ h2 h1
          · rw [hA0]
            omega
        · rw [if_neg hw]
          rw [hA0, tp_sub_eq _ window (by omega) (by omega)]
          obtain ⟨hinvp0, hnot0, hok0⟩ := skip_to_spec (poslists.getD 0 default) _ _
            (pl.get_position + (terms.length - (i + 1)) - window) inv.hanchor (by omega)
          have hlt := skip_to_length_lt (poslists.getD 0 default) _
            (pl.get_position + (terms.length - (i + 1)) - window) inv.hhead (by omega)
          generalize (poslists.getD 0 default).skip_to
            (pl.get_position + (terms.length - (i + 1)) - window) = p0
            at hinvp0 hnot0 hok0 hlt ⊢
          -- every occurrence within the window starts at or after the new target
          have hocc : ∀ ps, WindowOccurrence terms window ps →
              pl.get_position + (terms.length - (i + 1)) - window ≤ ps.getD 0 0 ∧
              ps.getD 0 0 ∈ (terms.getD 0 default).positions := by
            intro ps hps
            obtain ⟨h1, h2⟩ := hchain ps hps.1 (inv.hnone ps hps)
            have h3 := hmin _ h2 h1
            have h4 := sorted_gap ps hps.1.2.1 (terms.length - 1 - (i + 1)) (i + 1)
              (by rw [hps.1.1]; omega)
            have e : i + 1 + (terms.length - 1 - (i + 1)) = terms.length - 1 := by omega
            rw [e] at h4
            have h5 := hps.2
            exact ⟨by omega, hps.1.2.2 0 (by omega)⟩
          cases hokv0 : p0.ok
          · rw [if_pos rfl]
            refine ⟨_, rfl, ?_⟩
            rw [reject_result]
            constructor
            · intro h; cases h
            · rintro ⟨ps, hps⟩
              exfalso
              obtain ⟨h1, h2⟩ := hocc ps hps
              have := hnot0 hokv0 _ h2
              omega
          · obtain ⟨hhd0, hgm0, hge0, hmin0, hinvg0⟩ := hok0 hokv0
            rw [if_neg (by simp)]
            have hB0 : ((poslists1.set (i + 1) pl).set 0 p0).getD 0 default = p0 :=
              getD_set_self _ _ _ _ (by simp [hlen1]; omega)
            have hBother : ∀ k, k ≠ 0 → ((poslists1.set (i + 1) pl).set 0 p0).getD k default
                = (poslists1.set (i + 1) pl).getD k default :=
              fun k hk => getD_set_other _ _ _ _ _ (Ne.symm hk)
            apply ih
            · refine ⟨by omega, ⟨by omega, by omega⟩, by simp [hlen1], ?_, ?_, ?_, ?_, ?_,
                ?_, le_refl _, fun h => by omega, ?_, ?_⟩
              · rw [hB0]; exact hinvg0
              · rw [hB0]; exact hhd0
              · rw [hB0]; exact hhd0
              · intro k hk
                by_cases hk0 : k = 0
                · subst hk0; rw [hB0]; exact hokv0
                · rw [hBother k hk0]; exact hneA k hk
              · intro k hk1 hk2
                rw [hBother k (by omega)]
                by_cases hk1' : k = 1
                · subst hk1'
                  rw [Nat.sub_self, hB0]
                  have h1 := hcurA 1 (le_refl _) hk2
                  rw [Nat.sub_self, hA0, get_position_of_head _ _ inv.hhead] at h1
                  exact cursorInv_mono _ _ _ _ h1 (by omega)
                · rw [hBother (k - 1) (by omega)]
                  exact hcurA k hk1 hk2
              · intro k hk1 hk2; omega
              · intro ps _ hb; exact hb
              · intro ps hps
                obtain ⟨h1, h2⟩ := hocc ps hps
                exact hmin0 _ h2 h1
            · rw [hB0]
              have hmul : p0.rest.length * terms.length + terms.length
                  ≤ (poslists.getD 0 default).rest.length * terms.length := by
                have : p0.rest.length + 1 ≤ (poslists.getD 0 default).rest.length := hlt
                calc p0.rest.length * terms.length + terms.length
                    = (p0.rest.length + 1) * terms.length := by ring
                  _ ≤ (poslists.getD 0 default).rest.length * terms.length :=
                    Nat.mul_le_mul_right _ this
              omega


/-- C3 (as stated, refuted): with term a at position 4294967295 only, term b at position 0
only and window 2, `pos + 1` wraps to 0 and `test_doc` accepts, although no position of
a is smaller than a position of b. -/
theorem phrase_wraparound_accepts :
    (∀ t ∈ [(⟨1, [4294967295], 1⟩ : Term), ⟨1, [0], 1⟩], t.positions.Sorted (· < ·)) ∧
    ∃ r, phrase_test_doc [⟨1, [4294967295], 1⟩, ⟨1, [0], 1⟩] 2 ⟨0, 0⟩ = some r ∧
      r.result = true ∧
      ¬ ∃ ps, WindowOccurrence [⟨1, [4294967295], 1⟩, ⟨1, [0], 1⟩] 2 ps := by
  refine ⟨by decide, ⟨true, ⟨1, 0⟩, [], [0, 1]⟩, by decide, rfl, ?_⟩
  rintro ⟨ps, ⟨hlen, hs, hmem⟩, -⟩
  have h0 := hmem 0 (by decide)
  have h1 := hmem 1 (by decide)
  have hg := sorted_gap ps hs 1 0 (by rw [hlen]; decide)
  simp [List.getD] at h0 h1
  simp only [zero_add] at hg
  rw [List.getD_eq_getElem?_getD, List.getD_eq_getElem?_getD, h0, h1] at hg
  simp at hg

/-- From the call of `next()` on the first position list to the return of
`PhrasePostList::test_doc`, when no termpos addition can wrap. -/
theorem phrase_test_doc_correct (terms : List Term) (window : Nat) (c : Counters)
    (hn : 2 ≤ terms.length)
    (hsorted : ∀ t ∈ terms, t.positions.Sorted (· < ·))
    (hbound : ∀ t ∈ terms, ∀ q ∈ t.positions, q + terms.length ≤ 2 ^ 32) :
    ∃ r, phrase_test_doc terms window c = some r ∧
      (r.result = true ↔ ∃ ps, WindowOccurrence terms window ps) := by
  have hs0 := hsorted _ (getD_mem_of_lt terms 0 (by omega))
  unfold phrase_test_doc
  simp only []
  have hrl : (List.replicate terms.length (default : PositionList)).length = terms.length :=
    List.length_replicate _ _
  have e0 : (phrase_start_position_list terms (List.replicate terms.length default) 0).getD 0
      default = (terms.getD 0 default).read_position_list := by
    unfold phrase_start_position_list
    exact getD_set_self _ _ _ _ (by rw [hrl]; omega)
  have hplen : (phrase_start_position_list terms
      (List.replicate terms.length default) 0).length = terms.length := by
    unfold phrase_start_position_list; simp
  rw [e0]
  generalize phrase_start_position_list terms (List.replicate terms.length default) 0
    = poslists0 at e0 hplen ⊢
  have hnext : (terms.getD 0 default).read_position_list.next.rest
      = (terms.getD 0 default).positions := rfl
  generalize (terms.getD 0 default).read_position_list.next = pl0 at hnext ⊢
  cases hokv : pl0.ok
  · rw [if_pos rfl]
    refine ⟨_, rfl, ?_⟩
    rw [reject_result]
    constructor
    · intro h; cases h
    · rintro ⟨ps, hps⟩
      exfalso
      have h1 := hps.1.2.2 0 (by omega)
      rw [← hnext] at h1
      unfold PositionList.ok at hokv
      cases hr : pl0.rest with
      | nil => rw [hr] at h1; cases h1
      | cons a tl => rw [hr] at hokv; simp at hokv
  · rw [if_neg (by simp)]
    have hhd := ok_head _ hokv
    have hset : (poslists0.set 0 pl0).getD 0 default = pl0 :=
      getD_set_self _ _ _ _ (by omega)
    have hminhead : ∀ q ∈ (terms.getD 0 default).positions, pl0.get_position ≤ q := by
      intro q hq
      rw [← hnext] at hq hs0
      cases hr : pl0.rest with
      | nil => rw [hr] at hq; cases hq
      | cons a tl =>
        rw [hr] at hq hs0 hhd
        simp only [List.head?_cons, Option.some.injEq] at hhd
        rw [← hhd]
        rcases List.mem_cons.mp hq with h | h
        · omega
        · exact le_of_lt (List.rel_of_sorted_cons hs0 _ h)
    apply phrase_loop_correct terms window c hn
      (fun k hk => hsorted _ (getD_mem_of_lt terms k hk))
      (fun k hk => hbound _ (getD_mem_of_lt terms k hk))
    · refine ⟨by omega, ⟨by omega, le_refl _⟩, by simp [hplen], ?_, ?_, ?_, ?_, ?_, ?_,
        le_refl _, fun h => by omega, ?_, ?_⟩
      · rw [hset]
        exact ⟨by rw [hnext]; exact hs0, fun q hq => by rw [← hnext]; exact hq,
          fun q hq _ => by rw [hnext]; exact hq⟩
      · rw [hset]; exact hhd
      · rw [hset]; exact hhd
      · intro k hk
        have : k = 0 := by omega
        subst this; rw [hset]; exact hokv
      · intro k hk1 hk2; omega
      · intro k hk1 hk2; omega
      · intro ps _ hb; exact hb
      · intro ps hps
        exact hminhead _ (hps.1.2.2 0 (by omega))
    · rw [hset]
      omega

/-- C3 (amended): for `N ≥ 2` terms with strictly ascending position lists in which every
position `q` satisfies `q + N ≤ 2^32` (so that no termpos addition wraps) and every
window `W`, `PhrasePostList::test_doc` returns, and returns true if and only if there
are positions `p_1 < p_2 < ... < p_N` with `p_i` in the position list of term `i` and
`p_N - p_1 < W`. -/
theorem phrase_test_doc_iff (terms : List Term) (window : Nat) (c : Counters)
    (hn : 2 ≤ terms.length)
    (hsorted : ∀ t ∈ terms, t.positions.Sorted (· < ·))
    (hbound : ∀ t ∈ terms, ∀ q ∈ t.positions, q + terms.length ≤ 2 ^ 32) :
    ∃ r, phrase_test_doc terms window c = some r ∧
      (r.result = true ↔ ∃ ps, WindowOccurrence terms window ps) :=
  phrase_test_doc_correct terms window c hn hsorted hbound

/-- C3 at the document of the specification: a:{0}, b:{2} is accepted with window 3 and
rejected with window 2. -/
theorem phrase_test_doc_iff_witness :
    (∃ r, phrase_test_doc [⟨1, [0], 1⟩, ⟨1, [2], 1⟩] 3 ⟨0, 0⟩ = some r ∧
      (r.result = true ↔ ∃ ps, WindowOccurrence [⟨1, [0], 1⟩, ⟨1, [2], 1⟩] 3 ps)) ∧
    (phrase_test_doc [⟨1, [0], 1⟩, ⟨1, [2], 1⟩] 3 ⟨0, 0⟩).map (fun r => r.result)
      = some true ∧
    (∃ r, phrase_test_doc [⟨1, [0], 1⟩, ⟨1, [2], 1⟩] 2 ⟨0, 0⟩ = some r ∧
      (r.result = true ↔ ∃ ps, WindowOccurrence [⟨1, [0], 1⟩, ⟨1, [2], 1⟩] 2 ps)) ∧
    (phrase_test_doc [⟨1, [0], 1⟩, ⟨1, [2], 1⟩] 2 ⟨0, 0⟩).map (fun r => r.result)
      = some false :=
  ⟨phrase_test_doc_iff [⟨1, [0], 1⟩, ⟨1, [2], 1⟩] 3 ⟨0, 0⟩ (by decide) (by decide) (by decide),
    by decide,
    phrase_test_doc_iff [⟨1, [0], 1⟩, ⟨1, [2], 1⟩] 2 ⟨0, 0⟩ (by decide) (by decide) (by decide),
    by decide⟩

/-! ## Termfreq and wdf estimates (C11, C12, C13) -/

/-- C11: for a source with term frequency `t`, `ExactPhrasePostList::get_termfreq` returns
`⌊t / 4⌋` and `PhrasePostList::get_termfreq` returns `⌊t / 3⌋`. -/
theorem get_termfreq_floor (pl : Source) :
    exact_phrase_get_termfreq pl = ⌊(pl.termfreq : ℚ) / 4⌋₊ ∧
    phrase_get_termfreq pl = ⌊(pl.termfreq : ℚ) / 3⌋₊ := by
  have h4 : ⌊(pl.termfreq : ℚ) / ((4 : Nat) : ℚ)⌋₊ = pl.termfreq / 4 :=
    Nat.floor_div_eq_div pl.termfreq 4
  have h3 : ⌊(pl.termfreq : ℚ) / ((3 : Nat) : ℚ)⌋₊ = pl.termfreq / 3 :=
    Nat.floor_div_eq_div pl.termfreq 3
  rw [Nat.cast_ofNat] at h4 h3
  exact ⟨h4.symm, h3.symm⟩

/-- C12 (as stated, refuted): a source that yields exactly one document, in which a is at
position 0 and b at position 1, and reports term frequency 1.  Both `test_doc`s accept the
document, so each node's stream yields it, and both `get_termfreq`s return 0. -/
theorem get_termfreq_zero_for_yielding_stream :
    ([(⟨1, [0], 1⟩ : Term), ⟨1, [1], 1⟩] ∈ (⟨1, [[⟨1, [0], 1⟩, ⟨1, [1], 1⟩]]⟩ : Source).docs) ∧
    (exact_phrase_test_doc [⟨1, [0], 1⟩, ⟨1, [1], 1⟩] [0, 1] ⟨0, 0⟩).map (fun r => r.result)
      = some true ∧
    (phrase_test_doc [⟨1, [0], 1⟩, ⟨1, [1], 1⟩] 2 ⟨0, 0⟩).map (fun r => r.result)
      = some true ∧
    exact_phrase_get_termfreq ⟨1, [[⟨1, [0], 1⟩, ⟨1, [1], 1⟩]]⟩ = 0 ∧
    phrase_get_termfreq ⟨1, [[⟨1, [0], 1⟩, ⟨1, [1], 1⟩]]⟩ = 0 := by
  refine ⟨by simp, by decide, by decide, by decide, by decide⟩

/-- C12 (amended): `ExactPhrasePostList::get_termfreq` is non-zero exactly when the
source's `get_termfreq()` is at least 4, and `PhrasePostList::get_termfreq` exactly when
it is at least 3. -/
theorem get_termfreq_ne_zero_iff (pl : Source) :
    (exact_phrase_get_termfreq pl ≠ 0 ↔ 4 ≤ pl.termfreq) ∧
    (phrase_get_termfreq pl ≠ 0 ↔ 3 ≤ pl.termfreq) := by
  unfold exact_phrase_get_termfreq phrase_get_termfreq
  constructor <;> omega

theorem foldl_min_wdf (ts : List Term) : ∀ w0 : Nat,
    ((ts.foldl (fun wdf i => min wdf i.wdf) w0 = w0) ∨
      ∃ t ∈ ts, t.wdf = ts.foldl (fun wdf i => min wdf i.wdf) w0) ∧
    ts.foldl (fun wdf i => min wdf i.wdf) w0 ≤ w0 ∧
    ∀ t ∈ ts, ts.foldl (fun wdf i => min wdf i.wdf) w0 ≤ t.wdf := by
  induction ts with
  | nil => intro w0; simp
  | cons a tl ih =>
    intro w0
    simp only [List.foldl_cons, List.mem_cons, exists_eq_or_imp, forall_eq_or_imp]
    obtain ⟨h1, h2, h3⟩ := ih (min w0 a.wdf)
    refine ⟨?_, by omega, by omega, h3⟩
    rcases h1 with h | h
    · rw [h]
      by_cases hle : w0 ≤ a.wdf
      · left; omega
      · right; left; omega
    · right; right; exact h

/-- C13: for a non-empty list of child terms, `ExactPhrasePostList::get_wdf` and
`PhrasePostList::get_wdf` both return the minimum of the children's wdfs: a value that is
the wdf of some child and is not above the wdf of any child. -/
theorem get_wdf_is_min (terms : List Term) (hne : terms ≠ []) :
    ∃ w, exact_phrase_get_wdf terms = some w ∧ phrase_get_wdf terms = some w ∧
      (∃ t ∈ terms, t.wdf = w) ∧ ∀ t ∈ terms, w ≤ t.wdf := by
  cases terms with
  | nil => exact absurd rfl hne
  | cons a tl =>
    obtain ⟨h1, h2, h3⟩ := foldl_min_wdf tl a.wdf
    refine ⟨_, rfl, rfl, ?_, ?_⟩
    · rcases h1 with h | ⟨t, ht, h⟩
      · exact ⟨a, List.mem_cons_self _ _, h.symm⟩
      · exact ⟨t, List.mem_cons_of_mem _ ht, h⟩
    · intro t ht
      rcases List.mem_cons.mp ht with h | h
      · rw [h]; exact h2
      · exact h3 t h

/-- C13 at three children with wdfs 5, 2 and 7: the result is 2. -/
theorem get_wdf_is_min_witness :
    ([⟨5, [], 0⟩, ⟨2, [], 0⟩, ⟨7, [], 0⟩] : List Term) ≠ [] ∧
    exact_phrase_get_wdf [⟨5, [], 0⟩, ⟨2, [], 0⟩, ⟨7, [], 0⟩] = some 2 ∧
    ∃ w, exact_phrase_get_wdf [⟨5, [], 0⟩, ⟨2, [], 0⟩, ⟨7, [], 0⟩] = some w ∧
      phrase_get_wdf [⟨5, [], 0⟩, ⟨2, [], 0⟩, ⟨7, [], 0⟩] = some w ∧
      (∃ t ∈ ([⟨5, [], 0⟩, ⟨2, [], 0⟩, ⟨7, [], 0⟩] : List Term), t.wdf = w) ∧
      ∀ t ∈ ([⟨5, [], 0⟩, ⟨2, [], 0⟩, ⟨7, [], 0⟩] : List Term), w ≤ t.wdf :=
  ⟨by simp, by decide, get_wdf_is_min _ (by simp)⟩

/-! ## Estimate stack (C14) -/

theorem add_ops_eq (ops S : List EstimateOp) : add_ops S ops = ops.reverse ++ S := by
  unfold add_ops
  induction ops generalizing S with
  | nil => rfl
  | cons a tl ih => simp [List.foldl_cons, ih, add_op]

mutual
theorem OpTree.size_pos : ∀ t : OpTree, 1 ≤ t.size
  | .node _ kids => by simp [OpTree.size]
theorem OpForest.length_le_size : ∀ f : OpForest, f.length ≤ f.size
  | .nil => by simp [OpForest.length, OpForest.size]
  | .cons t ts => by
    have h1 := OpTree.size_pos t
    have h2 := OpForest.length_le_size ts
    simp only [OpForest.length, OpForest.size]
    omega
end

theorem pop_op_loop_zero (S : List EstimateOp) : pop_op_loop S 0 = some S := by
  cases S <;> simp [pop_op_loop]

theorem pop_op_loop_cons (p : EstimateOp) (next : List EstimateOp) (e : Nat)
    (h : e + p.subquery_count < UINT_MOD) :
    pop_op_loop (p :: next) (e + 1) = pop_op_loop next (e + p.subquery_count) := by
  have e1 : ((e + 1 + p.subquery_count) % UINT_MOD + (UINT_MOD - 1)) % UINT_MOD
      = e + p.subquery_count := by
    unfold UINT_MOD at h ⊢
    omega
  rw [pop_op_loop, if_neg (by omega), e1]

mutual
/-- Popping with `e + 1` elements to pop over the ops of one tree leaves `e` to pop. -/
theorem pop_op_loop_tree : ∀ (t : OpTree) (R : List EstimateOp) (e : Nat),
    e + t.size ≤ UINT_MOD →
    pop_op_loop (t.postorder.reverse ++ R) (e + 1) = pop_op_loop R e
  | .node type kids, R, e, h => by
    have hl := OpForest.length_le_size kids
    simp only [OpTree.size] at h
    simp only [OpTree.postorder, List.reverse_append, List.reverse_cons, List.reverse_nil,
      List.nil_append, List.singleton_append, List.cons_append]
    rw [pop_op_loop_cons _ _ _ (by simp only; omega)]
    exact pop_op_loop_forest kids R e (by omega)
/-- Popping with `e + n` elements to pop over the ops of `n` trees leaves `e` to pop. -/
theorem pop_op_loop_forest : ∀ (f : OpForest) (R : List EstimateOp) (e : Nat),
    e + f.size ≤ UINT_MOD →
    pop_op_loop (f.postorder.reverse ++ R) (e + f.length) = pop_op_loop R e
  | .nil, R, e, _ => by simp [OpForest.postorder, OpForest.length]
  | .cons t ts, R, e, h => by
    have h1 := OpTree.size_pos t
    simp only [OpForest.size] at h
    simp only [OpForest.postorder, OpForest.length, List.reverse_append, List.append_assoc]
    have := pop_op_loop_forest ts (t.postorder.reverse ++ R) (e + 1) (by omega)
    rw [show e + (ts.length + 1) = e + 1 + ts.length by omega, this]
    exact pop_op_loop_tree t R e (by omega)
end

theorem OpForest.size_replicate (n : Nat) (t : OpTree) :
    (OpForest.replicate n t).size = n * t.size := by
  induction n with
  | zero => simp [OpForest.replicate, OpForest.size]
  | succ k ih => simp [OpForest.replicate, OpForest.size, ih]; ring

theorem OpForest.length_replicate (n : Nat) (t : OpTree) :
    (OpForest.replicate n t).length = n := by
  induction n with
  | zero => rfl
  | succ k ih => simp [OpForest.replicate, OpForest.length, ih]

theorem two_level_size (F : OpForest) :
    (OpTree.node 1 (.cons (.node 0 .nil) (.cons (.node 2 F) .nil))).size = F.size + 3 := by
  simp only [OpTree.size, OpForest.size]
  omega

/-- The stack left by `pop_op` when the tree's root has two children, a leaf and a node
over a forest `F` of 4294967295 trees: what `F` pushed, and the leaf. -/
theorem pop_op_two_level (F : OpForest) (hF : F.length = 4294967295) :
    pop_op (add_ops [] (OpTree.node 1 (.cons (.node 0 .nil)
      (.cons (.node 2 F) .nil))).postorder)
      = some (F.postorder.reverse ++ [⟨0, 0⟩]) := by
  rw [add_ops_eq]
  simp only [OpTree.postorder, OpForest.postorder, OpForest.length, hF,
    List.reverse_append, List.reverse_cons, List.reverse_nil,
    List.nil_append, List.append_nil, List.singleton_append, List.cons_append, pop_op]
  rw [pop_op_loop, if_neg (by decide)]
  have e1 : ((1 + (⟨1, 0 + 1 + 1⟩ : EstimateOp).subquery_count) % UINT_MOD + (UINT_MOD - 1))
      % UINT_MOD = 2 := by decide
  rw [e1, pop_op_loop, if_neg (by decide)]
  have e2 : ((2 + (⟨2, 4294967295⟩ : EstimateOp).subquery_count) % UINT_MOD + (UINT_MOD - 1))
      % UINT_MOD = 0 := by decide
  rw [e2, pop_op_loop_zero]

/-- C14 (as stated, refuted): the tree whose root has two children, a leaf and a node
with 4294967295 leaf children, pushed onto the empty stack.  After the root and that node
are popped, `elements_to_pop` has wrapped to 0 and `pop_op` returns with the 4294967296
remaining ops of the tree still on the stack. -/
theorem pop_op_wraps_on_huge_tree :
    (OpTree.node 1 (.cons (.node 0 .nil)
      (.cons (.node 2 (OpForest.replicate 4294967295 (.node 0 .nil))) .nil))).size
      = 4294967298 ∧
    ∃ rest, pop_op (add_ops [] (OpTree.node 1 (.cons (.node 0 .nil)
      (.cons (.node 2 (OpForest.replicate 4294967295 (.node 0 .nil))) .nil))).postorder)
      = some rest ∧ rest ≠ [] := by
  refine ⟨?_, _, pop_op_two_level _ (OpForest.length_replicate _ _), by simp⟩
  rw [two_level_size, OpForest.size_replicate]
  rfl

/-- C14 (amended): for every estimate stack `S` and every tree of at most 2^32 ops, after
the `add_op` calls that push the tree's ops in post-order onto `S`, each with the number
of its child subtrees as subquery count, one `pop_op` returns without following a null
link and leaves the stack equal to `S`. -/
theorem pop_op_removes_tree (S : List EstimateOp) (t : OpTree) (h : t.size ≤ 2 ^ 32) :
    pop_op (add_ops S t.postorder) = some S := by
  rw [add_ops_eq, pop_op]
  have := pop_op_loop_tree t S 0 (by unfold UINT_MOD; omega)
  rw [Nat.zero_add] at this
  rw [this, pop_op_loop_zero]

/-- C14 at the tree AND(leaf, OR(leaf, leaf)) pushed onto a stack holding one op. -/
theorem pop_op_removes_tree_witness :
    (OpTree.node 1 (.cons (.node 0 .nil) (.cons (.node 2 (.cons (.node 0 .nil)
      (.cons (.node 0 .nil) .nil))) .nil))).size ≤ 2 ^ 32 ∧
    (OpTree.node 1 (.cons (.node 0 .nil) (.cons (.node 2 (.cons (.node 0 .nil)
      (.cons (.node 0 .nil) .nil))) .nil))).postorder
      = [⟨0, 0⟩, ⟨0, 0⟩, ⟨0, 0⟩, ⟨2, 2⟩, ⟨1, 2⟩] ∧
    pop_op (add_ops [⟨7, 0⟩] (OpTree.node 1 (.cons (.node 0 .nil) (.cons (.node 2
      (.cons (.node 0 .nil) (.cons (.node 0 .nil) .nil))) .nil))).postorder)
      = some [⟨7, 0⟩] :=
  ⟨by decide, by decide, pop_op_removes_tree _ _ (by decide)⟩

/-! ## Erasing a child of MaxPostList (C15) -/

/-- The loop of `erase_sublist` over `j = i, ..., i + c - 1`, all the slots it reads being
allocated: slot `k` of that range receives the old slot `k + 1`, nothing else changes, and
the slots read are `i + 1, ..., i + c`. -/
theorem erase_sublist_loop (c : Nat) : ∀ (i : Nat) (m : MaxPostList),
    i + c < m.plist.length →
    ∃ m2, (List.range' i c).foldl erase_sublist_step (some m) = some m2 ∧
      m2.n_kids = m.n_kids ∧ m2.deleted = m.deleted ∧ m2.force_recalc = m.force_recalc ∧
      m2.reads = m.reads ++ List.range' (i + 1) c ∧
      m2.plist.length = m.plist.length ∧
      ∀ k, m2.plist[k]? = if i ≤ k ∧ k < i + c then m.plist[k + 1]? else m.plist[k]? := by
  induction c with
  | zero =>
    intro i m _
    refine ⟨m, rfl, rfl, rfl, rfl, by simp, rfl, fun k => ?_⟩
    rw [if_neg (by omega)]
  | succ c ih =>
    intro i m h
    rw [List.range'_succ, List.foldl_cons]
    have hget : m.plist[i + 1]? = some (m.plist[i + 1]) := List.getElem?_eq_getElem (by omega)
    have hstep : erase_sublist_step (some m) i
        = some { m with plist := m.plist.set i (m.plist[i + 1]), reads := m.reads ++ [i + 1] } := by
      simp only [erase_sublist_step, hget]
    rw [hstep]
    obtain ⟨m2, h1, h2, h3, h4, h5, h6, h7⟩ := ih (i + 1)
      { m with plist := m.plist.set i (m.plist[i + 1]), reads := m.reads ++ [i + 1] }
      (by simp only [List.length_set]; omega)
    refine ⟨m2, h1, h2, h3, h4, ?_, ?_, fun k => ?_⟩
    · rw [h5]
      simp only [List.append_assoc, List.singleton_append]
      rw [List.range'_succ]
    · rw [h6, List.length_set]
    · rw [h7]
      simp only [List.getElem?_set]
      by_cases hk : i + 1 ≤ k ∧ k < i + 1 + c
      · rw [if_pos hk, if_neg (by omega), if_pos (by omega)]
      · rw [if_neg hk]
        by_cases hik : i = k
        · subst hik
          rw [if_pos rfl, if_pos (by omega), if_pos (by omega), hget]
        · rw [if_neg hik, if_neg (by omega)]

/-- C15: for a `MaxPostList` whose array holds its `n_kids` children and an index
`i < n_kids`, `erase_sublist(i)` returns with `n_kids` one less, with `plist[0..n_kids)`
equal to the previous children without child `i`, the others in their order, having read
only slots below the old `n_kids`, deleted child `i` and called `force_recalc` once. -/
theorem erase_sublist_spec (m : MaxPostList) (i : Nat) (hi : i < m.n_kids)
    (hk : m.n_kids ≤ m.plist.length) (hs : m.n_kids < 2 ^ 64) :
    ∃ m2, erase_sublist m i = some m2 ∧ m2.n_kids + 1 = m.n_kids ∧
      m2.plist.take m2.n_kids = (m.plist.take m.n_kids).eraseIdx i ∧
      (∃ new, m2.reads = m.reads ++ new ∧ ∀ r ∈ new, r < m.n_kids) ∧
      m2.force_recalc = m.force_recalc + 1 ∧
      m2.deleted = m.deleted ++ [m.plist.getD i 0] := by
  have hget : m.plist[i]? = some (m.plist[i]) := List.getElem?_eq_getElem (by omega)
  obtain ⟨m2, h1, h2, h3, h4, h5, h6, h7⟩ := erase_sublist_loop (m.n_kids - 1 - i) i
    { m with deleted := m.deleted ++ [m.plist[i]], reads := m.reads ++ [i],
             n_kids := m.n_kids - 1 } (by simp only; omega)
  simp only at h2 h3 h4 h5 h6 h7
  refine ⟨{ m2 with force_recalc := m2.force_recalc + 1 }, ?_, ?_, ?_, ?_, ?_, ?_⟩
  · have hn : (m.n_kids + (SIZE_MOD - 1)) % SIZE_MOD = m.n_kids - 1 := by
      unfold SIZE_MOD; omega
    unfold erase_sublist
    rw [hget]
    simp only []
    rw [hn, h1]
  · simp only [h2]; omega
  · simp only [h2]
    apply List.ext_getElem?
    intro k
    rw [List.getElem?_eraseIdx, List.getElem?_take, List.getElem?_take, List.getElem?_take, h7]
    by_cases hkn : k < m.n_kids - 1
    · rw [if_pos hkn]
      by_cases hki : k < i
      · rw [if_neg (by omega), if_pos hki, if_pos (by omega)]
      · rw [if_pos (by omega), if_neg hki, if_pos (by omega)]
    · rw [if_neg hkn]
      by_cases hki : k < i
      · omega
      · rw [if_neg hki, if_neg (by omega)]
  · refine ⟨i :: List.range' (i + 1) (m.n_kids - 1 - i), ?_, ?_⟩
    · simp only [h5, List.append_assoc, List.singleton_append]
    · intro r hr
      rcases List.mem_cons.mp hr with h | h
      · omega
      · have := List.mem_range'_1.mp h
        omega
  · simp only [h4]
  · simp only [h3]
    rw [List.getD_eq_getElem _ _ (by omega)]

/-- C15 at a node with four children, erasing child 1. -/
theorem erase_sublist_spec_witness :
    (1 < (⟨4, [10, 11, 12, 13], [], [], 0⟩ : MaxPostList).n_kids ∧
     (⟨4, [10, 11, 12, 13], [], [], 0⟩ : MaxPostList).n_kids
       ≤ (⟨4, [10, 11, 12, 13], [], [], 0⟩ : MaxPostList).plist.length) ∧
    erase_sublist ⟨4, [10, 11, 12, 13], [], [], 0⟩ 1
      = some ⟨3, [10, 12, 13, 13], [11], [1, 2, 3], 1⟩ ∧
    ∃ m2, erase_sublist ⟨4, [10, 11, 12, 13], [], [], 0⟩ 1 = some m2 ∧
      m2.n_kids + 1 = (⟨4, [10, 11, 12, 13], [], [], 0⟩ : MaxPostList).n_kids ∧
      m2.plist.take m2.n_kids
        = ((⟨4, [10, 11, 12, 13], [], [], 0⟩ : MaxPostList).plist.take
            (⟨4, [10, 11, 12, 13], [], [], 0⟩ : MaxPostList).n_kids).eraseIdx 1 ∧
      (∃ new, m2.reads = (⟨4, [10, 11, 12, 13], [], [], 0⟩ : MaxPostList).reads ++ new ∧
        ∀ r ∈ new, r < (⟨4, [10, 11, 12, 13], [], [], 0⟩ : MaxPostList).n_kids) ∧
      m2.force_recalc = (⟨4, [10, 11, 12, 13], [], [], 0⟩ : MaxPostList).force_recalc + 1 ∧
      m2.deleted = (⟨4, [10, 11, 12, 13], [], [], 0⟩ : MaxPostList).deleted
        ++ [(⟨4, [10, 11, 12, 13], [], [], 0⟩ : MaxPostList).plist.getD 1 0] :=
  ⟨⟨by decide, by decide⟩, by decide,
   erase_sublist_spec ⟨4, [10, 11, 12, 13], [], [], 0⟩ 1 (by decide) (by decide) (by decide)⟩

/-! ## Accept and reject counters (C16) -/

theorem reject_counted (c : Counters) (o l : List Nat) : counted_once c (reject c o l) :=
  Or.inr ⟨rfl, rfl, rfl⟩

theorem accept_counted (c : Counters) (o l : List Nat) : counted_once c (accept c o l) :=
  Or.inl ⟨rfl, rfl, rfl⟩

/-- However long the loop of `ExactPhrasePostList::test_doc` runs and from whatever
state, a return goes through exactly one of `++accepted` and `++rejected`. -/
theorem exact_phrase_loop_counted (terms : List Term) (order : List Nat) (c : Counters) :
    ∀ (fuel : Nat) (poslists : List PositionList) (read_hwm base i : Nat)
      (opened : List Nat) (r : TestDoc),
      exact_phrase_loop terms order c fuel poslists read_hwm base i opened = some r →
      counted_once c r := by
  intro fuel
  induction fuel with
  | zero => intro _ _ _ _ _ r h; simp [exact_phrase_loop] at h
  | succ f ih =>
    intro poslists read_hwm base i opened r h
    rw [exact_phrase_loop] at h
    simp only [] at h
    split_ifs at h
    all_goals first
      | (cases h; exact reject_counted _ _ _)
      | (cases h; exact accept_counted _ _ _)
      | exact ih _ _ _ _ _ _ h

/-- The same for the loops of `PhrasePostList::test_doc`. -/
theorem phrase_loop_counted (terms : List Term) (window : Nat) (c : Counters) :
    ∀ (fuel : Nat) (poslists : List PositionList) (read_hwm base pos i : Nat)
      (opened : List Nat) (r : TestDoc),
      phrase_loop terms window c fuel poslists read_hwm base pos i opened = some r →
      counted_once c r := by
  intro fuel
  induction fuel with
  | zero => intro _ _ _ _ _ _ r h; simp [phrase_loop] at h
  | succ f ih =>
    intro poslists read_hwm base pos i opened r h
    rw [phrase_loop] at h
    simp only [] at h
    split_ifs at h
    all_goals first
      | (cases h; exact reject_counted _ _ _)
      | (cases h; exact accept_counted _ _ _)
      | exact ih _ _ _ _ _ _ _ h

theorem exact_phrase_test_doc_counted (terms : List Term) (order0 : List Nat) (c : Counters)
    (r : TestDoc) (h : exact_phrase_test_doc terms order0 c = some r) : counted_once c r := by
  unfold exact_phrase_test_doc at h
  simp only [] at h
  split_ifs at h
  all_goals first
    | (cases h; exact reject_counted _ _ _)
    | exact exact_phrase_loop_counted _ _ _ _ _ _ _ _ _ _ h

theorem phrase_test_doc_counted (terms : List Term) (window : Nat) (c : Counters)
    (r : TestDoc) (h : phrase_test_doc terms window c = some r) : counted_once c r := by
  unfold phrase_test_doc at h
  simp only [] at h
  split_ifs at h
  all_goals first
    | (cases h; exact reject_counted _ _ _)
    | exact phrase_loop_counted _ _ _ _ _ _ _ _ _ _ _ h

theorem counted_once_sum (c : Counters) (r : TestDoc) (h : counted_once c r) :
    r.counters.accepted + r.counters.rejected = c.accepted + c.rejected + 1 := by
  rcases h with ⟨-, h1, h2⟩ | ⟨-, h1, h2⟩ <;> omega

theorem exact_phrase_test_doc_returns (terms : List Term) (order0 : List Nat) (c : Counters)
    (hn : 2 ≤ terms.length)
    (hsorted : ∀ t ∈ terms, t.positions.Sorted (· < ·))
    (hbound : ∀ t ∈ terms, ∀ q ∈ t.positions, q + terms.length ≤ 2 ^ 32)
    (hperm : order0.Perm (List.range terms.length)) :
    ∃ r, exact_phrase_test_doc terms order0 c = some r := by
  have hp : (sort_order terms order0).Perm (List.range terms.length) :=
    (sort_order_perm terms order0).trans hperm
  have hlen : (sort_order terms order0).length = terms.length := by
    rw [hp.length_eq, List.length_range]
  obtain ⟨r, hr, -⟩ := exact_phrase_after_sort terms (sort_order terms order0) c hn
    (fun k hk => hsorted _ (getD_mem_of_lt terms k hk))
    (fun k hk => hbound _ (getD_mem_of_lt terms k hk))
    hlen (perm_range_getD_lt _ _ hp) (perm_range_surj _ _ hp) _ rfl
  exact ⟨r, hr⟩

/-! ## Offsets read by unserialise_double (C17) -/

set_option maxRecDepth 100000 in
theorem eval_serialise_dbl_max : serialise_double DBL_MAX
    = .ok [0x6f, 0x7f, 0x80, 0xff, 0xff, 0xff, 0xff, 0xff, 0xff, 0xf8] := rfl

/-- When the decoded exponent equals `dbl_max_exp`, a returning call has read the byte at
the offset it returns in `*p`: the byte after the mantissa. -/
theorem unserialise_double_reads_pos (cs : Bool) (past : Nat → Nat) (buf : List Nat)
    (r : Unserialised) (p0 : Nat) (reads1 : List Nat)
    (h : unserialise_double cs past buf = .ok r)
    (hnz : ¬ (peek past buf 0 = 0 ∧ peek past buf 1 = 0))
    (hexp : unserialise_exponent past buf (peek past buf 0) = .ok (dbl_max_exp, p0, reads1)) :
    r.pos ∈ r.reads := by
  unfold unserialise_double at h
  split_ifs at h with h1
  simp only [hexp] at h
  split_ifs at h with h2
  all_goals (cases h; simp)

/-- C17 (the code at the failing input): the encoding of `DBL_MAX` is ten bytes, its
decoded exponent is `dbl_max_exp`, and `unserialise_double`, given exactly these ten
bytes, returns `DBL_MAX` with `*p` at `end` after reading the byte at offset 10, which is
the first byte beyond the buffer. -/
theorem unserialise_double_reads_end (cs : Bool) (past : Nat → Nat) :
    serialise_double DBL_MAX
      = .ok [0x6f, 0x7f, 0x80, 0xff, 0xff, 0xff, 0xff, 0xff, 0xff, 0xf8] ∧
    ∃ r, unserialise_double cs past [0x6f, 0x7f, 0x80, 0xff, 0xff, 0xff, 0xff, 0xff, 0xff, 0xf8]
        = .ok r ∧
      r.value = DBL_MAX ∧
      r.pos = ([0x6f, 0x7f, 0x80, 0xff, 0xff, 0xff, 0xff, 0xff, 0xff, 0xf8] : List Nat).length ∧
      ([0x6f, 0x7f, 0x80, 0xff, 0xff, 0xff, 0xff, 0xff, 0xff, 0xf8] : List Nat).length
        ∈ r.reads := by
  refine ⟨eval_serialise_dbl_max, ?_⟩
  obtain ⟨out, r, h1, h2, h3, h4⟩ := roundtrip_nonzero cs past DBL_MAX (by decide) (by decide)
  rw [eval_serialise_dbl_max] at h1
  cases h1
  refine ⟨r, h2, h4, h3, ?_⟩
  have := unserialise_double_reads_pos cs past _ r 3 [1, 2] h2 (by simp [peek])
    (by simp [unserialise_exponent, peek]; rfl)
  rw [h3] at this
  exact this

/-! ## Bytes after the encoding (C18) -/

theorem peek_post_lt (past : Nat → Nat) (pre post : List Nat) (hpost : ∀ b ∈ post, b < 256) :
    peek past (pre ++ post) pre.length < 256 := by
  have h := peek_append_right past pre post 0
  rw [Nat.add_zero] at h
  rw [h]
  cases post with
  | nil => exact peek_lt_256_of_ge past [] 0 (by simp)
  | cons d tl => rw [peek_zero]; exact hpost d (List.mem_cons_self _ _)

/-- Decoding a well-shaped encoding followed by further bytes `post`: value and read
pointer are those of the encoding alone. -/
theorem unserialise_double_of_shape_post (cs : Bool) (past : Nat → Nat) (b0 : Nat)
    (ebytes M post : List Nat) (e : Int)
    (hc : (-7 ≤ e ∧ e ≤ 6 ∧ ((b0 &&& 0x0f : Nat) : Int) = e + 7 ∧ ebytes = []) ∨
       (¬(-7 ≤ e ∧ e ≤ 6) ∧ -128 ≤ e ∧ e ≤ 126 ∧ b0 &&& 0x0f = 14 ∧
          ebytes = [(e + 128).toNat]) ∨
       (¬(-128 ≤ e ∧ e ≤ 126) ∧ -32768 ≤ e ∧ b0 &&& 0x0f = 15 ∧
          ebytes = [(e + 32768).toNat % 256, (e + 32768).toNat / 256]))
    (hM : mantissa_len_of b0 = M.length)
    (hnz : ¬ (b0 = 0 ∧ peek past (b0 :: (ebytes ++ M ++ post)) 1 = 0))
    (he : e ≤ 127) (hpost : ∀ b ∈ post, b < 256) :
    ∃ r, unserialise_double cs past (b0 :: (ebytes ++ M ++ post)) = .ok r ∧
      r.pos = 1 + ebytes.length + M.length ∧
      r.value =
        (if (b0 &&& 0x80) != 0 then
          Double.neg (if e ≠ 0 then Double.ldexp (M.foldr unserialise_step Double.zero) (e * 8)
            else M.foldr unserialise_step Double.zero)
        else (if e ≠ 0 then Double.ldexp (M.foldr unserialise_step Double.zero) (e * 8)
            else M.foldr unserialise_step Double.zero)) := by
  obtain ⟨reads, hexp, -⟩ := unserialise_exponent_of_shape past b0 ebytes (M ++ post) e hc
  rw [← List.append_assoc] at hexp
  have hM1 : 1 ≤ M.length := by rw [← hM]; unfold mantissa_len_of; omega
  have hlen : (b0 :: (ebytes ++ M ++ post)).length
      = 1 + ebytes.length + M.length + post.length := by
    simp only [List.length_cons, List.length_append]; omega
  unfold unserialise_double
  rw [if_neg (by omega)]
  simp only [peek_zero]
  rw [if_neg hnz, hexp]
  simp only
  have hml : (b0 >>> 4 &&& 7) + 1 = M.length := hM
  rw [hml, if_neg (by omega)]
  refine ⟨_, rfl, rfl, ?_⟩
  simp only
  have hbuf : b0 :: (ebytes ++ M ++ post) = (b0 :: ebytes) ++ M ++ post := by simp
  have hq : 1 + ebytes.length + M.length = ((b0 :: ebytes) ++ M).length := by
    simp only [List.length_cons, List.length_append]; omega
  have hcmp : (decide (e = dbl_max_exp) && Double.lt dbl_max_mantissa
      (Double.ofInt (charValue cs (peek past (b0 :: (ebytes ++ M ++ post))
        (1 + ebytes.length + M.length))))) = false := by
    rw [hbuf, hq, char_not_above_dbl_max_mantissa _ (peek_post_lt past _ post hpost) cs]
    simp
  rw [hcmp]
  have hgt : ¬ (e > dbl_max_exp ∨ false = true) := by
    rw [dbl_max_exp_eq]; simp; omega
  rw [if_neg hgt]
  have hq2 : 1 + ebytes.length + M.length = (b0 :: ebytes).length + M.length := by
    simp only [List.length_cons]; omega
  have hfold := unserialise_mantissa_foldr past (b0 :: ebytes) M post Double.zero
  rw [← hbuf, ← hq2] at hfold
  simp only [hfold]

/-- No encoding of a finite double starts with two NUL bytes, the pair the decoder
takes for zero. -/
theorem serialise_double_not_nul_pair (x : Double) (hx : x.Finite) (b0 d : Nat)
    (tl : List Nat) (h : serialise_double x = .ok (b0 :: d :: tl)) : ¬ (b0 = 0 ∧ d = 0) := by
  rintro ⟨h0, hd⟩
  subst h0 hd
  cases hz : x.isZero
  · obtain ⟨out, r, h1, h2, -, h4⟩ := roundtrip_nonzero false (fun _ => 0) x hx hz
    rw [h] at h1
    cases h1
    unfold unserialise_double at h2
    rw [if_neg (by simp), if_pos (by simp [peek])] at h2
    cases h2
    rw [← h4] at hz
    exact absurd hz (by decide)
  · obtain ⟨s, E, f⟩ := x
    simp only [Double.isZero, Bool.and_eq_true, beq_iff_eq] at hz
    obtain ⟨hE, hf⟩ := hz
    subst hE hf
    cases s
    · have := eval_serialise_zero
      rw [show (⟨false, 0, 0⟩ : Double) = Double.zero from rfl, this] at h
      cases h
    · have := eval_serialise_negZero
      rw [show (⟨true, 0, 0⟩ : Double) = Double.negZero from rfl, this] at h
      cases h

/-- C18: for every finite double `x` and every byte string `t`, `unserialise_double`
applied to `serialise_double(x)` followed by `t` returns the value it returns for
`serialise_double(x)` alone and leaves the read pointer at the first byte of `t`; bits 4-6
of the first byte are the number of mantissa bytes emitted minus one, and the bytes the
first byte announces as header, together with the mantissa bytes, are the whole
encoding. -/
theorem unserialise_double_ignores_suffix (cs : Bool) (past : Nat → Nat) (x : Double)
    (hx : x.Finite) (t : List Nat) (ht : ∀ b ∈ t, b < 256) :
    ∃ out r0 r b0, serialise_double x = .ok out ∧
      unserialise_double cs past out = .ok r0 ∧
      unserialise_double cs past (out ++ t) = .ok r ∧
      r.value = r0.value ∧ r.pos = out.length ∧ r0.pos = out.length ∧
      out.head? = some b0 ∧
      (b0 >>> 4) &&& 0x07 = (serialise_mantissa 8 (base256_mantissa x)).length - 1 ∧
      out.length = header_len_of b0 + (serialise_mantissa 8 (base256_mantissa x)).length := by
  have hr := base256_exponent_range x hx
  obtain ⟨b0, ebytes, hs, -, hM, -, hc⟩ := serialise_double_shape x (by omega)
  have hlenM := serialise_mantissa_length 7 (base256_mantissa x)
  generalize hMdef : serialise_mantissa 8 (base256_mantissa x) = M at hs hM hlenM ⊢
  have hc2 : (-7 ≤ base256_exponent x ∧ base256_exponent x ≤ 6 ∧
          ((b0 &&& 0x0f : Nat) : Int) = base256_exponent x + 7 ∧ ebytes = []) ∨
       (¬(-7 ≤ base256_exponent x ∧ base256_exponent x ≤ 6) ∧
          -128 ≤ base256_exponent x ∧ base256_exponent x ≤ 126 ∧ b0 &&& 0x0f = 14 ∧
          ebytes = [(base256_exponent x + 128).toNat]) ∨
       (¬(-128 ≤ base256_exponent x ∧ base256_exponent x ≤ 126) ∧
          -32768 ≤ base256_exponent x ∧ b0 &&& 0x0f = 15 ∧
          ebytes = [(base256_exponent x + 32768).toNat % 256,
                    (base256_exponent x + 32768).toNat / 256]) := by
    rcases hc with h | h | h
    · exact Or.inl h
    · exact Or.inr (Or.inl h)
    · exact Or.inr (Or.inr ⟨h.1, by omega, h.2⟩)
  obtain ⟨d, tl, hdtl⟩ : ∃ d tl, ebytes ++ M = d :: tl := by
    cases hl : ebytes ++ M with
    | nil =>
      have := congrArg List.length hl
      simp only [List.length_append, List.length_nil] at this
      omega
    | cons d tl => exact ⟨d, tl, rfl⟩
  have hpair : ¬ (b0 = 0 ∧ d = 0) :=
    serialise_double_not_nul_pair x hx b0 d tl (by rw [hs, hdtl])
  have hnz : ∀ post : List Nat, ¬ (b0 = 0 ∧ peek past (b0 :: (ebytes ++ M ++ post)) 1 = 0) := by
    intro post
    rw [hdtl, List.cons_append, peek_succ, peek_zero]
    exact hpair
  obtain ⟨r0, h01, h02, h03⟩ := unserialise_double_of_shape_post cs past b0 ebytes M []
    (base256_exponent x) hc2 hM (hnz []) (by omega) (by simp)
  obtain ⟨r, h1, h2, h3⟩ := unserialise_double_of_shape_post cs past b0 ebytes M t
    (base256_exponent x) hc2 hM (hnz t) (by omega) ht
  rw [List.append_nil] at h01
  have hlen : (b0 :: (ebytes ++ M)).length = 1 + ebytes.length + M.length := by
    simp only [List.length_cons, List.length_append]; omega
  have hhdr : header_len_of b0 = 1 + ebytes.length := by
    unfold header_len_of
    rcases hc2 with ⟨h1, h2, h3, h4⟩ | ⟨-, -, -, h3, h4⟩ | ⟨-, -, h3, h4⟩
    · rw [if_neg (by omega), if_neg (by omega), h4]; rfl
    · rw [h3, if_neg (by decide), if_pos rfl, h4]; rfl
    · rw [h3, if_pos rfl, h4]; rfl
  refine ⟨_, r0, r, b0, hs, h01, ?_, ?_, ?_, ?_, rfl, ?_, ?_⟩
  · rw [List.cons_append]; exact h1
  · rw [h3, h03]
  · rw [h2, hlen]
  · rw [h02, hlen]
  · unfold mantissa_len_of at hM
    omega
  · rw [hlen, hhdr]

/-- C18 at `x = -2.0` followed by the bytes `07 01` (the encoding of 1.0). -/
theorem unserialise_double_ignores_suffix_witness :
    (Double.negTwo.Finite ∧ ∀ b ∈ [0x07, 0x01], b < 256) ∧
    ∃ out r0 r b0, serialise_double Double.negTwo = .ok out ∧
      unserialise_double true (fun _ => 0) out = .ok r0 ∧
      unserialise_double true (fun _ => 0) (out ++ [0x07, 0x01]) = .ok r ∧
      r.value = r0.value ∧ r.pos = out.length ∧ r0.pos = out.length ∧
      out.head? = some b0 ∧
      (b0 >>> 4) &&& 0x07 = (serialise_mantissa 8 (base256_mantissa Double.negTwo)).length - 1 ∧
      out.length
        = header_len_of b0 + (serialise_mantissa 8 (base256_mantissa Double.negTwo)).length :=
  ⟨⟨by decide, by decide⟩,
   unserialise_double_ignores_suffix true (fun _ => 0) Double.negTwo (by decide) [0x07, 0x01]
     (by decide)⟩

/-! ## Exactness of the mantissa loop (C19) -/

theorem base256_digits_value_nil : base256_digits_value [] = 0 := rfl

theorem base256_digits_value_cons (d : Nat) (ds : List Nat) :
    base256_digits_value (d :: ds) = (d : ℚ) + base256_digits_value ds / 256 := rfl

theorem base256_digits_value_sum (ds : List Nat) :
    base256_digits_value ds
      = ∑ k in Finset.range ds.length, (ds.getD k 0 : ℚ) / (256 : ℚ) ^ k := by
  induction ds with
  | nil => simp [base256_digits_value]
  | cons d tl ih =>
    rw [base256_digits_value, ih, List.length_cons, Finset.sum_range_succ', Finset.sum_div]
    simp only [List.getD_cons_succ, List.getD_cons_zero, pow_zero, div_one]
    rw [add_comm]
    congr 1
    apply Finset.sum_congr rfl
    intro k _
    rw [pow_succ, div_div]

/-- The normalised mantissa of a finite non-zero double is a fixed-point number with 56
fraction bits, at most 53 of its 64 bits significant, and at least 1. -/
theorem base256_mantissa_fix56 (x : Double) (hx : x.Finite) (hnz : x.isZero = false) :
    ∃ B, Rep53 B ∧ 2 ^ 56 ≤ B ∧ B < 2 ^ 64 ∧ base256_mantissa x = fix56 B := by
  obtain ⟨habs, -⟩ := serialise_abs_nonzero x hx hnz
  have ha : (⟨false, x.expo, x.frac⟩ : Double).Finite := hx
  have hanz : (⟨false, x.expo, x.frac⟩ : Double).isZero = false := hnz
  obtain ⟨N, k, hN1, hN2, hk1, hk2, hv1, -⟩ :=
    base256ify_finite ⟨false, x.expo, x.frac⟩ ha rfl hanz
  have hpow : 2 ^ (k + 3) ≤ 2 ^ 11 := Nat.pow_le_pow_right (by norm_num) (by omega)
  have hpow2 : 2 ^ 4 ≤ 2 ^ (k + 3) := Nat.pow_le_pow_right (by norm_num) (by omega)
  have hA : N * 2 ^ (k + 3) < 2 ^ 64 := by
    calc N * 2 ^ (k + 3) ≤ N * 2 ^ 11 := Nat.mul_le_mul_left _ hpow
      _ < 2 ^ 53 * 2 ^ 11 := Nat.mul_lt_mul_of_pos_right hN2 (by norm_num)
      _ = 2 ^ 64 := by norm_num
  have hA2 : 2 ^ 56 ≤ N * 2 ^ (k + 3) := by
    calc 2 ^ 56 = 2 ^ 52 * 2 ^ 4 := by norm_num
      _ ≤ N * 2 ^ 4 := Nat.mul_le_mul_right _ hN1
      _ ≤ N * 2 ^ (k + 3) := Nat.mul_le_mul_left _ hpow2
  have hy : fix56 (N * 2 ^ (k + 3)) = ⟨false, 1022 + k, N - 2 ^ 52⟩ := by
    unfold fix56
    rw [ofDyadic_scale]
    exact ofDyadic_normal false N (1022 + k) hN1 hN2 (by omega) (by omega) _
      (by push_cast; omega)
  refine ⟨N * 2 ^ (k + 3), ⟨N, k + 3, rfl, hN2⟩, hA2, hA, ?_⟩
  unfold base256_mantissa
  rw [habs, hv1, hy]

/-- The bytes the mantissa loop emits for a 53-bit fixed-point value are its base-256
digits, and the loop ends because the remainder is zero, with byte budget left. -/
theorem mantissa_digits (mb : Nat) : ∀ B : Nat, Rep53 B → B < 2 ^ 64 →
    2 ^ (64 - 8 * (mb + 1)) ∣ B → mb + 1 ≤ 8 →
    base256_digits_value (serialise_mantissa (mb + 1) (fix56 B))
      = (B : ℚ) / ((2 ^ 56 : Nat) : ℚ) ∧
    (∀ d ∈ serialise_mantissa (mb + 1) (fix56 B), d < 256) ∧
    (serialise_mantissa_exit (mb + 1) (fix56 B)).1.isZero = true ∧
    1 ≤ (serialise_mantissa_exit (mb + 1) (fix56 B)).2 := by
  induction mb with
  | zero =>
    intro B hR hB hdiv _
    have hmod : B % 2 ^ 56 = 0 := Nat.mod_eq_zero_of_dvd (by simpa using hdiv)
    have hd : 2 ^ 56 ∣ B := Nat.dvd_of_mod_eq_zero hmod
    have hz : (fix56 (B % 2 ^ 56 * 256)).isZero = true := by
      rw [hmod]; rfl
    rw [serialise_mantissa, serialise_mantissa_exit]
    simp only [toUChar_fix56 B hR hB, serialise_step_fix56 B hR hB, hz, bne_self_eq_false,
      Bool.and_false, Bool.false_eq_true, if_false, Bool.not_true, List.mem_singleton,
      forall_eq, zero_add, le_refl, and_true]
    refine ⟨?_, ?_⟩
    · rw [base256_digits_value_cons, base256_digits_value_nil, Nat.cast_div hd (by norm_num)]
      simp
    · have := Nat.div_lt_of_lt_mul (show B < 2 ^ 56 * 256 by omega)
      exact this
  | succ k ih =>
    intro B hR hB hdiv hk
    have hR' : Rep53 (B % 2 ^ 56 * 256) := by
      have := Rep53_mul_pow _ 8 (Rep53_mod B 56 hR)
      simpa using this
    have hB' : B % 2 ^ 56 * 256 < 2 ^ 64 := by
      have := Nat.mod_lt B (Nat.two_pow_pos 56)
      omega
    have hd0 : B / 2 ^ 56 < 256 := Nat.div_lt_of_lt_mul (show B < 2 ^ 56 * 256 by omega)
    have hdm := Nat.div_add_mod B (2 ^ 56)
    have hsplit : (B : ℚ) / ((2 ^ 56 : Nat) : ℚ)
        = ((B / 2 ^ 56 : Nat) : ℚ) + ((B % 2 ^ 56 : Nat) : ℚ) / ((2 ^ 56 : Nat) : ℚ) := by
      have h56 : (((2 ^ 56 : Nat) : ℚ)) ≠ 0 := by norm_num
      have hBq : (B : ℚ) = ((2 ^ 56 : Nat) : ℚ) * ((B / 2 ^ 56 : Nat) : ℚ)
          + ((B % 2 ^ 56 : Nat) : ℚ) := by exact_mod_cast hdm.symm
      rw [div_eq_iff h56, add_mul, div_mul_cancel₀ _ h56, mul_comm]
      exact hBq
    rw [serialise_mantissa, serialise_mantissa_exit]
    simp only [toUChar_fix56 B hR hB, serialise_step_fix56 B hR hB]
    by_cases hz : B % 2 ^ 56 * 256 = 0
    · have hiz : (fix56 (B % 2 ^ 56 * 256)).isZero = true := (isZero_fix56 _ hR' hB').mpr hz
      have hm0 : B % 2 ^ 56 = 0 := by omega
      simp only [hiz, Bool.not_true, Bool.false_and, Bool.false_eq_true, if_false,
        List.mem_singleton, forall_eq]
      refine ⟨?_, hd0, trivial, by omega⟩
      rw [base256_digits_value_cons, base256_digits_value_nil, hsplit, hm0]
      simp
    · have hiz : (fix56 (B % 2 ^ 56 * 256)).isZero = false := by
        cases h : (fix56 (B % 2 ^ 56 * 256)).isZero
        · rfl
        · exact absurd ((isZero_fix56 _ hR' hB').mp h) hz
      simp only [hiz, Bool.not_false, Bool.true_and, bne_iff_ne, ne_eq, Nat.add_one_ne_zero,
        not_false_eq_true, if_true, List.mem_cons, forall_eq_or_imp]
      have hdiv' : 2 ^ (64 - 8 * (k + 1)) ∣ B % 2 ^ 56 * 256 := by
        obtain ⟨c, hc⟩ := hdiv
        have e1 : 64 - 8 * (k + 1) = (64 - 8 * (k + 1 + 1)) + 8 := by omega
        have e2 : 2 ^ 56 = 2 ^ (56 - (64 - 8 * (k + 1 + 1))) * 2 ^ (64 - 8 * (k + 1 + 1)) := by
          rw [← pow_add]; congr 1; omega
        rw [e1, pow_add, hc, Nat.mul_comm (2 ^ (64 - 8 * (k + 1 + 1))) c, e2,
          Nat.mul_mod_mul_right]
        exact ⟨c % 2 ^ (56 - (64 - 8 * (k + 1 + 1))), by ring⟩
      obtain ⟨i1, i2, i3, i4⟩ := ih _ hR' hB' hdiv' (by omega)
      refine ⟨?_, ⟨hd0, i2⟩, i3, i4⟩
      rw [base256_digits_value_cons, i1, hsplit]
      congr 1
      push_cast
      field_simp
      ring

/-- C19: for a finite non-zero double, whose normalised mantissa `m` lies in `[1, 256)`,
the mantissa loop of `serialise_double` emits `n` bytes `d_0 .. d_(n-1)` with
`1 ≤ n ≤ 8`, each below 256 and `d_0 ≥ 1`, such that `m` is exactly the sum of
`d_k / 256^k`; the loop ends with `v` equal to zero and `maxbytes` not yet 0, so it ends
on its `v != 0.0` test and not on the byte budget. -/
theorem serialise_mantissa_exact (x : Double) (hx : x.Finite) (hnz : x.isZero = false) :
    (base256_mantissa x).Finite ∧
    1 ≤ (base256_mantissa x).mag ∧ (base256_mantissa x).mag < 256 ∧
    1 ≤ (serialise_mantissa (min MAX_MANTISSA_BYTES 8) (base256_mantissa x)).length ∧
    (serialise_mantissa (min MAX_MANTISSA_BYTES 8) (base256_mantissa x)).length ≤ 8 ∧
    (∀ d ∈ serialise_mantissa (min MAX_MANTISSA_BYTES 8) (base256_mantissa x), d < 256) ∧
    1 ≤ (serialise_mantissa (min MAX_MANTISSA_BYTES 8) (base256_mantissa x)).getD 0 0 ∧
    (base256_mantissa x).mag
      = ∑ k in Finset.range
          (serialise_mantissa (min MAX_MANTISSA_BYTES 8) (base256_mantissa x)).length,
        ((serialise_mantissa (min MAX_MANTISSA_BYTES 8) (base256_mantissa x)).getD k 0 : ℚ)
          / (256 : ℚ) ^ k ∧
    (serialise_mantissa_exit (min MAX_MANTISSA_BYTES 8) (base256_mantissa x)).1.isZero = true ∧
    1 ≤ (serialise_mantissa_exit (min MAX_MANTISSA_BYTES 8) (base256_mantissa x)).2 := by
  have h8 : min MAX_MANTISSA_BYTES 8 = 7 + 1 := by decide
  obtain ⟨B, hR, hB1, hB2, hm⟩ := base256_mantissa_fix56 x hx hnz
  rw [h8, hm]
  obtain ⟨p1, p2, p3⟩ := fix56_props B hR hB2
  obtain ⟨d1, d2, d3, d4⟩ := mantissa_digits 7 B hR hB2 (by simp) (by norm_num)
  obtain ⟨-, hhead⟩ := mantissa_roundtrip 7 B hR hB2 (by simp) (by norm_num)
  have hlen := serialise_mantissa_length 7 (fix56 B)
  have hmag : (fix56 B).mag = (B : ℚ) / ((2 ^ 56 : Nat) : ℚ) := by
    rw [p3, fix56_mag_div]
  have h56 : (0 : ℚ) < ((2 ^ 56 : Nat) : ℚ) := by norm_num
  refine ⟨p1, ?_, ?_, hlen.1, hlen.2, d2, ?_, ?_, d3, d4⟩
  · rw [hmag, le_div_iff₀ h56, one_mul]
    exact_mod_cast hB1
  · rw [hmag, div_lt_iff₀ h56]
    have : B < 256 * 2 ^ 56 := by omega
    exact_mod_cast this
  · cases hl : serialise_mantissa (7 + 1) (fix56 B) with
    | nil => rw [hl] at hhead; cases hhead
    | cons d tl =>
      rw [hl] at hhead
      simp only [List.head?_cons, Option.some.injEq] at hhead
      rw [List.getD_cons_zero, hhead]
      exact (Nat.one_le_div_iff (by norm_num)).mpr hB1
  · rw [hmag, ← d1, base256_digits_value_sum]

set_option maxRecDepth 100000 in
/-- C19 at `x = -1.5`: the mantissa 1.5 is emitted as the two bytes `01 80`. -/
theorem serialise_mantissa_exact_witness :
    ((⟨true, 1023, 2 ^ 51⟩ : Double).Finite ∧ (⟨true, 1023, 2 ^ 51⟩ : Double).isZero = false) ∧
    serialise_mantissa (min MAX_MANTISSA_BYTES 8) (base256_mantissa ⟨true, 1023, 2 ^ 51⟩)
      = [0x01, 0x80] ∧
    1 ≤ (base256_mantissa ⟨true, 1023, 2 ^ 51⟩).mag ∧
    (serialise_mantissa_exit (min MAX_MANTISSA_BYTES 8)
      (base256_mantissa ⟨true, 1023, 2 ^ 51⟩)).1.isZero = true :=
  ⟨⟨by decide, by decide⟩, by rfl,
   (serialise_mantissa_exact ⟨true, 1023, 2 ^ 51⟩ (by decide) (by decide)).2.1,
   (serialise_mantissa_exact ⟨true, 1023, 2 ^ 51⟩ (by decide) (by decide)).2.2.2.2.2.2.2.2.1⟩

/-! ## Exactness of base256ify_double (C20) -/

theorem two_pow_sub_zpow (a b : Nat) (q : Int) (h : b ≤ a) :
    ((2 ^ (a - b) : Nat) : ℚ) * 2 ^ q = 2 ^ ((a : Int) - b + q) := by
  rw [Nat.cast_pow, Nat.cast_ofNat, ← zpow_natCast, ← zpow_add₀ (by norm_num)]
  congr 1
  omega

/-- What `base256ify_double` returns for a positive finite double `a`, as numbers: a
normal double with 53-bit significand `N` and binary exponent `k - 1`, `1 ≤ k ≤ 8`, and
`a` is `N * 2 ^ (k - 53) * 256 ^ exp`. -/
theorem base256ify_value (a : Double) (ha : a.Finite) (hs : a.sign = false)
    (hnz : a.isZero = false) :
    ∃ N k : Nat, 2 ^ 52 ≤ N ∧ N < 2 ^ 53 ∧ 1 ≤ k ∧ k ≤ 8 ∧
      (base256ify_double a).1 = ⟨false, 1022 + k, N - 2 ^ 52⟩ ∧
      a.mag = (N : ℚ) * 2 ^ ((k : Int) - 53 + (base256ify_double a).2 * 8) := by
  obtain ⟨h1, h2⟩ := ha
  obtain ⟨s, E, f⟩ := a
  simp only at h1 h2 hs
  subst hs
  have hfr : ¬ (2047 ≤ E ∨ (⟨false, E, f⟩ : Double).isZero = true) := by
    rw [hnz]; simp; omega
  unfold base256ify_double Double.frexp
  simp only [if_neg hfr]
  by_cases hE : E = 0
  · subst hE
    simp only [if_true]
    have hf0 : f ≠ 0 := by
      intro h; subst h; simp [Double.isZero] at hnz
    have hL1 := bitlen_pos f hf0
    have hL2 := bitlen_le f 52 h2
    have hlo := two_pow_bitlen_le f hf0
    have hhi := lt_two_pow_bitlen f
    have hN1 : 2 ^ 52 ≤ f * 2 ^ (53 - bitlen f) := by
      have h5 : 2 ^ (bitlen f - 1) * 2 ^ (53 - bitlen f) ≤ f * 2 ^ (53 - bitlen f) :=
        Nat.mul_le_mul_right _ hlo
      rw [← pow_add] at h5
      have h6 : bitlen f - 1 + (53 - bitlen f) = 52 := by omega
      rw [h6] at h5
      exact h5
    have hN2 : f * 2 ^ (53 - bitlen f) < 2 ^ 53 := by
      have h5 : f * 2 ^ (53 - bitlen f) < 2 ^ bitlen f * 2 ^ (53 - bitlen f) :=
        Nat.mul_lt_mul_of_pos_right hhi (Nat.two_pow_pos _)
      rw [← pow_add] at h5
      have h6 : bitlen f + (53 - bitlen f) = 53 := by omega
      rw [h6] at h5
      exact h5
    generalize hk : (((bitlen f : Int) - 1074 - 1) % 8 + 1) = k'
    refine ⟨f * 2 ^ (53 - bitlen f), k'.toNat, hN1, hN2, by omega, by omega, ?_, ?_⟩
    · unfold Double.ldexp
      rw [if_neg (by simp [Double.isZero])]
      have hm : (⟨false, 1022, f * 2 ^ (53 - bitlen f) - 2 ^ 52⟩ : Double).mant
          = f * 2 ^ (53 - bitlen f) := by
        simp only [Double.mant, show (1022 : Nat) ≠ 0 by norm_num, if_false]; omega
      rw [hm]
      exact ofDyadic_normal false _ (1022 + k'.toNat) hN1 hN2 (by omega) (by omega) _
        (by simp only [Double.ex, show (1022 : Nat) ≠ 0 by norm_num, if_false]; push_cast; omega)
    · simp only [Double.mag, Double.mant, Double.ex, if_true]
      rw [Nat.cast_mul, mul_assoc, two_pow_sub_zpow 53 (bitlen f) _ (by omega)]
      congr 2
      push_cast
      omega
  · simp only [if_neg hE]
    generalize hk : (((E : Int) - 1022 - 1) % 8 + 1) = k'
    refine ⟨2 ^ 52 + f, k'.toNat, by omega, by omega, by omega, by omega, ?_, ?_⟩
    · unfold Double.ldexp
      rw [if_neg (by simp [Double.isZero])]
      have hm : (⟨false, 1022, f⟩ : Double).mant = 2 ^ 52 + f := by
        simp only [Double.mant, show (1022 : Nat) ≠ 0 by norm_num, if_false]
      rw [hm]
      have := ofDyadic_normal false (2 ^ 52 + f) (1022 + k'.toNat) (by omega) (by omega)
        (by omega) (by omega)
        ((⟨false, 1022, f⟩ : Double).ex + k')
        (by simp only [Double.ex, show (1022 : Nat) ≠ 0 by norm_num, if_false]; push_cast; omega)
      rw [this]
    · simp only [Double.mag, Double.mant, Double.ex, if_neg hE]
      congr 2
      omega

/-- C20: for every finite positive double `v`, normal or denormal, `base256ify_double`
replaces `v` by a finite positive mantissa `m` and returns an integer `e` such that
`1 ≤ m < 256` and `v = m * 256 ^ e` exactly. -/
theorem base256ify_double_exact (v : Double) (hv : v.Finite) (hs : v.sign = false)
    (hnz : v.isZero = false) :
    (base256ify_double v).1.Finite ∧ (base256ify_double v).1.sign = false ∧
    1 ≤ (base256ify_double v).1.mag ∧ (base256ify_double v).1.mag < 256 ∧
    v.mag = (base256ify_double v).1.mag * (256 : ℚ) ^ (base256ify_double v).2 := by
  obtain ⟨N, k, hN1, hN2, hk1, hk2, hm, hval⟩ := base256ify_value v hv hs hnz
  have hmag : (base256ify_double v).1.mag = (N : ℚ) * 2 ^ ((k : Int) - 53) := by
    rw [hm]
    simp only [Double.mag, Double.mant, Double.ex, show 1022 + k ≠ 0 by omega, if_false]
    have e1 : 2 ^ 52 + (N - 2 ^ 52) = N := by omega
    have e2 : ((1022 + k : Nat) : Int) - 1075 = (k : Int) - 53 := by push_cast; omega
    rw [e1, e2]
  have h2 : (0 : ℚ) < 2 := by norm_num
  have hNq1 : ((2 ^ 52 : Nat) : ℚ) ≤ (N : ℚ) := by exact_mod_cast hN1
  have hNq2 : (N : ℚ) < ((2 ^ 53 : Nat) : ℚ) := by exact_mod_cast hN2
  have hp : (0 : ℚ) < 2 ^ ((k : Int) - 53) := zpow_pos h2 _
  refine ⟨?_, ?_, ?_, ?_, ?_⟩
  · rw [hm]; exact ⟨by simp only; omega, by simp only; omega⟩
  · rw [hm]
  · rw [hmag]
    calc (1 : ℚ) = ((2 ^ 52 : Nat) : ℚ) * 2 ^ ((1 : Int) - 53) := by
          rw [Nat.cast_pow, Nat.cast_ofNat, ← zpow_natCast, ← zpow_add₀ (by norm_num)]
          norm_num
      _ ≤ (N : ℚ) * 2 ^ ((1 : Int) - 53) :=
          mul_le_mul_of_nonneg_right hNq1 (le_of_lt (zpow_pos h2 _))
      _ ≤ (N : ℚ) * 2 ^ ((k : Int) - 53) :=
          mul_le_mul_of_nonneg_left
            (zpow_le_zpow_right₀ (by norm_num) (by omega)) (Nat.cast_nonneg N)
  · rw [hmag]
    calc (N : ℚ) * 2 ^ ((k : Int) - 53) < ((2 ^ 53 : Nat) : ℚ) * 2 ^ ((k : Int) - 53) :=
          mul_lt_mul_of_pos_right hNq2 hp
      _ ≤ ((2 ^ 53 : Nat) : ℚ) * 2 ^ ((8 : Int) - 53) :=
          mul_le_mul_of_nonneg_left
            (zpow_le_zpow_right₀ (by norm_num) (by omega)) (Nat.cast_nonneg _)
      _ = 256 := by
          rw [Nat.cast_pow, Nat.cast_ofNat, ← zpow_natCast, ← zpow_add₀ (by norm_num)]
          norm_num
  · rw [hval, hmag, mul_assoc]
    congr 1
    rw [show (256 : ℚ) = 2 ^ (8 : Int) by norm_num, ← zpow_mul, ← zpow_add₀ (by norm_num)]
    congr 1
    ring

/-- C20 at the smallest denormal, `2 ^ -1074`: the mantissa is 64 and the exponent -135. -/
theorem base256ify_double_exact_witness :
    ((⟨false, 0, 1⟩ : Double).Finite ∧ (⟨false, 0, 1⟩ : Double).sign = false ∧
      (⟨false, 0, 1⟩ : Double).isZero = false) ∧
    base256ify_double ⟨false, 0, 1⟩ = (⟨false, 1029, 0⟩, -135) ∧
    ((base256ify_double ⟨false, 0, 1⟩).1.Finite ∧
     (base256ify_double ⟨false, 0, 1⟩).1.sign = false ∧
     1 ≤ (base256ify_double ⟨false, 0, 1⟩).1.mag ∧
     (base256ify_double ⟨false, 0, 1⟩).1.mag < 256 ∧
     (⟨false, 0, 1⟩ : Double).mag
       = (base256ify_double ⟨false, 0, 1⟩).1.mag
         * (256 : ℚ) ^ (base256ify_double ⟨false, 0, 1⟩).2) :=
  ⟨⟨by decide, rfl, rfl⟩, by rfl,
   base256ify_double_exact ⟨false, 0, 1⟩ (by decide) rfl rfl⟩

/-! ## Range of the exponent and length of the encoding (C21) -/

/-- C21: for every finite double (zero, denormal or normal, either sign) the base-256
exponent that `serialise_double` computes lies in `[-135, 127]`, so the NetworkError
branch is not taken, and `serialise_double` returns a string of at least 2 and at most
11 bytes. -/
theorem serialise_double_total (x : Double) (hx : x.Finite) :
    -135 ≤ base256_exponent x ∧ base256_exponent x ≤ 127 ∧
    serialise_exponent (Double.lt x Double.zero) (base256_exponent x)
      ≠ .error Error.NetworkError ∧
    serialise_double x ≠ .error Error.NetworkError ∧
    ∃ out, serialise_double x = .ok out ∧ 2 ≤ out.length ∧ out.length ≤ 11 := by
  have hr := base256_exponent_range x hx
  obtain ⟨b0, ebytes, hs, -, -, -, hc⟩ := serialise_double_shape x (by omega)
  have hlen : 1 ≤ (serialise_mantissa 8 (base256_mantissa x)).length ∧
      (serialise_mantissa 8 (base256_mantissa x)).length ≤ 8 :=
    serialise_mantissa_length 7 (base256_mantissa x)
  have he : ebytes.length ≤ 2 := by
    rcases hc with h | h | h
    · rw [h.2.2.2]; simp
    · rw [h.2.2.2.2]; simp
    · rw [h.2.2]; simp
  refine ⟨hr.1, hr.2, ?_, ?_, _, hs, ?_, ?_⟩
  · intro h
    have := (serialise_exponent_error_iff _ _).mp h
    omega
  · rw [hs]
    intro h
    cases h
  · simp only [List.length_cons, List.length_append]
    omega
  · simp only [List.length_cons, List.length_append]
    omega

set_option maxRecDepth 100000 in
set_option exponentiation.threshold 2100 in
/-- C21 at the doubles where the bounds are met: `+0.0` is encoded in 2 bytes, the
smallest denormal has exponent -135, and `2^1016 * (1 + 2^-52)` has exponent 127 and is
encoded in 11 bytes. -/
theorem serialise_double_total_witness :
    (Double.zero.Finite ∧ (⟨false, 0, 1⟩ : Double).Finite ∧ (⟨true, 2039, 1⟩ : Double).Finite) ∧
    serialise_double Double.zero = .ok [0x06, 0x00] ∧
    base256_exponent ⟨false, 0, 1⟩ = -135 ∧
    base256_exponent ⟨true, 2039, 1⟩ = 127 ∧
    serialise_double ⟨true, 2039, 1⟩
      = .ok [0xff, 0x7f, 0x80, 0x01, 0x00, 0x00, 0x00, 0x00, 0x00, 0x00, 0x10] ∧
    (∃ out, serialise_double ⟨true, 2039, 1⟩ = .ok out ∧ 2 ≤ out.length ∧ out.length ≤ 11) :=
  ⟨⟨by decide, by decide, by decide⟩, by rfl, by rfl, by rfl, by rfl,
   (serialise_double_total ⟨true, 2039, 1⟩ (by decide)).2.2.2.2⟩

/-! ## Termination of the exact phrase scan (C22) -/

/-- The traced loop returns what the loop returns, for the same number of iterations. -/
theorem exact_phrase_loop_trace_fst (terms : List Term) (order : List Nat) (c : Counters) :
    ∀ (fuel : Nat) (poslists : List PositionList) (read_hwm base i : Nat)
      (opened : List Nat) (tr : ScanTrace),
      (exact_phrase_loop_trace terms order c fuel poslists read_hwm base i opened tr).map
        Prod.fst = exact_phrase_loop terms order c fuel poslists read_hwm base i opened := by
  intro fuel
  induction fuel with
  | zero => intro _ _ _ _ _ _; rfl
  | succ f ih =>
    intro poslists read_hwm base i opened tr
    rw [exact_phrase_loop_trace, exact_phrase_loop]
    simp only []
    split_ifs <;> first | rfl | exact ih _ _ _ _ _ _

/-- More iterations do not change what a returning run of the traced loop returns. -/
theorem exact_phrase_loop_trace_mono (terms : List Term) (order : List Nat) (c : Counters) :
    ∀ (fuel : Nat) (poslists : List PositionList) (read_hwm base i : Nat)
      (opened : List Nat) (tr : ScanTrace) (x : TestDoc × ScanTrace),
      exact_phrase_loop_trace terms order c fuel poslists read_hwm base i opened tr = some x →
      ∀ fuel2, fuel ≤ fuel2 →
      exact_phrase_loop_trace terms order c fuel2 poslists read_hwm base i opened tr
        = some x := by
  intro fuel
  induction fuel with
  | zero => intro _ _ _ _ _ _ _ h; cases h
  | succ f ih =>
    intro poslists read_hwm base i opened tr x h fuel2 hle
    obtain ⟨g, rfl⟩ : ∃ g, fuel2 = g + 1 := ⟨fuel2 - 1, by omega⟩
    rw [exact_phrase_loop_trace] at h ⊢
    simp only [] at h ⊢
    split_ifs at h ⊢
    all_goals first
      | exact h
      | exact ih _ _ _ _ _ _ _ h g (by omega)

theorem exact_phrase_test_doc_trace_mono (terms : List Term) (order0 : List Nat)
    (c : Counters) (fuel fuel2 : Nat) (x : TestDoc × ScanTrace)
    (h : exact_phrase_test_doc_trace fuel terms order0 c = some x) (hle : fuel ≤ fuel2) :
    exact_phrase_test_doc_trace fuel2 terms order0 c = some x := by
  unfold exact_phrase_test_doc_trace exact_phrase_test_doc_sorted at h ⊢
  simp only [] at h ⊢
  split_ifs at h ⊢
  all_goals first
    | exact h
    | exact exact_phrase_loop_trace_mono _ _ _ _ _ _ _ _ _ _ _ h _ hle

/-- The result of `exact_phrase_test_doc` is that of the traced run for the number of
iterations the former allows. -/
theorem exact_phrase_test_doc_trace_fst (terms : List Term) (order0 : List Nat)
    (c : Counters) :
    ∃ fuel, (exact_phrase_test_doc_trace fuel terms order0 c).map Prod.fst
      = exact_phrase_test_doc terms order0 c := by
  unfold exact_phrase_test_doc_trace exact_phrase_test_doc_sorted exact_phrase_test_doc
  simp only []
  split_ifs
  · exact ⟨0, rfl⟩
  · exact ⟨0, rfl⟩
  · exact ⟨_, exact_phrase_loop_trace_fst _ _ _ _ _ _ _ _ _ _⟩
  · exact ⟨_, exact_phrase_loop_trace_fst _ _ _ _ _ _ _ _ _ _⟩

theorem sorted_cons_cons_of_lt (a b : Nat) (l : List Nat) (hab : a < b)
    (h : (b :: l).Sorted (· < ·)) : (a :: b :: l).Sorted (· < ·) := by
  refine List.sorted_cons.mpr ⟨fun x hx => ?_, h⟩
  rcases List.mem_cons.mp hx with hx | hx
  · rw [hx]; exact hab
  · exact lt_trans hab (List.rel_of_sorted_cons h x hx)

/-- The loop of `ExactPhrasePostList::test_doc` returns when no position is so large that
`base + idx` could wrap; every restart computes `base` from a strictly greater position
of the anchor, so that `base` strictly increases, and no subtraction underflows. -/
theorem exact_phrase_loop_trace_correct (terms : List Term) (order : List Nat) (c : Counters)
    (hsorted : ∀ k, k < terms.length → (terms.getD k default).positions.Sorted (· < ·))
    (hbound : ∀ k, k < terms.length → ∀ q ∈ (terms.getD k default).positions,
      q + terms.length ≤ 2 ^ 32)
    (hord1 : ∀ j, j < terms.length → order.getD j 0 < terms.length) :
    ∀ (fuel : Nat) (poslists : List PositionList) (read_hwm base i : Nat) (opened : List Nat)
      (tr : ScanTrace),
      ExactInv terms order poslists read_hwm base i →
      (poslists.getD 0 default).rest.length * terms.length + (terms.length - i) < fuel →
      ∃ r as bs, exact_phrase_loop_trace terms order c fuel poslists read_hwm base i opened tr
          = some (r, ⟨tr.anchors ++ as, tr.bases ++ bs, tr.underflow⟩) ∧
        ((base + order.getD 0 0) :: as).Sorted (· < ·) ∧ (base :: bs).Sorted (· < ·) ∧
        as.length = bs.length := by
  intro fuel
  induction fuel with
  | zero => intro _ _ _ _ _ _ _ h; omega
  | succ f ih =>
    intro poslists read_hwm base i opened tr inv0 hfuel
    obtain ⟨inv, hle⟩ := exact_open_step terms order hsorted hord1 poslists read_hwm base i inv0
    have h0 : (if i > read_hwm then exact_start_position_list terms order poslists i
        else poslists).getD 0 default = poslists.getD 0 default := by
      by_cases h : i > read_hwm
      · simp only [h, if_true]
        unfold exact_start_position_list
        exact getD_set_other _ _ _ _ _ (by have := inv0.hi.1; omega)
      · simp only [h, if_false]
    rw [exact_phrase_loop_trace]
    simp only []
    rw [← h0] at hfuel
    generalize (if i > read_hwm then exact_start_position_list terms order poslists i
        else poslists) = poslists1 at inv hfuel ⊢
    generalize (if i > read_hwm then i else read_hwm) = read_hwm1 at inv hle ⊢
    generalize (if i > read_hwm then opened ++ [order.getD i 0] else opened) = opened1
    have hi1 := inv.hi.1
    have hin := inv.hi.2
    have hidx := hord1 i hin
    have hidx0 := hord1 0 (by omega)
    have ha0mem : base + order.getD 0 0 ∈ (terms.getD (order.getD 0 0) default).positions := by
      apply inv.hanchor.2.1
      exact List.mem_of_mem_head? inv.hhead
    have hb := hbound _ hidx0 _ ha0mem
    have hnil : (⟨tr.anchors ++ [], tr.bases ++ [], tr.underflow⟩ : ScanTrace) = tr := by
      simp
    rw [tp_add_eq base (order.getD i 0) (by omega)]
    obtain ⟨hinvpl, hnot, hok⟩ := skip_to_spec (poslists1.getD i default) _ _
      (base + order.getD i 0) (inv.hcur i hi1 hle) le_rfl
    generalize (poslists1.getD i default).skip_to (base + order.getD i 0) = pl
      at hinvpl hnot hok ⊢
    have hi0 : i ≠ 0 := by omega
    cases hokv : pl.ok
    · rw [if_pos rfl]
      exact ⟨_, [], [], by rw [hnil], List.sorted_singleton _, List.sorted_singleton _, rfl⟩
    · obtain ⟨hhd, hgm, hge, hmin, hinvg⟩ := hok hokv
      rw [if_neg (by simp)]
      have hgb := hbound _ hidx _ hgm
      by_cases hgot : pl.get_position = base + order.getD i 0
      · rw [if_pos hgot]
        by_cases hlast : i + 1 = terms.length
        · rw [if_pos hlast]
          exact ⟨_, [], [], by rw [hnil], List.sorted_singleton _, List.sorted_singleton _, rfl⟩
        · rw [if_neg hlast]
          apply ih
          · refine ⟨⟨by omega, by omega⟩, ⟨inv.hhwm.1, inv.hhwm.2.1, by omega⟩,
              by simp [inv.hlen], ?_, ?_, ?_, ?_, inv.hnone⟩
            · rw [getD_set_other _ _ _ _ _ hi0]; exact inv.hanchor
            · rw [getD_set_other _ _ _ _ _ hi0]; exact inv.hhead
            · intro j hj1 hj2
              by_cases hji : i = j
              · subst hji
                rw [getD_set_self _ _ _ _ (by rw [inv.hlen]; exact hin)]
                exact hinvpl
              · rw [getD_set_other _ _ _ _ _ hji]
                exact inv.hcur j hj1 hj2
            · intro j hj1 hj2
              by_cases hji : j = i
              · subst hji; rw [← hgot]; exact hgm
              · exact inv.hmatch j hj1 (by omega)
          · rw [getD_set_other _ _ _ _ _ hi0]
            omega
      · rw [if_neg hgot]
        have hnu : decide (pl.get_position < order.getD i 0) = false :=
          decide_eq_false (by omega)
        rw [getD_set_other _ _ _ _ _ hi0,
          tp_sub_eq pl.get_position (order.getD i 0) (by omega) (by omega),
          tp_add_eq _ _ (by omega), hnu, Bool.or_false]
        obtain ⟨hinvp0, hnot0, hok0⟩ := skip_to_spec (poslists1.getD 0 default) _ _
          (pl.get_position - order.getD i 0 + order.getD 0 0) inv.hanchor (by omega)
        have hlt := skip_to_length_lt (poslists1.getD 0 default) _
          (pl.get_position - order.getD i 0 + order.getD 0 0) inv.hhead (by omega)
        generalize (poslists1.getD 0 default).skip_to
          (pl.get_position - order.getD i 0 + order.getD 0 0) = p0 at hinvp0 hnot0 hok0 hlt ⊢
        have hphrase : ∀ p, PhraseAt terms p →
            pl.get_position - order.getD i 0 + order.getD 0 0 ≤ p + order.getD 0 0 := by
          intro p hp
          have h1 := inv.hnone p hp
          have h2 := hp _ hidx
          have h3 := hmin _ h2 (by omega)
          omega
        cases hokv0 : p0.ok
        · rw [if_pos rfl]
          exact ⟨_, [], [], by rw [hnil], List.sorted_singleton _, List.sorted_singleton _, rfl⟩
        · obtain ⟨hhd0, hgm0, hge0, hmin0, hinvg0⟩ := hok0 hokv0
          rw [if_neg (by simp)]
          have hgb0 := hbound _ hidx0 _ hgm0
          have hnu0 : decide (p0.get_position < order.getD 0 0) = false :=
            decide_eq_false (by omega)
          rw [tp_sub_eq p0.get_position (order.getD 0 0) (by omega) (by omega), hnu0,
            Bool.or_false]
          have hbase : base < p0.get_position - order.getD 0 0 := by omega
          have hadd : p0.get_position - order.getD 0 0 + order.getD 0 0 = p0.get_position := by
            omega
          obtain ⟨r, as, bs, hrun, hsa, hsb, hlen⟩ := ih
            ((poslists1.set i pl).set 0 p0) read_hwm1 (p0.get_position - order.getD 0 0) 1
            opened1
            ⟨tr.anchors ++ [p0.get_position],
             tr.bases ++ [p0.get_position - order.getD 0 0], tr.underflow⟩
            (by
              refine ⟨⟨le_refl _, by omega⟩, ⟨inv.hhwm.1, inv.hhwm.2.1, by omega⟩,
                by simp [inv.hlen], ?_, ?_, ?_, ?_, ?_⟩
              · rw [getD_set_self _ _ _ _ (by simp [inv.hlen]; omega), hadd]
                exact hinvg0
              · rw [getD_set_self _ _ _ _ (by simp [inv.hlen]; omega), hadd]
                exact hhd0
              · intro j hj1 hj2
                rw [getD_set_other _ _ _ _ _ (by omega : 0 ≠ j)]
                by_cases hji : i = j
                · subst hji
                  rw [getD_set_self _ _ _ _ (by rw [inv.hlen]; exact hin)]
                  exact cursorInv_mono _ _ _ _ hinvpl (by omega)
                · rw [getD_set_other _ _ _ _ _ hji]
                  exact cursorInv_mono _ _ _ _ (inv.hcur j hj1 hj2) (by omega)
              · intro j hj1 hj2; omega
              · intro p hp
                have h1 := hphrase p hp
                have h2 := hmin0 _ (hp _ hidx0) h1
                omega)
            (by
              rw [getD_set_self _ _ _ _ (by simp [inv.hlen]; omega)]
              have hmul : p0.rest.length * terms.length + terms.length
                  ≤ (poslists1.getD 0 default).rest.length * terms.length := by
                have : p0.rest.length + 1 ≤ (poslists1.getD 0 default).rest.length := hlt
                calc p0.rest.length * terms.length + terms.length
                    = (p0.rest.length + 1) * terms.length := by ring
                  _ ≤ (poslists1.getD 0 default).rest.length * terms.length :=
                    Nat.mul_le_mul_right _ this
              omega)
          rw [hadd] at hsa
          refine ⟨r, p0.get_position :: as, (p0.get_position - order.getD 0 0) :: bs, ?_,
            sorted_cons_cons_of_lt _ _ _ (by omega) hsa,
            sorted_cons_cons_of_lt _ _ _ hbase hsb, by simp [hlen]⟩
          rw [hrun]
          simp

theorem skip_to_rest_length_le (pl : PositionList) (p : Nat) :
    (pl.skip_to p).rest.length ≤ pl.rest.length := by
  unfold PositionList.skip_to
  exact (List.dropWhile_sublist _).length_le

/-- What follows the sort in `ExactPhrasePostList::test_doc` returns for every
permutation `order` of the term indices when no position is so large that `base + idx`
could wrap, with `base` strictly increasing from restart to restart and no subtraction
underflowing. -/
theorem exact_phrase_trace_after_sort (terms : List Term) (order : List Nat) (c : Counters)
    (hn : 2 ≤ terms.length)
    (hsorted : ∀ k, k < terms.length → (terms.getD k default).positions.Sorted (· < ·))
    (hbound : ∀ k, k < terms.length → ∀ q ∈ (terms.getD k default).positions,
      q + terms.length ≤ 2 ^ 32)
    (hlen : order.length = terms.length)
    (hord1 : ∀ j, j < terms.length → order.getD j 0 < terms.length)
    (hord2 : ∀ k, k < terms.length → ∃ j, j < terms.length ∧ order.getD j 0 = k)
    (fuel : Nat)
    (hfuel : ∀ k, k < terms.length →
      (terms.getD k default).positions.length * terms.length + terms.length ≤ fuel)
    (body : Option (TestDoc × ScanTrace))
    (hbody : body =
      (let poslists0 := exact_start_position_list terms order
          (List.replicate terms.length default) 0
       let pl0 := (poslists0.getD 0 default).skip_to (order.getD 0 0)
       if pl0.ok = false then some (reject c order [order.getD 0 0], ⟨[], [], false⟩)
       else
         let poslists1 := exact_start_position_list terms order (poslists0.set 0 pl0) 1
         let opened := [order.getD 0 0, order.getD 1 0]
         if (poslists1.getD 0 default).get_approx_size
            > (poslists1.getD 1 default).get_approx_size
         then
           let pl1 := (poslists1.getD 1 default).skip_to (order.getD 1 0)
           if pl1.ok = false then some (reject c order opened, ⟨[], [], false⟩)
           else
             let poslists2 := ((poslists1.set 1 pl1).set 0 pl1).set 1 pl0
             let order1 := (order.set 0 (order.getD 1 0)).set 1 (order.getD 0 0)
             exact_phrase_loop_trace terms order1 c fuel poslists2 1
               (tp_sub pl1.get_position (order1.getD 0 0)) 1 opened
               ⟨[pl1.get_position], [tp_sub pl1.get_position (order1.getD 0 0)],
                decide (pl1.get_position < order1.getD 0 0)⟩
         else
           exact_phrase_loop_trace terms order c fuel poslists1 1
             (tp_sub pl0.get_position (order.getD 0 0)) 1 opened
             ⟨[pl0.get_position], [tp_sub pl0.get_position (order.getD 0 0)],
              decide (pl0.get_position < order.getD 0 0)⟩)) :
    ∃ r tr, body = some (r, tr) ∧ tr.underflow = false ∧
      tr.anchors.Sorted (· < ·) ∧ tr.bases.Sorted (· < ·) ∧
      tr.anchors.length = tr.bases.length := by
  subst hbody
  simp only []
  have hrl : (List.replicate terms.length (default : PositionList)).length = terms.length :=
    List.length_replicate _ _
  have hidx0 := hord1 0 (by omega)
  have hidx1 := hord1 1 (by omega)
  have e0 : (exact_start_position_list terms order
      (List.replicate terms.length default) 0).getD 0 default
      = (terms.getD (order.getD 0 0) default).read_position_list := by
    unfold exact_start_position_list
    exact getD_set_self _ _ _ _ (by rw [hrl]; omega)
  rw [e0]
  obtain ⟨hinv0, hnot0, hok0⟩ := skip_to_spec _ _ (order.getD 0 0) (order.getD 0 0)
    (cursorInv_fresh (terms.getD (order.getD 0 0) default) (hsorted _ hidx0) _) le_rfl
  have hl0 := skip_to_rest_length_le (terms.getD (order.getD 0 0) default).read_position_list
    (order.getD 0 0)
  have hf0 := hfuel _ hidx0
  generalize hpl0 : (terms.getD (order.getD 0 0) default).read_position_list.skip_to
    (order.getD 0 0) = pl0 at hinv0 hnot0 hok0 hl0 ⊢
  have hl0b : pl0.rest.length ≤ (terms.getD (order.getD 0 0) default).positions.length := hl0
  cases hokv0 : pl0.ok
  · rw [if_pos rfl]
    exact ⟨_, _, rfl, rfl, List.sorted_nil, List.sorted_nil, rfl⟩
  · obtain ⟨hhd0, hgm0, hge0, hmin0, hinvg0⟩ := hok0 hokv0
    rw [if_neg (by simp)]
    have hset0len : ((exact_start_position_list terms order
        (List.replicate terms.length default) 0).set 0 pl0).length = terms.length := by
      unfold exact_start_position_list; simp
    have e10 : (exact_start_position_list terms order
        ((exact_start_position_list terms order
          (List.replicate terms.length default) 0).set 0 pl0) 1).getD 0 default = pl0 := by
      unfold exact_start_position_list
      rw [getD_set_other _ _ _ _ _ (by norm_num), getD_set_self _ _ _ _ (by simp; omega)]
    have e11 : (exact_start_position_list terms order
        ((exact_start_position_list terms order
          (List.replicate terms.length default) 0).set 0 pl0) 1).getD 1 default
        = (terms.getD (order.getD 1 0) default).read_position_list := by
      unfold exact_start_position_list
      rw [getD_set_self _ _ _ _ (by simp; omega)]
    have hp1len : (exact_start_position_list terms order
        ((exact_start_position_list terms order
          (List.replicate terms.length default) 0).set 0 pl0) 1).length = terms.length := by
      unfold exact_start_position_list; simp
    rw [e10, e11]
    generalize exact_start_position_list terms order
        ((exact_start_position_list terms order
          (List.replicate terms.length default) 0).set 0 pl0) 1 = poslists1
      at e10 e11 hp1len ⊢
    have hgb0 := hbound _ hidx0 _ hgm0
    have hmul0 : pl0.rest.length * terms.length
        ≤ (terms.getD (order.getD 0 0) default).positions.length * terms.length :=
      Nat.mul_le_mul_right _ hl0b
    by_cases hsz : pl0.get_approx_size
        > (terms.getD (order.getD 1 0) default).read_position_list.get_approx_size
    · rw [if_pos hsz]
      obtain ⟨hinv1, hnot1, hok1⟩ := skip_to_spec _ _ (order.getD 1 0) (order.getD 1 0)
        (cursorInv_fresh (terms.getD (order.getD 1 0) default) (hsorted _ hidx1) _) le_rfl
      have hl1 := skip_to_rest_length_le
        (terms.getD (order.getD 1 0) default).read_position_list (order.getD 1 0)
      have hf1 := hfuel _ hidx1
      generalize (terms.getD (order.getD 1 0) default).read_position_list.skip_to
        (order.getD 1 0) = pl1 at hinv1 hnot1 hok1 hl1 ⊢
      have hl1b : pl1.rest.length ≤ (terms.getD (order.getD 1 0) default).positions.length :=
        hl1
      have hmul1 : pl1.rest.length * terms.length
          ≤ (terms.getD (order.getD 1 0) default).positions.length * terms.length :=
        Nat.mul_le_mul_right _ hl1b
      cases hokv1 : pl1.ok
      · rw [if_pos rfl]
        exact ⟨_, _, rfl, rfl, List.sorted_nil, List.sorted_nil, rfl⟩
      · obtain ⟨hhd1, hgm1, hge1, hmin1, hinvg1⟩ := hok1 hokv1
        rw [if_neg (by simp)]
        obtain ⟨s0, s1, so1, so2⟩ := swap_order_props order terms.length hn hlen hord1 hord2
        have hgb1 := hbound _ hidx1 _ hgm1
        have hnu : decide (pl1.get_position < order.getD 1 0) = false :=
          decide_eq_false (by omega)
        rw [s0, tp_sub_eq pl1.get_position (order.getD 1 0) hge1 (by omega), hnu]
        have hadd : pl1.get_position - order.getD 1 0 + order.getD 1 0 = pl1.get_position := by
          omega
        obtain ⟨r, as, bs, hrun, hsa, hsb, hlab⟩ :=
          exact_phrase_loop_trace_correct terms _ c hsorted hbound so1 fuel
            (((poslists1.set 1 pl1).set 0 pl1).set 1 pl0) 1
            (pl1.get_position - order.getD 1 0) 1 [order.getD 0 0, order.getD 1 0]
            ⟨[pl1.get_position], [pl1.get_position - order.getD 1 0], false⟩
            (by
              refine ⟨⟨le_refl _, by omega⟩, ⟨le_refl _, by omega, by omega⟩,
                by simp [hp1len], ?_, ?_, ?_, ?_, ?_⟩
              · rw [s0, getD_set_other _ _ _ _ _ (by norm_num),
                  getD_set_self _ _ _ _ (by simp [hp1len]; omega), hadd]
                exact hinvg1
              · rw [s0, getD_set_other _ _ _ _ _ (by norm_num),
                  getD_set_self _ _ _ _ (by simp [hp1len]; omega), hadd]
                exact hhd1
              · intro j hj1 hj2
                have hj : j = 1 := by omega
                subst hj
                rw [s1, getD_set_self _ _ _ _ (by simp [hp1len]; omega)]
                exact cursorInv_mono _ _ _ _ hinv0 (by omega)
              · intro j hj1 hj2; omega
              · intro p hp
                have := hmin1 _ (hp _ hidx1) (by omega)
                omega)
            (by
              rw [getD_set_other _ _ _ _ _ (by norm_num),
                getD_set_self _ _ _ _ (by simp [hp1len]; omega)]
              omega)
        rw [s0, hadd] at hsa
        refine ⟨r, _, hrun, rfl, ?_, ?_, ?_⟩
        · simpa using hsa
        · simpa using hsb
        · simp [hlab]
    · rw [if_neg hsz]
      have hnu : decide (pl0.get_position < order.getD 0 0) = false :=
        decide_eq_false (by omega)
      rw [tp_sub_eq pl0.get_position (order.getD 0 0) hge0 (by omega), hnu]
      have hadd : pl0.get_position - order.getD 0 0 + order.getD 0 0 = pl0.get_position := by
        omega
      obtain ⟨r, as, bs, hrun, hsa, hsb, hlab⟩ :=
        exact_phrase_loop_trace_correct terms _ c hsorted hbound hord1 fuel
          poslists1 1 (pl0.get_position - order.getD 0 0) 1 [order.getD 0 0, order.getD 1 0]
          ⟨[pl0.get_position], [pl0.get_position - order.getD 0 0], false⟩
          (by
            refine ⟨⟨le_refl _, by omega⟩, ⟨le_refl _, by omega, by omega⟩, hp1len,
              ?_, ?_, ?_, ?_, ?_⟩
            · rw [e10, hadd]; exact hinvg0
            · rw [e10, hadd]; exact hhd0
            · intro j hj1 hj2
              have hj : j = 1 := by omega
              subst hj
              rw [e11]
              exact cursorInv_fresh _ (hsorted _ hidx1) _
            · intro j hj1 hj2; omega
            · intro p hp
              have := hmin0 _ (hp _ hidx0) (by omega)
              omega)
          (by
            rw [e10]
            omega)
      rw [hadd] at hsa
      refine ⟨r, _, hrun, rfl, ?_, ?_, ?_⟩
      · simpa using hsa
      · simpa using hsb
      · simp [hlab]

/-- With a at position 4294967295 only and b at position 5 only, once both cursors are
started an iteration of the loop leaves `base`, `i` and the cursors as they were:
`base + 1` wraps to 0, b is found at 5, and `skip_to(4)` leaves the anchor where it is. -/
theorem exact_phrase_loop_stuck (c : Counters) : ∀ (fuel : Nat) (tr : ScanTrace),
    exact_phrase_loop_trace [⟨1, [4294967295], 1⟩, ⟨1, [5], 1⟩] [0, 1] c fuel
      [⟨true, [4294967295], 1⟩, ⟨true, [5], 1⟩] 1 4294967295 1 [0, 1] tr = none := by
  intro fuel
  induction fuel with
  | zero => intro _; rfl
  | succ f ih =>
    intro tr
    rw [exact_phrase_loop_trace]
    simp only []
    rw [if_neg (by decide), if_neg (by decide), if_neg (by decide)]
    exact ih _

/-- C22 (as stated, refuted): two terms with finite ascending position lists, a at
position 4294967295 only and b at position 5 only.  `required = base + 1` wraps to 0, b
is found at 5, the anchor is asked to skip to 4 and stays at 4294967295, and the scan
restarts with the same `base`: however many iterations are allowed, `test_doc` does not
return. -/
theorem exact_phrase_never_returns :
    2 ≤ ([⟨1, [4294967295], 1⟩, ⟨1, [5], 1⟩] : List Term).length ∧
    (∀ t ∈ ([⟨1, [4294967295], 1⟩, ⟨1, [5], 1⟩] : List Term), t.positions.Sorted (· < ·)) ∧
    (∀ fuel, exact_phrase_test_doc_trace fuel [⟨1, [4294967295], 1⟩, ⟨1, [5], 1⟩] [0, 1]
      ⟨0, 0⟩ = none) ∧
    exact_phrase_test_doc [⟨1, [4294967295], 1⟩, ⟨1, [5], 1⟩] [0, 1] ⟨0, 0⟩ = none := by
  refine ⟨by decide, by decide, fun fuel => ?_, by decide⟩
  cases fuel with
  | zero => rfl
  | succ f =>
    have h : exact_phrase_test_doc_trace (f + 1) [⟨1, [4294967295], 1⟩, ⟨1, [5], 1⟩] [0, 1]
        ⟨0, 0⟩
        = exact_phrase_loop_trace [⟨1, [4294967295], 1⟩, ⟨1, [5], 1⟩] [0, 1] ⟨0, 0⟩ f
            [⟨true, [4294967295], 1⟩, ⟨true, [5], 1⟩] 1 4294967295 1 [0, 1]
            ⟨[4294967295, 4294967295], [4294967295, 4294967295], false⟩ := rfl
    rw [h]
    exact exact_phrase_loop_stuck ⟨0, 0⟩ f _

/-- C22 (amended): for `N ≥ 2` terms with strictly ascending position lists in which every
position `q` satisfies `q + N ≤ 2^32` (so that no termpos addition wraps), whatever
permutation the array `order` holds on entry, `ExactPhrasePostList::test_doc` terminates:
some number of iterations suffices for the call to return, more iterations change
nothing, each restart of the inner scan computes `base` from a strictly greater position
of the anchor list, so that `base` strictly increases from restart to restart, and none of
the subtractions `position - idx0` and `got - idx` underflows. -/
theorem exact_phrase_test_doc_terminates (terms : List Term) (order0 : List Nat)
    (c : Counters) (hn : 2 ≤ terms.length)
    (hsorted : ∀ t ∈ terms, t.positions.Sorted (· < ·))
    (hbound : ∀ t ∈ terms, ∀ q ∈ t.positions, q + terms.length ≤ 2 ^ 32)
    (hperm : order0.Perm (List.range terms.length)) :
    ∃ fuel r tr, exact_phrase_test_doc_trace fuel terms order0 c = some (r, tr) ∧
      (∀ fuel2, fuel ≤ fuel2 →
        exact_phrase_test_doc_trace fuel2 terms order0 c = some (r, tr)) ∧
      exact_phrase_test_doc terms order0 c = some r ∧
      tr.underflow = false ∧ tr.anchors.Sorted (· < ·) ∧ tr.bases.Sorted (· < ·) ∧
      tr.anchors.length = tr.bases.length := by
  have hp : (sort_order terms order0).Perm (List.range terms.length) :=
    (sort_order_perm terms order0).trans hperm
  have hlen : (sort_order terms order0).length = terms.length := by
    rw [hp.length_eq, List.length_range]
  have hfuel : ∀ k, k < terms.length →
      (terms.getD k default).positions.length * terms.length + terms.length
        ≤ (terms.map (fun t => t.positions.length)).sum * terms.length + terms.length := by
    intro k hk
    have hmem : (terms.getD k default).positions.length
        ∈ terms.map (fun t => t.positions.length) :=
      List.mem_map.mpr ⟨_, getD_mem_of_lt terms k hk, rfl⟩
    have := List.single_le_sum (fun x _ => Nat.zero_le x) _ hmem
    have := Nat.mul_le_mul_right terms.length this
    omega
  obtain ⟨r, tr, hrun, hu, hsa, hsb, hlab⟩ :=
    exact_phrase_trace_after_sort terms (sort_order terms order0) c hn
      (fun k hk => hsorted _ (getD_mem_of_lt terms k hk))
      (fun k hk => hbound _ (getD_mem_of_lt terms k hk))
      hlen (perm_range_getD_lt _ _ hp) (perm_range_surj _ _ hp)
      ((terms.map (fun t => t.positions.length)).sum * terms.length + terms.length) hfuel
      (exact_phrase_test_doc_trace
        ((terms.map (fun t => t.positions.length)).sum * terms.length + terms.length)
        terms order0 c) rfl
  refine ⟨_, r, tr, hrun, fun fuel2 hle =>
    exact_phrase_test_doc_trace_mono terms order0 c _ fuel2 _ hrun hle, ?_, hu, hsa, hsb, hlab⟩
  obtain ⟨r2, hr2⟩ := exact_phrase_test_doc_returns terms order0 c hn hsorted hbound hperm
  obtain ⟨F, hF⟩ := exact_phrase_test_doc_trace_fst terms order0 c
  rw [hr2] at hF
  cases hx : exact_phrase_test_doc_trace F terms order0 c with
  | none => rw [hx] at hF; cases hF
  | some x =>
    rw [hx] at hF
    simp only [Option.map_some', Option.some.injEq] at hF
    have h1 := exact_phrase_test_doc_trace_mono terms order0 c F
      (max F ((terms.map (fun t => t.positions.length)).sum * terms.length + terms.length))
      x hx (le_max_left _ _)
    have h2 := exact_phrase_test_doc_trace_mono terms order0 c _
      (max F ((terms.map (fun t => t.positions.length)).sum * terms.length + terms.length))
      _ hrun (le_max_right _ _)
    rw [h1] at h2
    simp only [Option.some.injEq] at h2
    rw [hr2, ← hF, h2]

/-- C22 at a:{0,5}, b:{2,6}: from `base = 0` b is found at 2 instead of 1, the anchor moves
on to 5, and from `base = 5` the phrase is found; and at a:{0}, b:{2}, where the anchor
runs out at the restart. -/
theorem exact_phrase_test_doc_terminates_witness :
    (exact_phrase_test_doc_trace 3 [⟨2, [0, 5], 2⟩, ⟨2, [2, 6], 2⟩] [0, 1] ⟨0, 0⟩).map
      (fun x => (x.1.result, x.2)) = some (true, ⟨[0, 5], [0, 5], false⟩) ∧
    (exact_phrase_test_doc_trace 1 [⟨1, [0], 1⟩, ⟨1, [2], 1⟩] [0, 1] ⟨0, 0⟩).map
      (fun x => (x.1.result, x.2)) = some (false, ⟨[0], [0], false⟩) ∧
    ∃ fuel r tr,
      exact_phrase_test_doc_trace fuel [⟨2, [0, 5], 2⟩, ⟨2, [2, 6], 2⟩] [0, 1] ⟨0, 0⟩
        = some (r, tr) ∧
      (∀ fuel2, fuel ≤ fuel2 →
        exact_phrase_test_doc_trace fuel2 [⟨2, [0, 5], 2⟩, ⟨2, [2, 6], 2⟩] [0, 1] ⟨0, 0⟩
          = some (r, tr)) ∧
      exact_phrase_test_doc [⟨2, [0, 5], 2⟩, ⟨2, [2, 6], 2⟩] [0, 1] ⟨0, 0⟩ = some r ∧
      tr.underflow = false ∧ tr.anchors.Sorted (· < ·) ∧ tr.bases.Sorted (· < ·) ∧
      tr.anchors.length = tr.bases.length :=
  ⟨by decide, by decide,
   exact_phrase_test_doc_terminates [⟨2, [0, 5], 2⟩, ⟨2, [2, 6], 2⟩] [0, 1] ⟨0, 0⟩ (by decide)
     (by decide) (by decide) (List.Perm.refl _)⟩

/-! ## Lazy opening of the position lists (C23) -/

/-- The stable sort is one of the outcomes the call of `sort` may have. -/
theorem sort_order_outcome (terms : List Term) (order0 : List Nat) :
    sort_outcome terms order0 (sort_order terms order0) := by
  have htot : IsTotal Nat (fun a b => (terms.getD a default).wdf ≤ (terms.getD b default).wdf) :=
    ⟨fun a b => Nat.le_total _ _⟩
  have htr : IsTrans Nat (fun a b => (terms.getD a default).wdf ≤ (terms.getD b default).wdf) :=
    ⟨fun a b c h1 h2 => Nat.le_trans h1 h2⟩
  exact ⟨sort_order_perm terms order0, List.sorted_insertionSort _ order0⟩

/-- `ExactPhrasePostList::test_doc` returns, whatever permutation of the term indices the
sort left in `order`, when no termpos addition can wrap. -/
theorem exact_phrase_test_doc_sorted_returns (terms : List Term) (order : List Nat)
    (c : Counters) (hn : 2 ≤ terms.length)
    (hsorted : ∀ t ∈ terms, t.positions.Sorted (· < ·))
    (hbound : ∀ t ∈ terms, ∀ q ∈ t.positions, q + terms.length ≤ 2 ^ 32)
    (hp : order.Perm (List.range terms.length)) :
    ∃ fuel r tr, exact_phrase_test_doc_sorted fuel terms order c = some (r, tr) := by
  have hlen : order.length = terms.length := by
    rw [hp.length_eq, List.length_range]
  have hfuel : ∀ k, k < terms.length →
      (terms.getD k default).positions.length * terms.length + terms.length
        ≤ (terms.map (fun t => t.positions.length)).sum * terms.length + terms.length := by
    intro k hk
    have hmem : (terms.getD k default).positions.length
        ∈ terms.map (fun t => t.positions.length) :=
      List.mem_map.mpr ⟨_, getD_mem_of_lt terms k hk, rfl⟩
    have := List.single_le_sum (fun x _ => Nat.zero_le x) _ hmem
    have := Nat.mul_le_mul_right terms.length this
    omega
  obtain ⟨r, tr, hrun, -⟩ :=
    exact_phrase_trace_after_sort terms order c hn
      (fun k hk => hsorted _ (getD_mem_of_lt terms k hk))
      (fun k hk => hbound _ (getD_mem_of_lt terms k hk))
      hlen (perm_range_getD_lt _ _ hp) (perm_range_surj _ _ hp)
      ((terms.map (fun t => t.positions.length)).sum * terms.length + terms.length) hfuel
      (exact_phrase_test_doc_sorted
        ((terms.map (fun t => t.positions.length)).sum * terms.length + terms.length)
        terms order c) rfl
  exact ⟨_, r, tr, hrun⟩

theorem exact_phrase_test_doc_sorted_counted (fuel : Nat) (terms : List Term)
    (order : List Nat) (c : Counters) (r : TestDoc) (tr : ScanTrace)
    (h : exact_phrase_test_doc_sorted fuel terms order c = some (r, tr)) :
    counted_once c r := by
  unfold exact_phrase_test_doc_sorted at h
  simp only [] at h
  split_ifs at h
  · cases h; exact reject_counted _ _ _
  · cases h; exact reject_counted _ _ _
  · have hl := congrArg (Option.map Prod.fst) h
    rw [exact_phrase_loop_trace_fst, Option.map_some'] at hl
    exact exact_phrase_loop_counted _ _ _ _ _ _ _ _ _ _ hl
  · have hl := congrArg (Option.map Prod.fst) h
    rw [exact_phrase_loop_trace_fst, Option.map_some'] at hl
    exact exact_phrase_loop_counted _ _ _ _ _ _ _ _ _ _ hl

theorem phrase_test_doc_fuel_counted (fuel : Nat) (terms : List Term) (window : Nat)
    (c : Counters) (r : TestDoc) (h : phrase_test_doc_fuel fuel terms window c = some r) :
    counted_once c r := by
  unfold phrase_test_doc_fuel at h
  simp only [] at h
  split_ifs at h
  · cases h; exact reject_counted _ _ _
  · exact phrase_loop_counted _ _ _ _ _ _ _ _ _ _ _ h

/-- More iterations do not change what a returning call returns. -/
theorem exact_phrase_test_doc_sorted_mono (terms : List Term) (order : List Nat)
    (c : Counters) (fuel fuel2 : Nat) (x : TestDoc × ScanTrace)
    (h : exact_phrase_test_doc_sorted fuel terms order c = some x) (hle : fuel ≤ fuel2) :
    exact_phrase_test_doc_sorted fuel2 terms order c = some x := by
  unfold exact_phrase_test_doc_sorted at h ⊢
  simp only [] at h ⊢
  split_ifs at h ⊢
  all_goals first
    | exact h
    | exact exact_phrase_loop_trace_mono _ _ _ _ _ _ _ _ _ _ _ h _ hle

theorem phrase_loop_mono (terms : List Term) (window : Nat) (c : Counters) :
    ∀ (fuel : Nat) (poslists : List PositionList) (read_hwm base pos i : Nat)
      (opened : List Nat) (r : TestDoc),
      phrase_loop terms window c fuel poslists read_hwm base pos i opened = some r →
      ∀ fuel2, fuel ≤ fuel2 →
      phrase_loop terms window c fuel2 poslists read_hwm base pos i opened = some r := by
  intro fuel
  induction fuel with
  | zero => intro _ _ _ _ _ _ _ h; cases h
  | succ f ih =>
    intro poslists read_hwm base pos i opened r h fuel2 hle
    obtain ⟨g, rfl⟩ : ∃ g, fuel2 = g + 1 := ⟨fuel2 - 1, by omega⟩
    rw [phrase_loop] at h ⊢
    simp only [] at h ⊢
    split_ifs at h ⊢
    all_goals first
      | exact h
      | exact ih _ _ _ _ _ _ _ h g (by omega)

theorem phrase_test_doc_fuel_mono (terms : List Term) (window : Nat) (c : Counters)
    (fuel fuel2 : Nat) (r : TestDoc)
    (h : phrase_test_doc_fuel fuel terms window c = some r) (hle : fuel ≤ fuel2) :
    phrase_test_doc_fuel fuel2 terms window c = some r := by
  unfold phrase_test_doc_fuel at h ⊢
  simp only [] at h ⊢
  split_ifs at h ⊢
  · exact h
  · exact phrase_loop_mono _ _ _ _ _ _ _ _ _ _ _ h _ hle

/-- The run `phrase_test_doc` is the run of `phrase_test_doc_fuel` for the number of steps
the former allows. -/
theorem phrase_test_doc_fuel_eq (terms : List Term) (window : Nat) (c : Counters) :
    ∃ fuel, phrase_test_doc_fuel fuel terms window c = phrase_test_doc terms window c := by
  unfold phrase_test_doc_fuel phrase_test_doc
  simp only []
  split_ifs
  · exact ⟨0, rfl⟩
  · exact ⟨_, rfl⟩

/-- `PhrasePostList::test_doc` returns when no termpos addition can wrap. -/
theorem phrase_test_doc_fuel_returns (terms : List Term) (window : Nat) (c : Counters)
    (hn : 2 ≤ terms.length)
    (hsorted : ∀ t ∈ terms, t.positions.Sorted (· < ·))
    (hbound : ∀ t ∈ terms, ∀ q ∈ t.positions, q + terms.length ≤ 2 ^ 32) :
    ∃ fuel r, phrase_test_doc_fuel fuel terms window c = some r := by
  obtain ⟨r, hr, -⟩ := phrase_test_doc_correct terms window c hn hsorted hbound
  obtain ⟨fuel, hf⟩ := phrase_test_doc_fuel_eq terms window c
  exact ⟨fuel, r, by rw [hf, hr]⟩

theorem exact_phrase_calls_sum (fuel : Nat) :
    ∀ (runs : List (List Term × List Nat)) (c c2 : Counters),
      exact_phrase_calls fuel runs c = some c2 →
      c2.accepted + c2.rejected = c.accepted + c.rejected + runs.length := by
  intro runs
  induction runs with
  | nil => intro c c2 h; cases h; rfl
  | cons run runs ih =>
    intro c c2 h
    rw [exact_phrase_calls] at h
    cases hx : exact_phrase_test_doc_sorted fuel run.1 run.2 c with
    | none => rw [hx] at h; cases h
    | some x =>
      rw [hx] at h
      have h1 := counted_once_sum c x.1
        (exact_phrase_test_doc_sorted_counted fuel run.1 run.2 c x.1 x.2 hx)
      have h2 := ih _ _ h
      rw [List.length_cons]
      omega

theorem phrase_calls_sum (fuel window : Nat) :
    ∀ (docs : List (List Term)) (c c2 : Counters),
      phrase_calls fuel window docs c = some c2 →
      c2.accepted + c2.rejected = c.accepted + c.rejected + docs.length := by
  intro docs
  induction docs with
  | nil => intro c c2 h; cases h; rfl
  | cons doc docs ih =>
    intro c c2 h
    rw [phrase_calls] at h
    cases hx : phrase_test_doc_fuel fuel doc window c with
    | none => rw [hx] at h; cases h
    | some r =>
      rw [hx] at h
      have h1 := counted_once_sum c r (phrase_test_doc_fuel_counted fuel doc window c r hx)
      have h2 := ih _ _ h
      rw [List.length_cons]
      omega

theorem exact_phrase_calls_mono (fuel fuel2 : Nat) (hle : fuel ≤ fuel2) :
    ∀ (runs : List (List Term × List Nat)) (c c2 : Counters),
      exact_phrase_calls fuel runs c = some c2 →
      exact_phrase_calls fuel2 runs c = some c2 := by
  intro runs
  induction runs with
  | nil => intro c c2 h; exact h
  | cons run runs ih =>
    intro c c2 h
    rw [exact_phrase_calls] at h ⊢
    cases hx : exact_phrase_test_doc_sorted fuel run.1 run.2 c with
    | none => rw [hx] at h; cases h
    | some x =>
      rw [hx] at h
      rw [exact_phrase_test_doc_sorted_mono run.1 run.2 c fuel fuel2 x hx hle]
      exact ih _ _ h

theorem phrase_calls_mono (fuel fuel2 window : Nat) (hle : fuel ≤ fuel2) :
    ∀ (docs : List (List Term)) (c c2 : Counters),
      phrase_calls fuel window docs c = some c2 →
      phrase_calls fuel2 window docs c = some c2 := by
  intro docs
  induction docs with
  | nil => intro c c2 h; exact h
  | cons doc docs ih =>
    intro c c2 h
    rw [phrase_calls] at h ⊢
    cases hx : phrase_test_doc_fuel fuel doc window c with
    | none => rw [hx] at h; cases h
    | some r =>
      rw [hx] at h
      rw [phrase_test_doc_fuel_mono doc window c fuel fuel2 r hx hle]
      exact ih _ _ h

/-- A sequence of calls of `ExactPhrasePostList::test_doc` none of which can wrap a
termpos addition runs to its end. -/
theorem exact_phrase_calls_return :
    ∀ (runs : List (List Term × List Nat)) (c : Counters),
      (∀ run ∈ runs, 2 ≤ run.1.length ∧ (∀ t ∈ run.1, t.positions.Sorted (· < ·)) ∧
        (∀ t ∈ run.1, ∀ q ∈ t.positions, q + run.1.length ≤ 2 ^ 32) ∧
        run.2.Perm (List.range run.1.length)) →
      ∃ fuel c2, exact_phrase_calls fuel runs c = some c2 := by
  intro runs
  induction runs with
  | nil => intro c _; exact ⟨0, c, rfl⟩
  | cons run runs ih =>
    intro c h
    obtain ⟨hn, hs, hb, hp⟩ := h run (List.mem_cons_self _ _)
    obtain ⟨f1, r, tr, h1⟩ := exact_phrase_test_doc_sorted_returns run.1 run.2 c hn hs hb hp
    obtain ⟨f2, c2, h2⟩ := ih r.counters (fun x hx => h x (List.mem_cons_of_mem _ hx))
    refine ⟨max f1 f2, c2, ?_⟩
    rw [exact_phrase_calls,
      exact_phrase_test_doc_sorted_mono run.1 run.2 c f1 (max f1 f2) _ h1 (le_max_left _ _)]
    exact exact_phrase_calls_mono f2 (max f1 f2) (le_max_right _ _) _ _ _ h2

theorem phrase_calls_return (window : Nat) :
    ∀ (docs : List (List Term)) (c : Counters),
      (∀ doc ∈ docs, 2 ≤ doc.length ∧ (∀ t ∈ doc, t.positions.Sorted (· < ·)) ∧
        (∀ t ∈ doc, ∀ q ∈ t.positions, q + doc.length ≤ 2 ^ 32)) →
      ∃ fuel c2, phrase_calls fuel window docs c = some c2 := by
  intro docs
  induction docs with
  | nil => intro c _; exact ⟨0, c, rfl⟩
  | cons doc docs ih =>
    intro c h
    obtain ⟨hn, hs, hb⟩ := h doc (List.mem_cons_self _ _)
    obtain ⟨f1, r, h1⟩ := phrase_test_doc_fuel_returns doc window c hn hs hb
    obtain ⟨f2, c2, h2⟩ := ih r.counters (fun x hx => h x (List.mem_cons_of_mem _ hx))
    refine ⟨max f1 f2, c2, ?_⟩
    rw [phrase_calls,
      phrase_test_doc_fuel_mono doc window c f1 (max f1 f2) _ h1 (le_max_left _ _)]
    exact phrase_calls_mono f2 (max f1 f2) window (le_max_right _ _) _ _ _ h2

/-- The two arrangements of the indices 0 and 1. -/
theorem perm_pair (order : List Nat) (h : order.Perm [0, 1]) :
    order = [0, 1] ∨ order = [1, 0] := by
  have hl := h.length_eq
  have hnd : order.Nodup := h.nodup_iff.mpr (by decide)
  match order, hl, hnd, h with
  | [x, y], _, hnd, h =>
    have hx : x ∈ ([0, 1] : List Nat) := h.subset (List.mem_cons_self _ _)
    have hy : y ∈ ([0, 1] : List Nat) :=
      h.subset (List.mem_cons_of_mem _ (List.mem_cons_self _ _))
    have hxy : x ≠ y := by
      intro e
      rw [e] at hnd
      simp at hnd
    simp only [List.mem_cons, List.mem_singleton, List.not_mem_nil, or_false] at hx hy
    rcases hx with rfl | rfl <;> rcases hy with rfl | rfl
    · exact absurd rfl hxy
    · exact Or.inl rfl
    · exact Or.inr rfl
    · exact absurd rfl hxy

/-- With a at position 4294967295 only and b at position 5 only and the sort having left
b first: once both cursors are started an iteration of the loop leaves `base`, `i` and the
cursors as they were.  `required = 4 + 0` sends a to 4294967295, `got - idx + idx0` wraps
to 0, and `skip_to(0)` leaves the anchor b at 5. -/
theorem exact_phrase_loop_stuck_swapped (c : Counters) : ∀ (fuel : Nat) (tr : ScanTrace),
    exact_phrase_loop_trace [⟨1, [4294967295], 1⟩, ⟨1, [5], 1⟩] [1, 0] c fuel
      [⟨true, [5], 1⟩, ⟨true, [4294967295], 1⟩] 1 4 1 [1, 0] tr = none := by
  intro fuel
  induction fuel with
  | zero => intro _; rfl
  | succ f ih =>
    intro tr
    rw [exact_phrase_loop_trace]
    simp only []
    rw [if_neg (by decide), if_neg (by decide), if_neg (by decide)]
    exact ih _

/-- With a at position 4294967295 only, b at position 3 only and window 2: once both
cursors are started a step of the loops leaves `base`, `pos`, `i` and the cursors as they
were.  `pos + 1` wraps to 0, b is found at 3, `b - base` is 5 in 32-bit arithmetic, over
the window, and `skip_to(2)` leaves the anchor a at 4294967295. -/
theorem phrase_loop_stuck (c : Counters) : ∀ (fuel : Nat),
    phrase_loop [⟨1, [4294967295], 1⟩, ⟨1, [3], 1⟩] 2 c fuel
      [⟨true, [4294967295], 1⟩, ⟨true, [3], 1⟩] 1 4294967295 4294967295 0 [0, 1] = none := by
  intro fuel
  induction fuel with
  | zero => rfl
  | succ f ih =>
    rw [phrase_loop]
    simp only []
    rw [if_neg (by decide), if_neg (by decide), if_neg (by decide), if_neg (by decide)]
    exact ih

/-- C16 (as stated, refuted): calls of `test_doc` that increment neither counter, because
they never return.  Exact phrase, a at position 4294967295 only and b at position 5 only:
whichever of its two outcomes the sort of the equal-wdf terms has, `required` or the
position the anchor is sent to wraps to 0 and the scan restarts with the same `base`, for
ever.  Phrase with window 2, a at position 4294967295 only and b at position 3 only:
`pos + 1` wraps to 0, b is found at 3, outside the window, and `skip_to(2)` leaves the
anchor in place, for ever.  However many iterations are allowed, neither call has
returned, and a sequence of calls containing one of them never reaches its end. -/
theorem test_doc_never_counts :
    2 ≤ ([⟨1, [4294967295], 1⟩, ⟨1, [5], 1⟩] : List Term).length ∧
    (∀ t ∈ ([⟨1, [4294967295], 1⟩, ⟨1, [5], 1⟩] : List Term), t.positions.Sorted (· < ·)) ∧
    (∀ order, sort_outcome [⟨1, [4294967295], 1⟩, ⟨1, [5], 1⟩] [0, 1] order →
      ∀ fuel, exact_phrase_test_doc_sorted fuel [⟨1, [4294967295], 1⟩, ⟨1, [5], 1⟩] order
        ⟨0, 0⟩ = none) ∧
    (∀ t ∈ ([⟨1, [4294967295], 1⟩, ⟨1, [3], 1⟩] : List Term), t.positions.Sorted (· < ·)) ∧
    (∀ fuel, phrase_test_doc_fuel fuel [⟨1, [4294967295], 1⟩, ⟨1, [3], 1⟩] 2 ⟨0, 0⟩
      = none) ∧
    (∀ fuel, exact_phrase_calls fuel
      [([⟨1, [0], 1⟩, ⟨1, [1], 1⟩], [0, 1]),
       ([⟨1, [4294967295], 1⟩, ⟨1, [5], 1⟩], [0, 1])] ⟨0, 0⟩ = none) ∧
    (∀ fuel, phrase_calls fuel 2
      [[⟨1, [0], 1⟩, ⟨1, [1], 1⟩], [⟨1, [4294967295], 1⟩, ⟨1, [3], 1⟩]] ⟨0, 0⟩ = none) := by
  have hex01 : ∀ (c : Counters) (fuel : Nat),
      exact_phrase_test_doc_sorted fuel [⟨1, [4294967295], 1⟩, ⟨1, [5], 1⟩] [0, 1] c
        = none := by
    intro c fuel
    cases fuel with
    | zero => rfl
    | succ f =>
      have h : ∃ tr, exact_phrase_test_doc_sorted (f + 1)
          [⟨1, [4294967295], 1⟩, ⟨1, [5], 1⟩] [0, 1] c
          = exact_phrase_loop_trace [⟨1, [4294967295], 1⟩, ⟨1, [5], 1⟩] [0, 1] c f
              [⟨true, [4294967295], 1⟩, ⟨true, [5], 1⟩] 1 4294967295 1 [0, 1] tr :=
        ⟨_, rfl⟩
      obtain ⟨tr, h⟩ := h
      rw [h]
      exact exact_phrase_loop_stuck c f tr
  have hex10 : ∀ (fuel : Nat),
      exact_phrase_test_doc_sorted fuel [⟨1, [4294967295], 1⟩, ⟨1, [5], 1⟩] [1, 0] ⟨0, 0⟩
        = none := by
    intro fuel
    cases fuel with
    | zero => rfl
    | succ f =>
      have h : ∃ tr, exact_phrase_test_doc_sorted (f + 1)
          [⟨1, [4294967295], 1⟩, ⟨1, [5], 1⟩] [1, 0] ⟨0, 0⟩
          = exact_phrase_loop_trace [⟨1, [4294967295], 1⟩, ⟨1, [5], 1⟩] [1, 0] ⟨0, 0⟩ f
              [⟨true, [5], 1⟩, ⟨true, [4294967295], 1⟩] 1 4 1 [1, 0] tr :=
        ⟨_, rfl⟩
      obtain ⟨tr, h⟩ := h
      rw [h]
      exact exact_phrase_loop_stuck_swapped ⟨0, 0⟩ f tr
  have hph : ∀ (c : Counters) (fuel : Nat),
      phrase_test_doc_fuel fuel [⟨1, [4294967295], 1⟩, ⟨1, [3], 1⟩] 2 c = none := by
    intro c fuel
    cases fuel with
    | zero => rfl
    | succ f =>
      have h : phrase_test_doc_fuel (f + 1) [⟨1, [4294967295], 1⟩, ⟨1, [3], 1⟩] 2 c
          = phrase_loop [⟨1, [4294967295], 1⟩, ⟨1, [3], 1⟩] 2 c f
              [⟨true, [4294967295], 1⟩, ⟨true, [3], 1⟩] 1 4294967295 4294967295 0 [0, 1] :=
        rfl
      rw [h]
      exact phrase_loop_stuck c f
  refine ⟨by decide, by decide, ?_, by decide, hph _, ?_, ?_⟩
  · intro order ho fuel
    rcases perm_pair order ho.1 with rfl | rfl
    · exact hex01 _ fuel
    · exact hex10 fuel
  · intro fuel
    rw [exact_phrase_calls]
    generalize exact_phrase_test_doc_sorted fuel _ _ _ = o
    cases o with
    | none => rfl
    | some x =>
      show exact_phrase_calls fuel [([⟨1, [4294967295], 1⟩, ⟨1, [5], 1⟩], [0, 1])]
        x.1.counters = none
      rw [exact_phrase_calls]
      dsimp only
      rw [hex01]
  · intro fuel
    rw [phrase_calls]
    generalize phrase_test_doc_fuel fuel _ _ _ = o
    cases o with
    | none => rfl
    | some x =>
      show phrase_calls fuel 2 [[⟨1, [4294967295], 1⟩, ⟨1, [3], 1⟩]] x.counters = none
      rw [phrase_calls, hph]

/-- C16 (amended): every call of `ExactPhrasePostList::test_doc` and of
`PhrasePostList::test_doc` that returns has incremented exactly one of the counters
`accepted` and `rejected`, by exactly one: `accepted` iff it returns true, `rejected` iff
it returns false; this for every content of `order` and after however many iterations.
For `N ≥ 2` terms with strictly ascending position lists in which every position `q`
satisfies `q + N ≤ 2^32` every call returns, the same from some number of iterations on.
Hence after a sequence of calls that has run to its end `accepted + rejected` has grown
by the number of calls made, and a sequence of calls on such documents does run to its
end. -/
theorem test_doc_counts_once (terms : List Term) (c : Counters) :
    (∀ fuel order r tr, exact_phrase_test_doc_sorted fuel terms order c = some (r, tr) →
      counted_once c r) ∧
    (∀ fuel window r, phrase_test_doc_fuel fuel terms window c = some r →
      counted_once c r) ∧
    (2 ≤ terms.length → (∀ t ∈ terms, t.positions.Sorted (· < ·)) →
      (∀ t ∈ terms, ∀ q ∈ t.positions, q + terms.length ≤ 2 ^ 32) →
      (∀ order, order.Perm (List.range terms.length) →
        ∃ fuel r tr, (∀ fuel2, fuel ≤ fuel2 →
          exact_phrase_test_doc_sorted fuel2 terms order c = some (r, tr)) ∧
          counted_once c r) ∧
      (∀ window, ∃ fuel r, (∀ fuel2, fuel ≤ fuel2 →
          phrase_test_doc_fuel fuel2 terms window c = some r) ∧
          counted_once c r)) ∧
    (∀ fuel runs c2, exact_phrase_calls fuel runs c = some c2 →
      c2.accepted + c2.rejected = c.accepted + c.rejected + runs.length) ∧
    (∀ fuel window docs c2, phrase_calls fuel window docs c = some c2 →
      c2.accepted + c2.rejected = c.accepted + c.rejected + docs.length) ∧
    (∀ runs : List (List Term × List Nat),
      (∀ run ∈ runs, 2 ≤ run.1.length ∧ (∀ t ∈ run.1, t.positions.Sorted (· < ·)) ∧
        (∀ t ∈ run.1, ∀ q ∈ t.positions, q + run.1.length ≤ 2 ^ 32) ∧
        run.2.Perm (List.range run.1.length)) →
      ∃ fuel c2, exact_phrase_calls fuel runs c = some c2 ∧
        c2.accepted + c2.rejected = c.accepted + c.rejected + runs.length) ∧
    (∀ (window : Nat) (docs : List (List Term)),
      (∀ doc ∈ docs, 2 ≤ doc.length ∧ (∀ t ∈ doc, t.positions.Sorted (· < ·)) ∧
        (∀ t ∈ doc, ∀ q ∈ t.positions, q + doc.length ≤ 2 ^ 32)) →
      ∃ fuel c2, phrase_calls fuel window docs c = some c2 ∧
        c2.accepted + c2.rejected = c.accepted + c.rejected + docs.length) := by
  refine ⟨fun fuel order r tr h => exact_phrase_test_doc_sorted_counted fuel terms order c r tr h,
    fun fuel window r h => phrase_test_doc_fuel_counted fuel terms window c r h,
    fun hn hs hb => ⟨fun order hp => ?_, fun window => ?_⟩,
    fun fuel runs c2 h => exact_phrase_calls_sum fuel runs c c2 h,
    fun fuel window docs c2 h => phrase_calls_sum fuel window docs c c2 h,
    fun runs h => ?_, fun window docs h => ?_⟩
  · obtain ⟨fuel, r, tr, h⟩ := exact_phrase_test_doc_sorted_returns terms order c hn hs hb hp
    exact ⟨fuel, r, tr,
      fun fuel2 hle => exact_phrase_test_doc_sorted_mono terms order c fuel fuel2 _ h hle,
      exact_phrase_test_doc_sorted_counted fuel terms order c r tr h⟩
  · obtain ⟨fuel, r, h⟩ := phrase_test_doc_fuel_returns terms window c hn hs hb
    exact ⟨fuel, r,
      fun fuel2 hle => phrase_test_doc_fuel_mono terms window c fuel fuel2 r h hle,
      phrase_test_doc_fuel_counted fuel terms window c r h⟩
  · obtain ⟨fuel, c2, h2⟩ := exact_phrase_calls_return runs c h
    exact ⟨fuel, c2, h2, exact_phrase_calls_sum fuel runs c c2 h2⟩
  · obtain ⟨fuel, c2, h2⟩ := phrase_calls_return window docs c h
    exact ⟨fuel, c2, h2, phrase_calls_sum fuel window docs c c2 h2⟩

/-- C16 (amended) at the phrase "a b": on a document with a at 0 and 5 and b at 1 and 6
the exact-phrase call returns true and leaves the counters at 1 and 0; on a document with
a at 0 and b at 2 it returns false and the phrase call with window 3 returns true; after
the two exact-phrase calls in a row the counters are at 1 and 1. -/
theorem test_doc_counts_once_witness :
    exact_phrase_test_doc_sorted 4 [⟨1, [0, 5], 2⟩, ⟨1, [1, 6], 2⟩] [0, 1] ⟨0, 0⟩
      = some (⟨true, ⟨1, 0⟩, [0, 1], [0, 1]⟩, ⟨[0], [0], false⟩) ∧
    counted_once ⟨0, 0⟩ ⟨true, ⟨1, 0⟩, [0, 1], [0, 1]⟩ ∧
    phrase_test_doc_fuel 4 [⟨1, [0], 1⟩, ⟨1, [2], 1⟩] 3 ⟨0, 0⟩
      = some ⟨true, ⟨1, 0⟩, [], [0, 1]⟩ ∧
    counted_once ⟨0, 0⟩ ⟨true, ⟨1, 0⟩, [], [0, 1]⟩ ∧
    (∃ fuel r tr, (∀ fuel2, fuel ≤ fuel2 →
        exact_phrase_test_doc_sorted fuel2 [⟨1, [0], 1⟩, ⟨1, [2], 1⟩] [1, 0] ⟨0, 0⟩
          = some (r, tr)) ∧ counted_once ⟨0, 0⟩ r) ∧
    exact_phrase_calls 4 [([⟨1, [0, 5], 2⟩, ⟨1, [1, 6], 2⟩], [0, 1]),
        ([⟨1, [0], 1⟩, ⟨1, [2], 1⟩], [1, 0])] ⟨0, 0⟩ = some ⟨1, 1⟩ ∧
    (1 : Nat) + 1 = 0 + 0 + ([([⟨1, [0, 5], 2⟩, ⟨1, [1, 6], 2⟩], [0, 1]),
        ([⟨1, [0], 1⟩, ⟨1, [2], 1⟩], [1, 0])] : List (List Term × List Nat)).length :=
  ⟨by decide,
   (test_doc_counts_once [⟨1, [0, 5], 2⟩, ⟨1, [1, 6], 2⟩] ⟨0, 0⟩).1 4 [0, 1]
     ⟨true, ⟨1, 0⟩, [0, 1], [0, 1]⟩ ⟨[0], [0], false⟩ (by decide),
   by decide,
   (test_doc_counts_once [⟨1, [0], 1⟩, ⟨1, [2], 1⟩] ⟨0, 0⟩).2.1 4 3
     ⟨true, ⟨1, 0⟩, [], [0, 1]⟩ (by decide),
   ((test_doc_counts_once [⟨1, [0], 1⟩, ⟨1, [2], 1⟩] ⟨0, 0⟩).2.2.1 (by decide) (by decide)
     (by decide)).1 [1, 0] (by decide),
   by decide,
   (test_doc_counts_once [] ⟨0, 0⟩).2.2.2.1 4
     [([⟨1, [0, 5], 2⟩, ⟨1, [1, 6], 2⟩], [0, 1]), ([⟨1, [0], 1⟩, ⟨1, [2], 1⟩], [1, 0])]
     ⟨1, 1⟩ (by decide)⟩

end Xapian
